import Mathlib

/-!
# tsh: job table and job control

A shallow embedding of `src/tsh.c` (the tiny shell with job control) and a
verification of its job table and of the dispatcher and signal handlers that
use it.

Conventions of the embedding.

* The C globals (`jobs`, `nextjid`, `verbose`, `history`, `history_idx`,
  `shell_pid`, `username`) are the fields of one record, `Shell`, which every
  function takes and returns.  The record also carries what the program does to
  the outside: the lines it prints (`out`), the `kill` calls it makes
  (`kills`), and the files it keeps (`procs` for `./proc/<pid>/status`,
  `passwd` and `homes` for `./etc/passwd` and `./home`, `histfile` for the
  user's `.tsh_history`).
* `int` and `pid_t` are modelled by `Int`.  The only arithmetic on them is
  `nextjid++` and `maxjid(jobs)+1`, which would need more than `2^31`
  operations to overflow; the one place where a value out of the range of
  `int` can enter, `atoi`, reduces it to 32 bits as the C library does.
* The fixed-size buffers of the source are modelled where a caller can fill
  them: a line of `MAXLINE` characters or more, a line of `MAXARGS` words or
  more and a `%` target of 20 characters or more are undefined behaviour.
* C strings are `List Char` (no terminating NUL); the empty string is `[]`.
* `exit` and undefined behaviour (a NULL dereference, an out-of-bounds read)
  end the run: they are recorded in `Shell.mode`, and the code that would follow
  is skipped.
-/

namespace Tsh

/-! ## Constants -/

/-- The `#define MAXJOBS 16`. -/
abbrev MAXJOBS : Nat := 16

/-- The `#define MAXHISTORY 10`. -/
abbrev MAXHISTORY : Nat := 10

/-- The `#define MAXLINE 1024`. -/
abbrev MAXLINE : Nat := 1024

/-- The `#define MAXARGS 128`. -/
abbrev MAXARGS : Nat := 128

/-- Job state `UNDEF` (0). -/
abbrev UNDEF : Int := 0

/-- Job state `FG` (1): running in the foreground. -/
abbrev FG : Int := 1

/-- Job state `BG` (2): running in the background. -/
abbrev BG : Int := 2

/-- Job state `ST` (3): stopped. -/
abbrev ST : Int := 3

/-! ## Data -/

/-- The `struct job_t`. -/
structure job_t where
  pid : Int
  jid : Int
  state : Int
  cmdline : List Char
deriving DecidableEq, Repr

/-- The signals the shell sends with `kill`. -/
inductive Signal where
  | SIGINT
  | SIGTSTP
  | SIGCONT
deriving DecidableEq, Repr

/-- What the shell prints; each constructor is one `printf` of the source. -/
inductive Msg where
  /-- Prints `"Tried to create too many jobs\n"` (addjob). -/
  | tooManyJobs
  /-- Prints `"Added job [%d] %d %s\n"` (addjob, verbose). -/
  | addedJob (jid pid : Int) (cmdline : List Char)
  /-- Prints `"need more arguments\n"` (do_bgfg, add_user). -/
  | needMoreArgs
  /-- Prints `"too many arguments\n"` (do_bgfg, builtin_cmd, add_user). -/
  | tooManyArgs
  /-- Prints `"no such job or process\n"` (do_bgfg). -/
  | noSuchJob
  /-- Prints `"There are suspended jobs.\n"` (builtin_cmd, logout). -/
  | suspendedJobs
  /-- Prints `"root privileges required to run adduser.\n"` (add_user). -/
  | rootRequired
  /-- Prints `"User already exists\n"` (add_user). -/
  | userExists
  /-- Prints `"only support the last %d commands\n"` (nth_cmd). -/
  | onlyLast (n : Nat)
  /-- Prints `"no %dth command yet\n"` (nth_cmd). -/
  | noNth (n : Int)
  /-- Prints `"%d %s"` (list_history). -/
  | historyLine (n : Nat) (line : List Char)
  /-- Prints `"[%d] (%d) "`, the state word, and the command line (listjobs). -/
  | jobLine (jid pid state : Int) (cmdline : List Char)
  /-- Prints `"process %d terminated due to uncaught signal %d: %s\n"` (sigchld_handler). -/
  | terminated (pid sig : Int)
  /-- Prints `"%s: %s\n"` with the message and `strerror(errno)` (unix_error). -/
  | unixError (msg : String)
  /-- Prints `"Terminating after receipt of SIGQUIT signal\n"` (sigquit_handler). -/
  | sigquit
deriving DecidableEq, Repr

/-- One `./proc/<pid>/status` file, as `write_proc` writes it: `PGid` is the
pid again, `Sid` is `shell_pid` and `Username` is `username`, so the record
keeps the three fields that vary. -/
structure ProcRec where
  pid : Int
  name : List Char
  ppid : Int
  stat : String
deriving DecidableEq, Repr

/-- Where control is between two inputs.

* `run`: in the dispatcher (`main` is about to read a command line, or a
  function is executing);
* `inWaitfg i`: suspended in the `sigsuspend` of `waitfg`, whose `job` pointer
  is `&jobs[i]`;
* `inQuit`: suspended in the `sigsuspend` of `do_quit`;
* `exited c`: the process called `exit(c)`;
* `undefinedBehaviour`: the C program did something with no defined meaning
  (NULL dereference, out-of-bounds read, unbounded recursion). -/
inductive Mode where
  | run
  | inWaitfg (slot : Nat)
  | inQuit
  | exited (code : Nat)
  | undefinedBehaviour
deriving DecidableEq, Repr

/-- The shell's globals and the outside world it acts on. -/
structure Shell where
  /-- The array `struct job_t jobs[MAXJOBS]`. -/
  jobs : List job_t
  /-- The counter `int nextjid`. -/
  nextjid : Int
  /-- The flag `int verbose`. -/
  verbose : Bool
  /-- The array `char history[MAXHISTORY][MAXLINE]`. -/
  history : List (List Char)
  /-- The index `int history_idx`. -/
  history_idx : Nat
  /-- The global `int shell_pid`. -/
  shell_pid : Int
  /-- The global `char *username`. -/
  username : List Char
  /-- Everything printed so far, oldest first. -/
  out : List Msg
  /-- Every `kill(pid, sig)` made so far, oldest first. -/
  kills : List (Int × Signal)
  /-- The records under `./proc`. -/
  procs : List ProcRec
  /-- The lines `name:password:...` of `./etc/passwd`. -/
  passwd : List (List Char × List Char)
  /-- The directories under `./home`. -/
  homes : List (List Char)
  /-- The lines of the user's `.tsh_history` file. -/
  histfile : List (List Char)
  /-- Where control is. -/
  mode : Mode
deriving DecidableEq, Repr

/-- Sequencing: the rest of a function body `k` runs only if the call before it
came back (it did not exit, crash or suspend). -/
def Shell.seq (s : Shell) (k : Shell → Shell) : Shell :=
  if s.mode = Mode.run then k s else s

/-- The `printf` of one line. -/
def Shell.print (s : Shell) (m : Msg) : Shell :=
  { s with out := s.out ++ [m] }

/-- The function `unix_error`: print the message and `exit(1)`. -/
def unix_error (s : Shell) (msg : String) : Shell :=
  { s with out := s.out ++ [Msg.unixError msg], mode := Mode.exited 1 }

/-! ## The job list helper routines -/

/-- The job a cleared slot holds: what `clearjob` writes. -/
def clearedJob : job_t :=
  { pid := 0, jid := 0, state := UNDEF, cmdline := [] }

/-- The function `clearjob`, on one slot. -/
def clearjob (_job : job_t) : job_t :=
  clearedJob

/-- The function `initjobs`: clear each of the `MAXJOBS` slots. -/
def initjobs : List job_t :=
  List.replicate MAXJOBS clearedJob

/-- The loop `for (i = 0; i < MAXJOBS; i++) if (p(jobs[i])) return i;`: the
index of the first slot that satisfies `p`, if there is one. -/
def firstIdx (p : job_t → Bool) : List job_t → Option Nat
  | [] => none
  | j :: js => if p j then some 0 else (firstIdx p js).map (· + 1)

/-- The function `maxjid`: the largest job id in the array, scanning every
slot, starting from `max = 0`. -/
def maxjid (jobs : List job_t) : Int :=
  jobs.foldl (fun max j => if j.jid > max then j.jid else max) 0

/-- The function `addjob`; the first component is its return value. -/
def addjob (s : Shell) (pid : Int) (state : Int) (cmdline : List Char) : Int × Shell :=
  if pid < 1 then (0, s)
  else
    match firstIdx (fun j => j.pid == 0) s.jobs with
    | some i =>
      let job : job_t := { pid := pid, jid := s.nextjid, state := state, cmdline := cmdline }
      let next := s.nextjid + 1
      let s1 : Shell :=
        { s with jobs := s.jobs.set i job,
                 nextjid := if next > (MAXJOBS : Int) then 1 else next }
      (1, if s.verbose then s1.print (Msg.addedJob job.jid job.pid job.cmdline) else s1)
    | none => (0, s.print Msg.tooManyJobs)

/-- The function `deletejob`; the first component is its return value. -/
def deletejob (s : Shell) (pid : Int) : Int × Shell :=
  if pid < 1 then (0, s)
  else
    match firstIdx (fun j => j.pid == pid) s.jobs with
    | some i =>
      let jobs1 := s.jobs.set i (clearjob (s.jobs.getD i clearedJob))
      (1, { s with jobs := jobs1, nextjid := maxjid jobs1 + 1 })
    | none => (0, s)

/-- The function `fgpid`: pid of the first slot in state `FG`, or 0. -/
def fgpid (jobs : List job_t) : Int :=
  match firstIdx (fun j => j.state == FG) jobs with
  | some i => (jobs.getD i clearedJob).pid
  | none => 0

/-- The function `getjobpid`; `none` is `NULL`, `some i` is `&jobs[i]`. -/
def getjobpid (jobs : List job_t) (pid : Int) : Option Nat :=
  if pid < 1 then none else firstIdx (fun j => j.pid == pid) jobs

/-- The function `getjobjid`; `none` is `NULL`, `some i` is `&jobs[i]`. -/
def getjobjid (jobs : List job_t) (jid : Int) : Option Nat :=
  if jid < 1 then none else firstIdx (fun j => j.jid == jid) jobs

/-- The function `pid2jid`. -/
def pid2jid (jobs : List job_t) (pid : Int) : Int :=
  if pid < 1 then 0
  else
    match firstIdx (fun j => j.pid == pid) jobs with
    | some i => (jobs.getD i clearedJob).jid
    | none => 0

/-- The function `listjobs`: one line per slot with `pid != 0`, in slot order. -/
def listjobs (s : Shell) : Shell :=
  let lines := (s.jobs.filter (fun j => j.pid != 0)).map
    (fun j => Msg.jobLine j.jid j.pid j.state j.cmdline)
  { s with out := s.out ++ lines }

/-- The function `check_suspend`: pid of the first slot in state `ST`, or 0. -/
def check_suspend (jobs : List job_t) : Int :=
  match firstIdx (fun j => j.state == ST) jobs with
  | some i => (jobs.getD i clearedJob).pid
  | none => 0

/-- The function `check_run`: pid of the first slot in state `FG` or `BG`, or 0. -/
def check_run (jobs : List job_t) : Int :=
  match firstIdx (fun j => j.state == FG || j.state == BG) jobs with
  | some i => (jobs.getD i clearedJob).pid
  | none => 0

/-! ## The process records under `./proc` -/

/-- Whether `./proc/<pid>` exists. -/
def hasProc (s : Shell) (pid : Int) : Bool :=
  s.procs.any (fun r => r.pid == pid)

/-- The function `write_proc`: `fopen(path, "w")` creates the status file or
truncates it, then the fields are written.  It is only called by `add_proc`,
right after the directory was made. -/
def write_proc (s : Shell) (name : List Char) (pid ppid : Int) (stat : String) : Shell :=
  { s with procs := s.procs.filter (fun r => r.pid != pid) ++
      [{ pid := pid, name := name, ppid := ppid, stat := stat }] }

/-- The function `add_proc`: `mkdir` fails when the directory is already
there, and then `unix_error` exits. -/
def add_proc (s : Shell) (name : List Char) (pid ppid : Int) (stat : String) : Shell :=
  if hasProc s pid then unix_error s "mkdir error"
  else write_proc s name pid ppid stat

/-- The function `change_proc_stat`: `fopen(path, "r+")` fails when the file is
not there, and then `unix_error` exits; otherwise the `STAT` line is
rewritten. -/
def change_proc_stat (s : Shell) (pid : Int) (stat : String) : Shell :=
  if hasProc s pid then
    { s with procs := s.procs.map (fun r => if r.pid == pid then { r with stat := stat } else r) }
  else unix_error s "fopen"

/-- The function `remove_proc`: `remove` fails when the file is not there, and
then `unix_error` exits; otherwise file and directory are removed. -/
def remove_proc (s : Shell) (pid : Int) : Shell :=
  if hasProc s pid then { s with procs := s.procs.filter (fun r => r.pid != pid) }
  else unix_error s "remove error"

/-! ## History -/

/-- The function `history_start`. -/
def history_start (s : Shell) : Nat :=
  if s.history.getD s.history_idx [] = [] then 0 else s.history_idx

/-- The function `add_history`. -/
def add_history (s : Shell) (cmdline : List Char) : Shell :=
  { s with history := s.history.set s.history_idx cmdline,
           history_idx := (s.history_idx + 1) % MAXHISTORY }

/-- The loop shared by `save_history` and `list_history`:
`for (count = 0; count < MAXHISTORY && history[start][0] != 0; count++)`,
with `start = (start + 1) % MAXHISTORY` at the end of the body.
The first argument is `MAXHISTORY - count`; the result lists the pairs
`(count, history[start])` the body sees. -/
def historyLoop (history : List (List Char)) : Nat → Nat → Nat → List (Nat × List Char)
  | 0, _, _ => []
  | left + 1, count, start =>
    if history.getD start [] = [] then []
    else (count, history.getD start []) ::
      historyLoop history left (count + 1) ((start + 1) % MAXHISTORY)

/-- The function `save_history`: the file is rewritten with the stored lines,
oldest first.  (The `fopen` is taken to succeed: the file was opened by
`init_history` at start-up.) -/
def save_history (s : Shell) : Shell :=
  { s with histfile := (historyLoop s.history MAXHISTORY 0 (history_start s)).map Prod.snd }

/-- The function `list_history`. -/
def list_history (s : Shell) : Shell :=
  let lines := (historyLoop s.history MAXHISTORY 0 (history_start s)).map
    (fun cl => Msg.historyLine (cl.1 + 1) cl.2)
  { s with out := s.out ++ lines }

/-- The function `nth_history`: the index is `(start + n - 1) % MAXHISTORY` with
C's remainder, which truncates towards zero (`Int.tmod`), so it is negative
when `start + n - 1` is a negative non-multiple of 10; the array is then read
out of bounds and the result is `none`. -/
def nth_history (s : Shell) (n : Int) : Option (List Char) :=
  let start : Int := Int.tmod ((history_start s : Int) + n - 1) (MAXHISTORY : Int)
  if start < 0 then none else some (s.history.getD start.toNat [])

/-! ## Parsing -/

/-- The C `isspace` in the "C" locale. -/
def isspace (c : Char) : Bool :=
  c == ' ' || c == '\t' || c == '\n' || c == '\x0b' || c == '\x0c' || c == '\r'

/-- The digits loop of `atoi`. -/
def atoiDigits (acc : Int) : List Char → Int
  | [] => acc
  | c :: cs => if c.isDigit then atoiDigits (acc * 10 + ((c.toNat : Int) - 48)) cs else acc

/-- The value `strtol` returns for the number read: out of the range of `long`
(64 bits) it is `LONG_MAX` or `LONG_MIN`. -/
def clampLong (v : Int) : Int :=
  if v > 9223372036854775807 then 9223372036854775807
  else if v < -9223372036854775808 then -9223372036854775808
  else v

/-- The conversion of a `long` to `int`: the low 32 bits, read as two's
complement. -/
def toCInt (v : Int) : Int :=
  (v + 2147483648) % 4294967296 - 2147483648

/-- The C `atoi` as the C library computes it, `(int) strtol(str, NULL, 10)`:
skip white space, take an optional sign, read decimal digits, and store the
result in an `int`. -/
def atoi (str : List Char) : Int :=
  toCInt (clampLong
    (match str.dropWhile isspace with
      | '-' :: r => - atoiDigits 0 r
      | '+' :: r => atoiDigits 0 r
      | r => atoiDigits 0 r))

/-- The C `strchr(buf, c)` as a split: the characters before the first `c`
and those after it; `none` when `c` does not occur. -/
def strchr (c : Char) : List Char → Option (List Char × List Char)
  | [] => none
  | x :: xs =>
    if x = c then some ([], xs)
    else (strchr c xs).map (fun r => (x :: r.1, r.2))

/-- The loop `while (*buf && (*buf == ' ')) buf++;`. -/
def skipSpaces : List Char → List Char
  | [] => []
  | x :: xs => if x = ' ' then skipSpaces xs else x :: xs

/-- The token loop of `parseline`, `while (delim) { ... }`, from a `buf` whose
leading spaces were skipped.  Each round consumes at least the delimiter, so
`buf.length + 1` rounds are enough; the first argument counts them. -/
def parseArgs : Nat → List Char → List (List Char)
  | 0, _ => []
  | fuel + 1, buf =>
    let found :=
      match buf with
      | '\'' :: r => strchr '\'' r
      | _ => strchr ' ' buf
    match found with
    | none => []
    | some (tok, rest) => tok :: parseArgs fuel (skipSpaces rest)

/-- The function `parseline`: the argument vector (up to its `NULL`) and the
returned background flag; `none` is undefined behaviour.  The line is copied
into `array[MAXLINE]` and its last character is replaced by a space: an empty
line is written at index -1, a line of `MAXLINE` characters or more does not
fit.  The words are stored with `argv[argc++] = buf` and closed with
`argv[argc] = NULL`, with no test of `argc`: with `MAXARGS` words or more the
stores run past the `argv[MAXARGS]` of `eval`. -/
def parseline (cmdline : List Char) : Option (List (List Char) × Int) :=
  if cmdline = [] ∨ MAXLINE ≤ cmdline.length then none
  else
    let buf := skipSpaces (cmdline.dropLast ++ [' '])
    let argv := parseArgs (buf.length + 1) buf
    if MAXARGS ≤ argv.length then none
    else
      match argv.getLast? with
      | none => some ([], 1)
      | some last => if last.head? = some '&' then some (argv.dropLast, 1) else some (argv, 0)

/-! ## Signals sent, job state and waiting -/

/-- One `kill(pid, sig)`; its return value is not looked at by the source. -/
def Shell.kill (s : Shell) (pid : Int) (sig : Signal) : Shell :=
  { s with kills := s.kills ++ [(pid, sig)] }

/-- The assignment `job->state = st` through the pointer `&jobs[i]`. -/
def setState (jobs : List job_t) (i : Nat) (st : Int) : List job_t :=
  jobs.set i { jobs.getD i clearedJob with state := st }

/-- The function `waitfg`: `job` is looked up once; while `job != NULL` and
`job->state == FG` the shell sits in `sigsuspend`.  Suspending is the mode
`inWaitfg i`; the loop test after each wake-up is in `deliver`. -/
def waitfg (s : Shell) (pid : Int) : Shell :=
  match getjobpid s.jobs pid with
  | none => s
  | some i =>
    if (s.jobs.getD i clearedJob).state = FG then { s with mode := Mode.inWaitfg i } else s

/-! ## Signal handlers -/

/-- What `waitpid` reports about a child: `WIFSTOPPED`, `WIFSIGNALED` with its
`WTERMSIG`, or neither. -/
inductive Status where
  | stopped
  | signaled (sig : Int)
  | exited
deriving DecidableEq, Repr

/-- The body of the `while` loop of `sigchld_handler` for one reaped child.
`job` may be `NULL`; the source dereferences it in the first two branches. -/
def sigchld_step (s : Shell) (pid : Int) (status : Status) : Shell :=
  let job := getjobpid s.jobs pid
  let s1 : Shell :=
    match status with
    | Status.stopped =>
      match job with
      | none => { s with mode := Mode.undefinedBehaviour }
      | some i => { s with jobs := setState s.jobs i ST }
    | Status.signaled sig =>
      match job with
      | none => { s with mode := Mode.undefinedBehaviour }
      | some i =>
        (deletejob (s.print (Msg.terminated (s.jobs.getD i clearedJob).pid sig)) pid).2
    | Status.exited => (deletejob s pid).2
  s1.seq fun s2 =>
  if status = Status.stopped then change_proc_stat s2 pid "T" else remove_proc s2 pid

/-- The function `sigchld_handler`; the list holds what the successive
`waitpid(-1, &status, WNOHANG | WUNTRACED)` calls return, and the loop goes on
while the returned pid is positive. -/
def sigchld_handler (s : Shell) : List (Int × Status) → Shell
  | [] => s
  | (pid, status) :: rest =>
    if pid > 0 then (sigchld_step s pid status).seq fun s1 => sigchld_handler s1 rest
    else s

/-- The function `sigint_handler`. -/
def sigint_handler (s : Shell) : Shell :=
  let fg_pid := fgpid s.jobs
  if fg_pid ≠ 0 then s.kill (-fg_pid) Signal.SIGINT else s

/-- The function `sigtstp_handler`. -/
def sigtstp_handler (s : Shell) : Shell :=
  let fg_pid := fgpid s.jobs
  if fg_pid ≠ 0 then s.kill (-fg_pid) Signal.SIGTSTP else s

/-- The function `sigquit_handler`. -/
def sigquit_handler (s : Shell) : Shell :=
  { s.print Msg.sigquit with mode := Mode.exited 1 }

/-- A signal delivered to the shell, with what the environment supplies to its
handler. -/
inductive Notification where
  | sigchld (reaped : List (Int × Status))
  | sigint
  | sigtstp
  | sigquit
deriving DecidableEq, Repr

/-- The handler `main` installed for each signal. -/
def handler (s : Shell) : Notification → Shell
  | Notification.sigchld reaped => sigchld_handler s reaped
  | Notification.sigint => sigint_handler s
  | Notification.sigtstp => sigtstp_handler s
  | Notification.sigquit => sigquit_handler s

/-- The handlers run for the signals that arrive, in order. -/
def handleAll (s : Shell) (ns : List Notification) : Shell :=
  ns.foldl (fun acc n => acc.seq fun a => handler a n) s

/-- A point of the code at which no signal is blocked, with the signals `ns`
arriving there: their handlers run, and the code goes on with `k` when they
have returned.  With no signal the code just goes on. -/
def Shell.handling (s : Shell) (ns : List Notification) (k : Shell → Shell) : Shell :=
  match ns with
  | [] => k s
  | n :: rest => (handleAll s (n :: rest)).seq k

/-- No signal arrives at any point. -/
def noSignals : Nat → List Notification :=
  fun _ => []

/-! ## Built-in commands and the dispatcher -/

/-- The function `pidjid_str2job`; the outer `none` is undefined behaviour,
`some none` is `NULL` and `some (some i)` is `&jobs[i]`.  The characters after
the `%` are copied into `char jid_str[20]` and closed with a NUL, with no test
of their number: 20 characters or more run past the buffer.  `atoi` stores
its result in an `int`. -/
def pidjid_str2job (jobs : List job_t) (str : List Char) : Option (Option Nat) :=
  match str with
  | '%' :: r => if 20 ≤ r.length then none else some (getjobjid jobs (atoi r))
  | _ => some (getjobpid jobs (atoi str))

/-- The function `do_bgfg`.  It blocks no signal (`sigfillset` fills a local
set, `sigprocmask` is not called), so handlers can run between its
statements: `sigs k` are the signals that arrive at point `k`.  Point 0 is
between the lookup and the test of its result, point 1 is before the first
`change_proc_stat` of the `fg` or `bg` branch, and the points after it are
before the statements that follow, up to the call of `waitfg` (which blocks
every signal itself).  The pointer `job` is `&jobs[i]`: each `job->pid` and
`job->state` reads the slot as it is at that moment. -/
def do_bgfg (s : Shell) (argv : List (List Char)) (sigs : Nat → List Notification) : Shell :=
  match argv with
  | [] => s
  | [_] => s.print Msg.needMoreArgs
  | cmd :: target :: rest =>
    if rest ≠ [] then s.print Msg.tooManyArgs
    else
      match pidjid_str2job s.jobs target with
      | none => { s with mode := Mode.undefinedBehaviour }
      | some job =>
        s.handling (sigs 0) fun s0 =>
        match job with
        | none => s0.print Msg.noSuchJob
        | some i =>
          if (s0.jobs.getD i clearedJob).state = UNDEF then s0.print Msg.noSuchJob
          else if cmd = "fg".toList then
            s0.handling (sigs 1) fun a =>
            (change_proc_stat a (a.jobs.getD i clearedJob).pid "R+").seq fun b =>
            b.handling (sigs 2) fun b =>
            (change_proc_stat b b.shell_pid "Ss").seq fun c =>
            c.handling (sigs 3) fun c =>
            (if (c.jobs.getD i clearedJob).state = ST then
              c.kill (-(c.jobs.getD i clearedJob).pid) Signal.SIGCONT
            else c).handling (sigs 4) fun d =>
            ({ d with jobs := setState d.jobs i FG } : Shell).handling (sigs 5) fun e =>
            (waitfg e (e.jobs.getD i clearedJob).pid).seq fun f =>
            change_proc_stat f f.shell_pid "Rs+"
          else if cmd = "bg".toList then
            s0.handling (sigs 1) fun a =>
            (change_proc_stat a (a.jobs.getD i clearedJob).pid "R").seq fun b =>
            b.handling (sigs 2) fun b =>
            (if (b.jobs.getD i clearedJob).state ≠ BG then
              b.kill (-(b.jobs.getD i clearedJob).pid) Signal.SIGCONT
            else b).handling (sigs 3) fun c =>
            { c with jobs := setState c.jobs i BG }
          else s0

/-- The function `exist_user`: the password stored for `name`, if any. -/
def exist_user (s : Shell) (name : List Char) : Option (List Char) :=
  (s.passwd.find? (fun l => l.1 == name)).map Prod.snd

/-- The function `add_user`.  (Appending to `./etc/passwd` and creating the new
user's history file are taken to succeed; `mkdir` fails when the home
directory is already there.) -/
def add_user (s : Shell) (argv : List (List Char)) : Shell :=
  if s.username ≠ "root".toList then s.print Msg.rootRequired
  else
    match argv with
    | [_, name, password] =>
      if (exist_user s name).isSome then s.print Msg.userExists
      else
        let s1 := { s with passwd := s.passwd ++ [(name, password)] }
        if name ∈ s1.homes then unix_error s1 "mkdir error"
        else { s1 with homes := s1.homes ++ [name] }
    | _ :: _ :: _ :: _ :: _ => s.print Msg.tooManyArgs
    | _ => s.print Msg.needMoreArgs

/-- The end of `do_quit`, after the drain loop: the records of the stopped
jobs and of the shell are removed, then `exit(0)`. -/
def quitFinish (s : Shell) : Shell :=
  let s1 := (s.jobs.filter (fun j => j.state == ST)).foldl
    (fun acc j => acc.seq fun a => remove_proc a j.pid) s
  (s1.seq fun s2 => remove_proc s2 s2.shell_pid).seq fun s3 =>
  { s3 with mode := Mode.exited 0 }

/-- The drain loop of `do_quit`: `p = check_run(); while (p != 0) { sigsuspend;
p = check_run(); }`.  Suspending is the mode `inQuit`. -/
def quitWait (s : Shell) : Shell :=
  if check_run s.jobs ≠ 0 then { s with mode := Mode.inQuit } else quitFinish s

/-- The function `do_quit`. -/
def do_quit (s : Shell) : Shell :=
  let s1 := save_history s
  let targets := s1.jobs.filter (fun j => j.state == BG || j.state == FG)
  let s2 := { s1 with kills := s1.kills ++ targets.map (fun j => (-j.pid, Signal.SIGINT)) }
  quitWait s2

/-- The function `nth_cmd`; `ev` is the recursive call of `eval`. -/
def nth_cmd (ev : Shell → List Char → Shell) (s : Shell) (argv : List (List Char)) : Shell :=
  let n := atoi (argv.headD []).tail
  if n > (MAXHISTORY : Int) then s.print (Msg.onlyLast MAXHISTORY)
  else
    match nth_history s n with
    | none => { s with mode := Mode.undefinedBehaviour }
    | some cmdline =>
      if cmdline = [] then s.print (Msg.noNth n)
      else ev s cmdline

/-- The function `builtin_cmd`; the first component is its return value, and
`ev` is the recursive call of `eval`. -/
def builtin_cmd (ev : Shell → List Char → Shell) (s : Shell) (argv : List (List Char)) :
    Int × Shell :=
  let arg0 := argv.headD []
  if arg0 = "bg".toList ∨ arg0 = "fg".toList then (1, do_bgfg s argv noSignals)
  else if arg0 = "jobs".toList then
    (1, if argv.length ≤ 1 then listjobs s else s.print Msg.tooManyArgs)
  else if arg0 = "adduser".toList then (1, add_user s argv)
  else if arg0 = "history".toList then
    (1, list_history (if argv.length ≤ 1 then s else s.print Msg.tooManyArgs))
  else if arg0.head? = some '!' then (1, nth_cmd ev s argv)
  else if arg0 = "logout".toList then
    (1, if check_suspend s.jobs ≠ 0 then s.print Msg.suspendedJobs else do_quit s)
  else if arg0 = "quit".toList then (1, do_quit s)
  else (0, s)

/-- The body of `if(!builtin_cmd(argv)) { ... }` in `eval`: the parent's side
of the `fork`, whose return value is `pid` (negative when `fork` failed).
The child's side (`setpgid`, `execve`) is another process. -/
def launch (s : Shell) (argv0 cmdline : List Char) (bg : Int) (pid : Int) : Shell :=
  let state := if bg = 0 then FG else BG
  let stat := if bg = 0 then "R+" else "R"
  let s1 := if bg = 0 then change_proc_stat s s.shell_pid "Ss" else s
  s1.seq fun s1 =>
  let s2 := (addjob s1 pid state cmdline).2
  (add_proc s2 argv0 pid s2.shell_pid stat).seq fun s3 =>
  if bg = 0 then
    (waitfg s3 pid).seq fun s4 => change_proc_stat s4 s4.shell_pid "Rs+"
  else s3

/-- The function `eval`, with `forkpid` the value `fork` returns if it is
called.  `eval` calls itself through `nth_cmd`; the first argument bounds the
depth of these calls, and a recursion that goes deeper is recorded as
`undefinedBehaviour`.  This is the run of `eval` in which no signal is
handled while `do_bgfg` executes; the other code of `eval` that touches the
job table runs with every signal blocked. -/
def evalFuel : Nat → Shell → List Char → Int → Shell
  | 0, s, _, _ => { s with mode := Mode.undefinedBehaviour }
  | fuel + 1, s, cmdline, forkpid =>
    match parseline cmdline with
    | none => { s with mode := Mode.undefinedBehaviour }
    | some ([], _) => s
    | some (arg0 :: args, bg) =>
      let s1 := if arg0.head? ≠ some '!' then add_history s cmdline else s
      let r := builtin_cmd (fun s' l => evalFuel fuel s' l forkpid) s1 (arg0 :: args)
      if r.1 = 0 then launch r.2 arg0 cmdline bg forkpid else r.2

/-! ## Signal delivery -/

/-- One signal delivery.  At the prompt the handler runs and control is back at
the prompt.  In `sigsuspend` the handler runs, `sigsuspend` returns and the
loop that called it tests its condition again: `job->state == FG` in `waitfg`
(followed, when the loop ends, by the `change_proc_stat(shell_pid, "Rs+")`
that both callers of `waitfg` make next), `check_run() != 0` in `do_quit`. -/
def deliver (s : Shell) (n : Notification) : Shell :=
  match s.mode with
  | Mode.run => handler s n
  | Mode.inWaitfg i =>
    (handler { s with mode := Mode.run } n).seq fun s1 =>
    if (s1.jobs.getD i clearedJob).state = FG then { s1 with mode := Mode.inWaitfg i }
    else change_proc_stat s1 s1.shell_pid "Rs+"
  | Mode.inQuit => (handler { s with mode := Mode.run } n).seq quitWait
  | Mode.exited _ => s
  | Mode.undefinedBehaviour => s

/-! ## Runs of the shell -/

/-- The function `init_history`: the lines of the history file fill
`history[0..]`, the other entries are emptied.  More than `MAXHISTORY` lines
would be written past the end of the array. -/
def init_history (s : Shell) : Shell :=
  if s.histfile.length > MAXHISTORY then { s with mode := Mode.undefinedBehaviour }
  else
    { s with history := s.histfile ++ List.replicate (MAXHISTORY - s.histfile.length) [],
             history_idx := s.histfile.length % MAXHISTORY }

/-- The globals as `main` has set them just before `add_proc`: `initjobs` has
run and the user has logged in.  The arguments are what `main` finds: the
`-v` flag, its process id, the user name, and the files already there. -/
def bootShell (verbose : Bool) (shell_pid : Int) (username : List Char)
    (procs : List ProcRec) (passwd : List (List Char × List Char))
    (homes histfile : List (List Char)) : Shell :=
  { jobs := initjobs, nextjid := 1, verbose := verbose,
    history := List.replicate MAXHISTORY [], history_idx := 0,
    shell_pid := shell_pid, username := username, out := [], kills := [],
    procs := procs, passwd := passwd, homes := homes, histfile := histfile,
    mode := Mode.run }

/-- The state in which `main` enters its read/eval loop: after
`add_proc("tsh", shell_pid, getppid(), "Rs+")` and `init_history()`. -/
def startShell (verbose : Bool) (shell_pid ppid : Int) (username : List Char)
    (procs : List ProcRec) (passwd : List (List Char × List Char))
    (homes histfile : List (List Char)) : Shell :=
  (add_proc (bootShell verbose shell_pid username procs passwd homes histfile)
    "tsh".toList shell_pid ppid "Rs+").seq init_history

/-- An input of the shell: a command line read by `main` (with the value
`fork` would return for it), or a signal. -/
inductive Input where
  | command (cmdline : List Char) (forkpid : Int)
  | notify (n : Notification)
deriving DecidableEq, Repr

/-- The states the shell passes through, from `s0`: a command line is
evaluated when `main` is reading (`Mode.run`), a signal is handled whenever it
arrives.  Each runs to its end, or to the next `sigsuspend`, before the next
input is taken. -/
inductive Reachable (s0 : Shell) : Shell → Prop where
  | start : Reachable s0 s0
  | command {s : Shell} (fuel : Nat) (cmdline : List Char) (forkpid : Int) :
      Reachable s0 s → s.mode = Mode.run → Reachable s0 (evalFuel fuel s cmdline forkpid)
  | notify {s : Shell} (n : Notification) :
      Reachable s0 s → Reachable s0 (deliver s n)

/-! ## Runs of the job table alone -/

/-- A call of one of the two functions that change the job table. -/
inductive TableOp where
  | add (pid : Int) (state : Int) (cmdline : List Char)
  | remove (pid : Int)
deriving DecidableEq, Repr

/-- The call a `TableOp` stands for. -/
def applyOp (s : Shell) : TableOp → Shell
  | TableOp.add pid state cmdline => (addjob s pid state cmdline).2
  | TableOp.remove pid => (deletejob s pid).2

/-- A sequence of calls, first to last. -/
def runOps (s : Shell) (ops : List TableOp) : Shell :=
  ops.foldl applyOp s

/-- A shell with the initial job table: every slot cleared, `nextjid = 1`.
The other globals are as given. -/
def initTable (verbose : Bool) : Shell :=
  { jobs := initjobs, nextjid := 1, verbose := verbose,
    history := List.replicate MAXHISTORY [], history_idx := 0,
    shell_pid := 0, username := [], out := [], kills := [],
    procs := [], passwd := [], homes := [], histfile := [],
    mode := Mode.run }

/-! ## The dispatcher with its signal mask -/

/-- The shell together with the one fact about its signal mask that the
source changes with `sigprocmask(SIG_BLOCK, &mask_all, ...)`, and a log of
the writes to the job table that `eval` and `do_bgfg` make. -/
structure Masked where
  /-- The globals of the shell. -/
  shell : Shell
  /-- Whether the mask of the process blocks every signal. -/
  blocked : Bool
  /-- One entry per write to the job table made outside the handlers, oldest
  first: whether every signal was blocked when the write was made. -/
  writes : List Bool
deriving DecidableEq, Repr

/-- A statement that touches neither the mask nor the job table log. -/
def Masked.lift (m : Masked) (f : Shell → Shell) : Masked :=
  { m with shell := f m.shell }

/-- Sequencing, as `Shell.seq`: the rest of the body runs only if the call
before it came back. -/
def Masked.seq (m : Masked) (k : Masked → Masked) : Masked :=
  if m.shell.mode = Mode.run then k m else m

/-- The call `sigprocmask(SIG_BLOCK, &mask_all, &prev)` after
`sigfillset(&mask_all)`; the second component is `prev`. -/
def Masked.blockAll (m : Masked) : Masked × Bool :=
  ({ m with blocked := true }, m.blocked)

/-- The call `sigprocmask(SIG_SETMASK, &prev, NULL)`. -/
def Masked.setMask (m : Masked) (prev : Bool) : Masked :=
  { m with blocked := prev }

/-- A write to the job table that leaves the globals as `s`: the log records
whether every signal is blocked at this point. -/
def Masked.tableWrite (m : Masked) (s : Shell) : Masked :=
  { m with shell := s, writes := m.writes ++ [m.blocked] }

/-- The function `waitfg` with the mask: all signals are blocked, the loop
runs (`sigsuspend(&prev)` puts the mask back to all-blocked when it returns),
then the old mask is restored. -/
def waitfgM (m : Masked) (pid : Int) : Masked :=
  let b := m.blockAll
  (b.1.lift fun s => waitfg s pid).seq fun m1 => m1.setMask b.2

/-- The function `do_bgfg` with the mask, in the run in which no signal
arrives while it executes.  It fills `mask_all` with `sigfillset` and declares
`prev`, but calls `sigprocmask` nowhere: the assignments `job->state = FG` and
`job->state = BG` are made under the mask the function was called with. -/
def do_bgfgM (m : Masked) (argv : List (List Char)) : Masked :=
  match argv with
  | [] => m
  | [_] => m.lift fun s => s.print Msg.needMoreArgs
  | cmd :: target :: rest =>
    if rest ≠ [] then m.lift fun s => s.print Msg.tooManyArgs
    else
      match pidjid_str2job m.shell.jobs target with
      | none => m.lift fun s => { s with mode := Mode.undefinedBehaviour }
      | some none => m.lift fun s => s.print Msg.noSuchJob
      | some (some i) =>
        if (m.shell.jobs.getD i clearedJob).state = UNDEF then
          m.lift fun s => s.print Msg.noSuchJob
        else if cmd = "fg".toList then
          (m.lift fun s => change_proc_stat s (s.jobs.getD i clearedJob).pid "R+").seq fun m1 =>
          (m1.lift fun s => change_proc_stat s s.shell_pid "Ss").seq fun m2 =>
          let m3 := m2.lift fun s =>
            if (s.jobs.getD i clearedJob).state = ST then
              s.kill (-(s.jobs.getD i clearedJob).pid) Signal.SIGCONT
            else s
          let m4 := m3.tableWrite { m3.shell with jobs := setState m3.shell.jobs i FG }
          (waitfgM m4 (m4.shell.jobs.getD i clearedJob).pid).seq fun m5 =>
          m5.lift fun s => change_proc_stat s s.shell_pid "Rs+"
        else if cmd = "bg".toList then
          (m.lift fun s => change_proc_stat s (s.jobs.getD i clearedJob).pid "R").seq fun m1 =>
          let m2 := m1.lift fun s =>
            if (s.jobs.getD i clearedJob).state ≠ BG then
              s.kill (-(s.jobs.getD i clearedJob).pid) Signal.SIGCONT
            else s
          m2.tableWrite { m2.shell with jobs := setState m2.shell.jobs i BG }
        else m

/-- The function `nth_cmd` with the mask; `ev` is the recursive call of
`eval`. -/
def nth_cmdM (ev : Masked → List Char → Masked) (m : Masked) (argv : List (List Char)) :
    Masked :=
  let n := atoi (argv.headD []).tail
  if n > (MAXHISTORY : Int) then m.lift fun s => s.print (Msg.onlyLast MAXHISTORY)
  else
    match nth_history m.shell n with
    | none => m.lift fun s => { s with mode := Mode.undefinedBehaviour }
    | some cmdline =>
      if cmdline = [] then m.lift fun s => s.print (Msg.noNth n)
      else ev m cmdline

/-- The function `builtin_cmd` with the mask.  Apart from `do_bgfg` and the
replay, the built-ins write nothing to the job table, and none of them blocks
every signal (`do_quit` blocks `SIGCHLD` alone around its loop). -/
def builtin_cmdM (ev : Masked → List Char → Masked) (m : Masked) (argv : List (List Char)) :
    Int × Masked :=
  let arg0 := argv.headD []
  if arg0 = "bg".toList ∨ arg0 = "fg".toList then (1, do_bgfgM m argv)
  else if arg0 = "jobs".toList then
    (1, m.lift fun s => if argv.length ≤ 1 then listjobs s else s.print Msg.tooManyArgs)
  else if arg0 = "adduser".toList then (1, m.lift fun s => add_user s argv)
  else if arg0 = "history".toList then
    (1, m.lift fun s => list_history (if argv.length ≤ 1 then s else s.print Msg.tooManyArgs))
  else if arg0.head? = some '!' then (1, nth_cmdM ev m argv)
  else if arg0 = "logout".toList then
    (1, m.lift fun s =>
      if check_suspend s.jobs ≠ 0 then s.print Msg.suspendedJobs else do_quit s)
  else if arg0 = "quit".toList then (1, m.lift do_quit)
  else (0, m)

/-- The body of `if(!builtin_cmd(argv)) { ... }` in `eval` with the mask: all
signals are blocked before the `fork`, and the old mask is restored after
`add_proc`; `addjob` writes the table when it returns 1. -/
def launchM (m : Masked) (argv0 cmdline : List Char) (bg : Int) (pid : Int) : Masked :=
  let b := m.blockAll
  let state := if bg = 0 then FG else BG
  let stat := if bg = 0 then "R+" else "R"
  let m1 := if bg = 0 then b.1.lift fun s => change_proc_stat s s.shell_pid "Ss" else b.1
  m1.seq fun m1 =>
  let r := addjob m1.shell pid state cmdline
  let m2 := if r.1 = 1 then m1.tableWrite r.2 else m1.lift fun _ => r.2
  (m2.lift fun s => add_proc s argv0 pid s.shell_pid stat).seq fun m3 =>
  let m4 := m3.setMask b.2
  if bg = 0 then
    (waitfgM m4 pid).seq fun m5 => m5.lift fun s => change_proc_stat s s.shell_pid "Rs+"
  else m4

/-- The function `eval` with the mask, in the run of `evalFuel`. -/
def evalFuelM : Nat → Masked → List Char → Int → Masked
  | 0, m, _, _ => m.lift fun s => { s with mode := Mode.undefinedBehaviour }
  | fuel + 1, m, cmdline, forkpid =>
    match parseline cmdline with
    | none => m.lift fun s => { s with mode := Mode.undefinedBehaviour }
    | some ([], _) => m
    | some (arg0 :: args, bg) =>
      let m1 := if arg0.head? ≠ some '!' then m.lift fun s => add_history s cmdline else m
      let r := builtin_cmdM (fun m' l => evalFuelM fuel m' l forkpid) m1 (arg0 :: args)
      if r.1 = 0 then launchM r.2 arg0 cmdline bg forkpid else r.2

/-- The shell `s` as `main` calls `eval` on it: `main` blocks no signal, and
nothing is logged yet. -/
def atPrompt (s : Shell) : Masked :=
  { shell := s, blocked := false, writes := [] }

/-! ## Predicates used in the statements -/

/-- A slot is either cleared, as `clearjob` leaves it, or holds a job with
positive pid and positive job id. -/
def SlotOK (j : job_t) : Prop :=
  (j.pid = 0 ∧ j.jid = 0 ∧ j.state = UNDEF ∧ j.cmdline = []) ∨ (1 ≤ j.pid ∧ 1 ≤ j.jid)

/-- The invariant of the job table under `addjob` and `deletejob`: every slot
is `SlotOK` and the counter is positive. -/
def TableOK (s : Shell) : Prop :=
  1 ≤ s.nextjid ∧ ∀ j ∈ s.jobs, SlotOK j

/-- The job id `addjob` gave to the job it stored: the `jid` found, after the
call, in the slot the call filled (the first slot that had `pid == 0`);
`none` when the call was rejected. -/
def assignedJid (s : Shell) (pid state : Int) (cmdline : List Char) : Option Int :=
  if (addjob s pid state cmdline).1 = 1 then
    (firstIdx (fun j => j.pid == 0) s.jobs).bind fun i =>
      ((addjob s pid state cmdline).2.jobs[i]?).map job_t.jid
  else none

/-- No two slots are in state `FG`. -/
def AtMostOneFG (jobs : List job_t) : Prop :=
  ∀ (i k : Nat) (a b : job_t), jobs[i]? = some a → jobs[k]? = some b →
    a.state = FG → b.state = FG → i = k

/-- No two occupied slots (`pid != 0`) hold the same job id. -/
def JidsUnique (jobs : List job_t) : Prop :=
  ∀ (i k : Nat) (a b : job_t), jobs[i]? = some a → jobs[k]? = some b →
    a.pid ≠ 0 → b.pid ≠ 0 → a.jid = b.jid → i = k

/-- The pids passed to `addjob` in a sequence of calls. -/
def addPids : List TableOp → List Int
  | [] => []
  | TableOp.add pid _ _ :: ops => pid :: addPids ops
  | TableOp.remove _ :: ops => addPids ops

/-- A condition on a sequence of calls run from `s`: `addjob` is called with
state `FG` only when no slot is in state `FG`. -/
def AddsFgOnlyWhenNone (s : Shell) : List TableOp → Prop
  | [] => True
  | TableOp.add pid state cmdline :: ops =>
    (state = FG → ∀ j ∈ s.jobs, j.state ≠ FG) ∧
      AddsFgOnlyWhenNone (addjob s pid state cmdline).2 ops
  | TableOp.remove pid :: ops => AddsFgOnlyWhenNone (deletejob s pid).2 ops

/-- The calls `addjob(jobs, p, BG, "")` for `p = first, first + 1, ...`,
`count` of them. -/
def addsFrom (first : Int) : Nat → List TableOp
  | 0 => []
  | count + 1 => TableOp.add first BG [] :: addsFrom (first + 1) count

/-- The condition `AddsFgOnlyWhenNone` can be checked by running the calls. -/
instance decAddsFgOnlyWhenNone : (s : Shell) → (ops : List TableOp) →
    Decidable (AddsFgOnlyWhenNone s ops)
  | _, [] => isTrue trivial
  | s, TableOp.add pid state cmdline :: ops =>
    have := decAddsFgOnlyWhenNone (addjob s pid state cmdline).2 ops
    inferInstanceAs (Decidable (_ ∧ _))
  | s, TableOp.remove pid :: ops => decAddsFgOnlyWhenNone (deletejob s pid).2 ops

/-- No slot is in state `FG`. -/
def NoFG (jobs : List job_t) : Prop :=
  ∀ j ∈ jobs, j.state ≠ FG

/-- No slot other than slot `i` is in state `FG`. -/
def OnlyFG (i : Nat) (jobs : List job_t) : Prop :=
  ∀ (k : Nat) (j : job_t), jobs[k]? = some j → j.state = FG → k = i

/-- No two occupied slots hold the same pid. -/
def PidsUnique (jobs : List job_t) : Prop :=
  ∀ (i k : Nat) (a b : job_t), jobs[i]? = some a → jobs[k]? = some b →
    a.pid ≠ 0 → a.pid = b.pid → i = k

/-- Every slot in state `FG` of the second table is in state `FG` in the first. -/
def FgShrink (jobs jobs2 : List job_t) : Prop :=
  ∀ (k : Nat) (j2 : job_t), jobs2[k]? = some j2 → j2.state = FG →
    ∃ j, jobs[k]? = some j ∧ j.state = FG

/-- The part of the shell invariant that does not depend on where control is:
the table is `TableOK`, pids are unique, and every job in the table has its
record under `./proc`. -/
def Core (s : Shell) : Prop :=
  TableOK s ∧ PidsUnique s.jobs ∧ ∀ j ∈ s.jobs, j.pid ≠ 0 → hasProc s j.pid = true

/-- The shell invariant: at the prompt and in the drain loop of `do_quit` no
job is in state `FG`; in `waitfg` only the awaited job can be. -/
def ShellInv (s : Shell) : Prop :=
  match s.mode with
  | Mode.run => Core s ∧ NoFG s.jobs
  | Mode.inQuit => Core s ∧ NoFG s.jobs
  | Mode.inWaitfg i => Core s ∧ OnlyFG i s.jobs
  | Mode.exited _ => True
  | Mode.undefinedBehaviour => True

/-- The process has ended, by `exit` or by undefined behaviour. -/
def Mode.ended : Mode → Prop
  | Mode.exited _ => True
  | Mode.undefinedBehaviour => True
  | _ => False

/-- A full table: sixteen background jobs, pids 1 to 16. -/
def fullTable : Shell :=
  runOps (initTable false) (addsFrom 1 16)

/-- A shell (pid 100, user `root`) that has launched `/bin/sleep 9 &` as pid
200 and then learnt from `SIGCHLD` that it stopped. -/
def stoppedShell : Shell :=
  deliver
    (evalFuel 11 (startShell false 100 1 "root".toList [] [] [] [])
      "/bin/sleep 9 &\n".toList 200)
    (Notification.sigchld [(200, Status.stopped)])

/-- The first words `builtin_cmd` handles itself: for any other first word it
returns 0 and `eval` launches an external program. -/
def isBuiltin (arg0 : List Char) : Bool :=
  arg0 == "bg".toList || arg0 == "fg".toList || arg0 == "jobs".toList ||
    arg0 == "adduser".toList || arg0 == "history".toList || arg0.head? == some '!' ||
    arg0 == "logout".toList || arg0 == "quit".toList

/-- Every slot of the second table is free or holds the pid the same slot
holds in the first: jobs are removed or change state, none is moved or added. -/
def SlotsKept (jobs jobs2 : List job_t) : Prop :=
  ∀ (k : Nat) (j2 : job_t), jobs2[k]? = some j2 →
    ∃ j, jobs[k]? = some j ∧ (j2.pid = 0 ∨ j2.pid = j.pid)

/-- The launches `/bin/job &` with the pids `first, first + 1, ...`, `count`
of them, as inputs of the shell. -/
def launchesFrom (first : Int) : Nat → List Input
  | 0 => []
  | count + 1 => Input.command "/bin/job &\n".toList first :: launchesFrom (first + 1) count

/-- One input taken by the shell: a command line is evaluated by `eval` (with
room for the `!n` recursion to go through the whole history), a signal is
delivered. -/
def step (s : Shell) : Input → Shell
  | Input.command cmdline forkpid => evalFuel (MAXHISTORY + 1) s cmdline forkpid
  | Input.notify n => deliver s n

/-- A shell (pid 100, user `root`) whose job table is full with sixteen
background jobs, pids 201 to 216, and which has then launched `/bin/job &`
once more, as pid 300: that child runs but is in no slot. -/
def untrackedShell : Shell :=
  (launchesFrom 201 16 ++ [Input.command "/bin/job &\n".toList 300]).foldl step
    (startShell false 100 1 "root".toList [] [] [] [])

/-- Whether the process has ended can be read off the mode. -/
instance decEnded (m : Mode) : Decidable m.ended :=
  match m with
  | Mode.run => isFalse (fun h => h)
  | Mode.inWaitfg _ => isFalse (fun h => h)
  | Mode.inQuit => isFalse (fun h => h)
  | Mode.exited _ => isTrue trivial
  | Mode.undefinedBehaviour => isTrue trivial

/-- A condition on a sequence of inputs taken from `s`: every command line in
it is read while `main` is at the prompt. -/
def CommandsAtPrompt (s : Shell) : List Input → Prop
  | [] => True
  | Input.command cmdline forkpid :: rest =>
    s.mode = Mode.run ∧ CommandsAtPrompt (step s (Input.command cmdline forkpid)) rest
  | Input.notify n :: rest => CommandsAtPrompt (step s (Input.notify n)) rest

/-- The condition `CommandsAtPrompt` can be checked by running the inputs. -/
instance decCommandsAtPrompt : (s : Shell) → (inputs : List Input) →
    Decidable (CommandsAtPrompt s inputs)
  | _, [] => isTrue trivial
  | s, Input.command cmdline forkpid :: rest =>
    have := decCommandsAtPrompt (step s (Input.command cmdline forkpid)) rest
    inferInstanceAs (Decidable (_ ∧ _))
  | s, Input.notify n :: rest => decCommandsAtPrompt (step s (Input.notify n)) rest

/-- The shell of the examples as it enters its loop: pid 100, parent 1, user
`root`, nothing under `./proc` yet, empty history. -/
def exampleShell : Shell :=
  startShell false 100 1 "root".toList [] [] [] []

/-- The inputs that fill the job table: sixteen launches `/bin/job &`, pids
201 to 216. -/
def fillInputs : List Input :=
  launchesFrom 201 16

/-- The inputs that leave job 1 (pid 200) stopped and job 2 (pid 201) running
in the background. -/
def twoJobInputs : List Input :=
  [Input.command "/bin/a &\n".toList 200, Input.command "/bin/b &\n".toList 201,
    Input.notify (Notification.sigchld [(200, Status.stopped)])]

/-- The inputs that leave pid 200 in the foreground, the shell in `waitfg`. -/
def fgInputs : List Input :=
  [Input.command "/bin/ls\n".toList 200]

/-- The words of a line as the specification describes them: the maximal runs
of characters other than the space, in order (the pieces between spaces,
without the empty ones). -/
def nonSpaceRuns (line : List Char) : List (List Char) :=
  (line.splitOn ' ').filter (fun t => !t.isEmpty)

/-- The shell of the examples after the two lines `/bin/a &` (pid 200) and
`/bin/b &` (pid 201). -/
def twoLineShell : Shell :=
  [Input.command "/bin/a &\n".toList 200, Input.command "/bin/b &\n".toList 201].foldl step
    exampleShell

/-- Eleven command lines, one more than the history holds. -/
def elevenLines : List (List Char) :=
  ["a\n".toList, "b\n".toList, "c\n".toList, "d\n".toList, "e\n".toList, "f\n".toList,
    "g\n".toList, "h\n".toList, "i\n".toList, "j\n".toList, "k\n".toList]

/-- The mirror records are in step with the job table: a record exists for a
pid exactly when it is the shell's own pid or the pid of a job in the table. -/
def Synced (s : Shell) : Prop :=
  ∀ q : Int, hasProc s q = true ↔ (q = s.shell_pid ∨ (q ≠ 0 ∧ ∃ j ∈ s.jobs, j.pid = q))

/-- The second state has the shell pid, the records and the pids in the
table of the first. -/
def SameRecords (s t : Shell) : Prop :=
  t.shell_pid = s.shell_pid ∧ (∀ q, hasProc t q = hasProc s q) ∧
    ∀ q : Int, q ≠ 0 → ((∃ j ∈ t.jobs, j.pid = q) ↔ ∃ j ∈ s.jobs, j.pid = q)

/-- The states the shell passes through, from `s0`, when every child it
launches gets tracked: a command line is read at the prompt with `fork`
returning a pid of at least 1 that has no record yet and, unless the first
word is a built-in other than a replay `!n`, with a free slot in the table;
and `SIGCHLD` never reports the shell's own pid. -/
inductive Tracked (s0 : Shell) : Shell → Prop where
  | start : Tracked s0 s0
  | command {s : Shell} (fuel : Nat) (cmdline : List Char) (forkpid : Int) :
      Tracked s0 s → s.mode = Mode.run → 1 ≤ forkpid → hasProc s forkpid = false →
      (∃ j ∈ s.jobs, j.pid = 0) → Tracked s0 (evalFuel fuel s cmdline forkpid)
  | builtin {s : Shell} (fuel : Nat) (cmdline : List Char) (forkpid : Int) (arg0 : List Char)
      (args : List (List Char)) (bg : Int) :
      Tracked s0 s → s.mode = Mode.run → parseline cmdline = some (arg0 :: args, bg) →
      isBuiltin arg0 = true → arg0.head? ≠ some '!' →
      Tracked s0 (evalFuel fuel s cmdline forkpid)
  | notify {s : Shell} (n : Notification) :
      Tracked s0 s →
      (∀ reaped, n = Notification.sigchld reaped → ∀ x ∈ reaped, x.1 ≠ s.shell_pid) →
      Tracked s0 (deliver s n)


/-- The function `do_bgfg` when no signal arrives while it executes, written
with the slot read once after the lookup (nothing changes it before the
assignment to `job->state`).  It is shown below to be `do_bgfg` with
`noSignals`. -/
def do_bgfgQuiet (s : Shell) (argv : List (List Char)) : Shell :=
  match argv with
  | [] => s
  | [_] => s.print Msg.needMoreArgs
  | cmd :: target :: rest =>
    if rest ≠ [] then s.print Msg.tooManyArgs
    else
      match pidjid_str2job s.jobs target with
      | none => { s with mode := Mode.undefinedBehaviour }
      | some none => s.print Msg.noSuchJob
      | some (some i) =>
        let job := s.jobs.getD i clearedJob
        if job.state = UNDEF then s.print Msg.noSuchJob
        else if cmd = "fg".toList then
          (change_proc_stat s job.pid "R+").seq fun s1 =>
          (change_proc_stat s1 s1.shell_pid "Ss").seq fun s2 =>
          let s3 := if job.state = ST then s2.kill (-job.pid) Signal.SIGCONT else s2
          let s4 := { s3 with jobs := setState s3.jobs i FG }
          (waitfg s4 job.pid).seq fun s5 =>
          change_proc_stat s5 s5.shell_pid "Rs+"
        else if cmd = "bg".toList then
          (change_proc_stat s job.pid "R").seq fun s1 =>
          let s2 := if job.state ≠ BG then s1.kill (-job.pid) Signal.SIGCONT else s1
          { s2 with jobs := setState s2.jobs i BG }
        else s

/-- A line of `n` words `a`, each followed by a space, without its newline. -/
def wordsLine (n : Nat) : List Char :=
  (List.replicate n ['a', ' ']).flatten

/-- The signals of a run of `do_bgfg` in which one signal arrives, at point
`k`. -/
def arrivingAt (k : Nat) (n : Notification) : Nat → List Notification :=
  fun p => if p = k then [n] else []

/-- The inputs after which two live jobs have job id 1: fifteen launches
`/bin/job &` (pids 201 to 215, job ids 1 to 15), the exit of pid 202, and two
more launches (pids 216 and 217). -/
def reuseInputs : List Input :=
  launchesFrom 201 15 ++ [Input.notify (Notification.sigchld [(202, Status.exited)]),
    Input.command "/bin/job &\n".toList 216, Input.command "/bin/job &\n".toList 217]

/-- The decimal numeral of `n`, most significant digit first. -/
def decimal (n : Nat) : List Char :=
  if n = 0 then ['0'] else (Nat.digits 10 n).reverse.map fun d => Char.ofNat (48 + d)
/-! ## Lemmas on the job list helper routines -/

theorem firstIdx_eq_none_iff (p : job_t → Bool) (l : List job_t) :
    firstIdx p l = none ↔ ∀ j ∈ l, p j = false := by
  induction l with
  | nil => simp [firstIdx]
  | cons a l ih =>
    by_cases h : p a = true
    · simp [firstIdx, h]
    · simp [firstIdx, h, ih]

theorem firstIdx_eq_some_iff (p : job_t → Bool) (l : List job_t) (i : Nat) :
    firstIdx p l = some i ↔
      (∃ j, l[i]? = some j ∧ p j = true) ∧
        ∀ k, k < i → ∀ j, l[k]? = some j → p j = false := by
  induction l generalizing i with
  | nil => simp [firstIdx]
  | cons a l ih =>
    by_cases h : p a = true
    · simp only [firstIdx, h, if_true]
      constructor
      · intro hi
        have : i = 0 := by simpa using hi.symm
        subst this
        exact ⟨⟨a, by simp, h⟩, by intro k hk; omega⟩
      · rintro ⟨_, hmin⟩
        cases i with
        | zero => rfl
        | succ n =>
          have := hmin 0 (by omega) a (by simp)
          simp [h] at this
    · have h' : p a = false := by simpa using h
      simp only [firstIdx, h', Bool.false_eq_true, if_false, Option.map_eq_some']
      constructor
      · rintro ⟨n, hn, rfl⟩
        obtain ⟨⟨j, hj, hpj⟩, hmin⟩ := (ih n).1 hn
        refine ⟨⟨j, by simpa using hj, hpj⟩, ?_⟩
        intro k hk j' hj'
        cases k with
        | zero => simp at hj'; subst hj'; exact h'
        | succ m => exact hmin m (by omega) j' (by simpa using hj')
      · rintro ⟨⟨j, hj, hpj⟩, hmin⟩
        cases i with
        | zero => simp at hj; subst hj; simp [h'] at hpj
        | succ n =>
          refine ⟨n, (ih n).2 ⟨⟨j, by simpa using hj, hpj⟩, ?_⟩, rfl⟩
          intro k hk j' hj'
          exact hmin (k + 1) (by omega) j' (by simpa using hj')

theorem firstIdx_lt_length {p : job_t → Bool} {l : List job_t} {i : Nat}
    (h : firstIdx p l = some i) : i < l.length := by
  obtain ⟨⟨j, hj, _⟩, _⟩ := (firstIdx_eq_some_iff p l i).1 h
  exact (List.getElem?_eq_some_iff.1 hj).1

/-- Reading a slot through `getD` is reading `l[i]?`. -/
theorem getD_of_getElem? {l : List job_t} {i : Nat} {j : job_t} (h : l[i]? = some j)
    (d : job_t) : l.getD i d = j := by
  simp [List.getD_eq_getElem?_getD, h]

/-- Slots of a table after one slot was overwritten. -/
theorem getElem?_set_slot (l : List job_t) (i k : Nat) (a : job_t) (hi : i < l.length) :
    (l.set i a)[k]? = if k = i then some a else l[k]? := by
  rw [List.getElem?_set]
  by_cases h : i = k
  · subst h; simp [hi]
  · have : ¬ k = i := fun e => h e.symm
    simp [h, this]

/-- Claim C8. The lookups `getjobpid` and `getjobjid` are total, and for every
table and key: the result is `NULL` exactly when the key is below 1 or no slot
holds it; the result is slot `i` exactly when the key is at least 1, slot `i`
holds it and no slot of lower index does; and the slot returned is never a
cleared slot.  For `getjobpid` the returned slot has `pid != 0`; for
`getjobjid` it has `pid != 0` in every table whose free slots carry job id 0,
which is every table `addjob` and `deletejob` build (`tableOK_runOps`). -/
theorem getjob_lookup (jobs : List job_t) (key : Int) :
    (getjobpid jobs key = none ↔ (key < 1 ∨ ∀ j ∈ jobs, j.pid ≠ key)) ∧
    (∀ i, getjobpid jobs key = some i ↔
      1 ≤ key ∧ (∃ j, jobs[i]? = some j ∧ j.pid = key) ∧
        ∀ k, k < i → ∀ j, jobs[k]? = some j → j.pid ≠ key) ∧
    (getjobjid jobs key = none ↔ (key < 1 ∨ ∀ j ∈ jobs, j.jid ≠ key)) ∧
    (∀ i, getjobjid jobs key = some i ↔
      1 ≤ key ∧ (∃ j, jobs[i]? = some j ∧ j.jid = key) ∧
        ∀ k, k < i → ∀ j, jobs[k]? = some j → j.jid ≠ key) ∧
    (∀ i j, getjobpid jobs key = some i → jobs[i]? = some j → j.pid ≠ 0 ∧ j ≠ clearedJob) ∧
    (∀ i j, getjobjid jobs key = some i → jobs[i]? = some j →
      j ≠ clearedJob ∧ ((∀ e ∈ jobs, e.pid = 0 → e.jid = 0) → j.pid ≠ 0)) := by
  have hpid : ∀ i, getjobpid jobs key = some i ↔
      1 ≤ key ∧ (∃ j, jobs[i]? = some j ∧ j.pid = key) ∧
        ∀ k, k < i → ∀ j, jobs[k]? = some j → j.pid ≠ key := by
    intro i
    unfold getjobpid
    by_cases hk : key < 1
    · simp only [hk, if_true]
      constructor
      · intro h; cases h
      · rintro ⟨h, _⟩; omega
    · simp only [hk, if_false, firstIdx_eq_some_iff]
      simp only [beq_iff_eq, beq_eq_false_iff_ne, ne_eq]
      constructor
      · rintro ⟨h1, h2⟩; exact ⟨by omega, h1, h2⟩
      · rintro ⟨_, h1, h2⟩; exact ⟨h1, h2⟩
  have hjid : ∀ i, getjobjid jobs key = some i ↔
      1 ≤ key ∧ (∃ j, jobs[i]? = some j ∧ j.jid = key) ∧
        ∀ k, k < i → ∀ j, jobs[k]? = some j → j.jid ≠ key := by
    intro i
    unfold getjobjid
    by_cases hk : key < 1
    · simp only [hk, if_true]
      constructor
      · intro h; cases h
      · rintro ⟨h, _⟩; omega
    · simp only [hk, if_false, firstIdx_eq_some_iff]
      simp only [beq_iff_eq, beq_eq_false_iff_ne, ne_eq]
      constructor
      · rintro ⟨h1, h2⟩; exact ⟨by omega, h1, h2⟩
      · rintro ⟨_, h1, h2⟩; exact ⟨h1, h2⟩
  refine ⟨?_, hpid, ?_, hjid, ?_, ?_⟩
  · unfold getjobpid
    by_cases hk : key < 1
    · simp [hk]
    · simp [hk, firstIdx_eq_none_iff]
  · unfold getjobjid
    by_cases hk : key < 1
    · simp [hk]
    · simp [hk, firstIdx_eq_none_iff]
  · intro i j h hj
    obtain ⟨hk, ⟨j', hj', hp⟩, _⟩ := (hpid i).1 h
    rw [hj] at hj'
    cases hj'
    have h0 : j.pid ≠ 0 := by omega
    refine ⟨h0, ?_⟩
    intro e
    apply h0
    rw [e]
    rfl
  · intro i j h hj
    obtain ⟨hk, ⟨j', hj', hp⟩, _⟩ := (hjid i).1 h
    rw [hj] at hj'
    cases hj'
    have h0 : j.jid ≠ 0 := by omega
    refine ⟨?_, ?_⟩
    · intro e
      apply h0
      rw [e]
      rfl
    · intro hwf hp0
      exact h0 (hwf j (List.getElem?_mem hj) hp0)


theorem deletejob_of_lt {s : Shell} {pid : Int} (h : pid < 1) : deletejob s pid = (0, s) := by
  simp [deletejob, h]

theorem deletejob_of_none {s : Shell} {pid : Int}
    (hf : firstIdx (fun j => j.pid == pid) s.jobs = none) : deletejob s pid = (0, s) := by
  unfold deletejob
  split
  · rfl
  · rw [hf]

theorem deletejob_of_some {s : Shell} {pid : Int} {i : Nat} (h : ¬ pid < 1)
    (hf : firstIdx (fun j => j.pid == pid) s.jobs = some i) :
    deletejob s pid =
      (1, { s with jobs := s.jobs.set i clearedJob,
                   nextjid := maxjid (s.jobs.set i clearedJob) + 1 }) := by
  unfold deletejob
  rw [if_neg h, hf]
  rfl

theorem addjob_of_lt {s : Shell} {pid state : Int} {cmdline : List Char} (h : pid < 1) :
    addjob s pid state cmdline = (0, s) := by
  simp [addjob, h]

theorem addjob_of_none {s : Shell} {pid state : Int} {cmdline : List Char} (h : ¬ pid < 1)
    (hf : firstIdx (fun j => j.pid == 0) s.jobs = none) :
    addjob s pid state cmdline = (0, s.print Msg.tooManyJobs) := by
  unfold addjob
  rw [if_neg h, hf]

theorem addjob_of_some {s : Shell} {pid : Int} (state : Int) (cmdline : List Char) {i : Nat}
    (h : ¬ pid < 1) (hf : firstIdx (fun j => j.pid == 0) s.jobs = some i) :
    (addjob s pid state cmdline).1 = 1 ∧
    (addjob s pid state cmdline).2.jobs =
      s.jobs.set i { pid := pid, jid := s.nextjid, state := state, cmdline := cmdline } ∧
    (addjob s pid state cmdline).2.nextjid =
      (if s.nextjid + 1 > (MAXJOBS : Int) then 1 else s.nextjid + 1) := by
  unfold addjob
  rw [if_neg h, hf]
  cases s.verbose <;> simp [Shell.print]

theorem zero_ne_one_int : ¬ ((0 : Int) = 1) := by decide

theorem one_ne_zero_int : ¬ ((1 : Int) = 0) := by decide

/-- Claim C7. The call `deletejob(jobs, pid)` returns 1 exactly when `pid >= 1`
and some slot holds `pid` (otherwise it returns 0).  When it returns 1, the
slot of lowest index holding `pid` is cleared to pid 0, job id 0, state
`UNDEF` and empty command line, and every other slot is as before.  When it
returns 0, nothing changed: not the table, not `nextjid`, not anything else. -/
theorem deletejob_spec (s : Shell) (pid : Int) :
    ((deletejob s pid).1 = 1 ↔ (1 ≤ pid ∧ ∃ j ∈ s.jobs, j.pid = pid)) ∧
    ((deletejob s pid).1 = 1 ∨ (deletejob s pid).1 = 0) ∧
    ((deletejob s pid).1 = 1 →
      ∃ i : Nat, (∃ j, s.jobs[i]? = some j ∧ j.pid = pid) ∧
        (∀ k, k < i → ∀ j, s.jobs[k]? = some j → j.pid ≠ pid) ∧
        (deletejob s pid).2.jobs.length = s.jobs.length ∧
        (deletejob s pid).2.jobs[i]? =
          some { pid := 0, jid := 0, state := UNDEF, cmdline := [] } ∧
        ∀ k, k ≠ i → (deletejob s pid).2.jobs[k]? = s.jobs[k]?) ∧
    ((deletejob s pid).1 = 0 → (deletejob s pid).2 = s) := by
  by_cases hk : pid < 1
  · rw [deletejob_of_lt hk]
    refine ⟨⟨fun h => absurd h zero_ne_one_int, fun h => by omega⟩, Or.inr rfl,
      fun h => absurd h zero_ne_one_int, fun _ => rfl⟩
  · cases hf : firstIdx (fun j => j.pid == pid) s.jobs with
    | none =>
      rw [deletejob_of_none hf]
      have hnone := (firstIdx_eq_none_iff _ _).1 hf
      refine ⟨⟨fun h => absurd h zero_ne_one_int, ?_⟩, Or.inr rfl,
        fun h => absurd h zero_ne_one_int, fun _ => rfl⟩
      rintro ⟨_, j, hj, hp⟩
      have := hnone j hj
      simp [hp] at this
    | some i =>
      rw [deletejob_of_some hk hf]
      obtain ⟨⟨j, hj, hp⟩, hmin⟩ := (firstIdx_eq_some_iff _ _ _).1 hf
      have hp' : j.pid = pid := by simpa using hp
      have hi : i < s.jobs.length := firstIdx_lt_length hf
      refine ⟨⟨fun _ => ⟨by omega, j, List.getElem?_mem hj, hp'⟩, fun _ => rfl⟩, Or.inl rfl,
        fun _ => ⟨i, ⟨j, hj, hp'⟩, ?_, ?_, ?_, ?_⟩, fun h => absurd h one_ne_zero_int⟩
      · intro k hk j' hj'
        simpa using hmin k hk j' hj'
      · simp
      · show (s.jobs.set i clearedJob)[i]? = _
        rw [getElem?_set_slot _ _ _ _ hi]
        simp [clearedJob]
      · intro k hk
        show (s.jobs.set i clearedJob)[k]? = _
        rw [getElem?_set_slot _ _ _ _ hi]
        simp [hk]

/-- Claim C4. The call `addjob(jobs, pid, state, cmdline)` returns 0 (is
rejected) exactly when `pid <= 0` or no slot is free, and returns 1 otherwise.
With a valid pid and a full table it is rejected and prints "Tried to create
too many jobs".  Whenever it is rejected, the table and `nextjid` are as
before and the shell goes on (`mode` is as before: no `exit`). -/
theorem addjob_rejected (s : Shell) (pid state : Int) (cmdline : List Char) :
    ((addjob s pid state cmdline).1 = 0 ↔ (pid ≤ 0 ∨ ∀ j ∈ s.jobs, j.pid ≠ 0)) ∧
    ((addjob s pid state cmdline).1 = 0 ∨ (addjob s pid state cmdline).1 = 1) ∧
    (0 < pid → (∀ j ∈ s.jobs, j.pid ≠ 0) →
      (addjob s pid state cmdline).1 = 0 ∧
      (addjob s pid state cmdline).2.out = s.out ++ [Msg.tooManyJobs]) ∧
    ((addjob s pid state cmdline).1 = 0 →
      (addjob s pid state cmdline).2.jobs = s.jobs ∧
      (addjob s pid state cmdline).2.nextjid = s.nextjid ∧
      (addjob s pid state cmdline).2.mode = s.mode) := by
  by_cases hk : pid < 1
  · rw [addjob_of_lt hk]
    exact ⟨⟨fun _ => Or.inl (by omega), fun _ => rfl⟩, Or.inl rfl, fun h => by omega,
      fun _ => ⟨rfl, rfl, rfl⟩⟩
  · cases hf : firstIdx (fun j => j.pid == 0) s.jobs with
    | none =>
      rw [addjob_of_none hk hf]
      have hnone := (firstIdx_eq_none_iff _ _).1 hf
      refine ⟨⟨fun _ => Or.inr ?_, fun _ => rfl⟩, Or.inl rfl, fun _ _ => ⟨rfl, rfl⟩,
        fun _ => ⟨rfl, rfl, rfl⟩⟩
      intro j hj
      simpa using hnone j hj
    | some i =>
      obtain ⟨h1, -, -⟩ := addjob_of_some state cmdline hk hf
      obtain ⟨⟨j, hj, hp⟩, _⟩ := (firstIdx_eq_some_iff _ _ _).1 hf
      have hp' : j.pid = 0 := by simpa using hp
      rw [h1]
      refine ⟨⟨fun h => absurd h one_ne_zero_int, ?_⟩, Or.inr rfl, ?_, fun h => absurd h one_ne_zero_int⟩
      · rintro (h | h)
        · omega
        · exact absurd hp' (h j (List.getElem?_mem hj))
      · intro _ h
        exact absurd hp' (h j (List.getElem?_mem hj))

/-- The scan of `maxjid` never goes below its starting value. -/
theorem maxjid_fold_ge (l : List job_t) (m : Int) :
    m ≤ l.foldl (fun max j => if j.jid > max then j.jid else max) m := by
  induction l generalizing m with
  | nil => simp
  | cons a l ih =>
    simp only [List.foldl_cons]
    refine le_trans ?_ (ih _)
    split <;> omega

/-- The scan of `maxjid` ends at or above every job id it saw. -/
theorem maxjid_fold_ge_mem (l : List job_t) (m : Int) (j : job_t) (hj : j ∈ l) :
    j.jid ≤ l.foldl (fun max j => if j.jid > max then j.jid else max) m := by
  induction l generalizing m with
  | nil => simp at hj
  | cons a l ih =>
    simp only [List.foldl_cons]
    rcases List.mem_cons.1 hj with h | h
    · subst h
      refine le_trans ?_ (maxjid_fold_ge l _)
      split <;> omega
    · exact ih _ h

/-- The scan of `maxjid` ends at its starting value or at a job id it saw. -/
theorem maxjid_fold_mem (l : List job_t) (m : Int) :
    l.foldl (fun max j => if j.jid > max then j.jid else max) m = m ∨
      ∃ j ∈ l, j.jid = l.foldl (fun max j => if j.jid > max then j.jid else max) m ∧ m < j.jid := by
  induction l generalizing m with
  | nil => simp
  | cons a l ih =>
    simp only [List.foldl_cons]
    by_cases h : a.jid > m
    · simp only [h, if_true]
      rcases ih a.jid with h1 | ⟨j, hj, h1, h2⟩
      · right; exact ⟨a, List.mem_cons_self _ _, h1.symm, h⟩
      · right; exact ⟨j, List.mem_cons_of_mem _ hj, h1, by omega⟩
    · simp only [h, if_false]
      rcases ih m with h1 | ⟨j, hj, h1, h2⟩
      · left; exact h1
      · right; exact ⟨j, List.mem_cons_of_mem _ hj, h1, h2⟩

theorem maxjid_nonneg (jobs : List job_t) : 0 ≤ maxjid jobs :=
  maxjid_fold_ge jobs 0

theorem le_maxjid {jobs : List job_t} {j : job_t} (hj : j ∈ jobs) : j.jid ≤ maxjid jobs :=
  maxjid_fold_ge_mem jobs 0 j hj

theorem maxjid_eq (jobs : List job_t) :
    maxjid jobs = 0 ∨ ∃ j ∈ jobs, j.jid = maxjid jobs ∧ 0 < j.jid :=
  maxjid_fold_mem jobs 0

theorem slotOK_cleared : SlotOK clearedJob := Or.inl ⟨rfl, rfl, rfl, rfl⟩

theorem tableOK_initjobs : ∀ j ∈ initjobs, SlotOK j := by
  intro j hj
  have := List.eq_of_mem_replicate hj
  subst this
  exact slotOK_cleared

theorem slotOK_set {l : List job_t} {i : Nat} {a : job_t} (hl : ∀ j ∈ l, SlotOK j)
    (ha : SlotOK a) : ∀ j ∈ l.set i a, SlotOK j := by
  intro j hj
  rcases List.mem_or_eq_of_mem_set hj with h | h
  · exact hl j h
  · subst h; exact ha

theorem tableOK_addjob {s : Shell} (h : TableOK s) (pid state : Int) (cmdline : List Char) :
    TableOK (addjob s pid state cmdline).2 := by
  by_cases hk : pid < 1
  · rw [addjob_of_lt hk]; exact h
  · cases hf : firstIdx (fun j => j.pid == 0) s.jobs with
    | none => rw [addjob_of_none hk hf]; exact h
    | some i =>
      obtain ⟨-, h2, h3⟩ := addjob_of_some state cmdline hk hf
      refine ⟨?_, ?_⟩
      · rw [h3]
        have := h.1
        split <;> omega
      · rw [h2]
        exact slotOK_set h.2 (Or.inr ⟨by simp only; omega, h.1⟩)

theorem tableOK_deletejob {s : Shell} (h : TableOK s) (pid : Int) :
    TableOK (deletejob s pid).2 := by
  by_cases hk : pid < 1
  · rw [deletejob_of_lt hk]; exact h
  · cases hf : firstIdx (fun j => j.pid == pid) s.jobs with
    | none => rw [deletejob_of_none hf]; exact h
    | some i =>
      rw [deletejob_of_some hk hf]
      refine ⟨?_, slotOK_set h.2 slotOK_cleared⟩
      have := maxjid_nonneg (s.jobs.set i clearedJob)
      show 1 ≤ maxjid (s.jobs.set i clearedJob) + 1
      omega

theorem tableOK_runOps {s : Shell} (h : TableOK s) (ops : List TableOp) :
    TableOK (runOps s ops) := by
  induction ops generalizing s with
  | nil => exact h
  | cons op ops ih =>
    simp only [runOps, List.foldl_cons]
    apply ih
    cases op with
    | add pid state cmdline => exact tableOK_addjob h pid state cmdline
    | remove pid => exact tableOK_deletejob h pid

theorem tableOK_initTable (verbose : Bool) : TableOK (initTable verbose) :=
  ⟨le_refl _, tableOK_initjobs⟩

/-- Claim C9. In every table built from the initial one by `addjob` (with any
state) and `deletejob`, a slot whose state is not `UNDEF` has `pid > 0` and
`jid >= 1`, and a slot with `pid = 0` has `jid = 0` and state `UNDEF`. -/
theorem live_slot_wf (verbose : Bool) (ops : List TableOp) :
    ∀ j ∈ (runOps (initTable verbose) ops).jobs,
      (j.state ≠ UNDEF → 0 < j.pid ∧ 1 ≤ j.jid) ∧ (j.pid = 0 → j.jid = 0 ∧ j.state = UNDEF) := by
  intro j hj
  have h := (tableOK_runOps (tableOK_initTable verbose) ops).2 j hj
  rcases h with ⟨h1, h2, h3, _⟩ | ⟨h1, h2⟩
  · exact ⟨fun hs => absurd h3 hs, fun _ => ⟨h2, h3⟩⟩
  · exact ⟨fun _ => ⟨by omega, h2⟩, fun h0 => by omega⟩

/-- What a successful `addjob` stores and where. -/
theorem addjob_success {s : Shell} {pid state : Int} {cmdline : List Char}
    (h : (addjob s pid state cmdline).1 = 1) :
    1 ≤ pid ∧ ∃ i : Nat, firstIdx (fun j => j.pid == 0) s.jobs = some i ∧ i < s.jobs.length ∧
      (addjob s pid state cmdline).2.jobs =
        s.jobs.set i { pid := pid, jid := s.nextjid, state := state, cmdline := cmdline } ∧
      (addjob s pid state cmdline).2.nextjid =
        (if s.nextjid + 1 > (MAXJOBS : Int) then 1 else s.nextjid + 1) := by
  by_cases hk : pid < 1
  · rw [addjob_of_lt hk] at h; exact absurd h zero_ne_one_int
  · cases hf : firstIdx (fun j => j.pid == 0) s.jobs with
    | none => rw [addjob_of_none hk hf] at h; exact absurd h zero_ne_one_int
    | some i =>
      obtain ⟨-, h2, h3⟩ := addjob_of_some state cmdline hk hf
      exact ⟨by omega, i, rfl, firstIdx_lt_length hf, h2, h3⟩

/-- A rejected `addjob` leaves table and counter alone. -/
theorem addjob_failure {s : Shell} {pid state : Int} {cmdline : List Char}
    (h : (addjob s pid state cmdline).1 ≠ 1) :
    (addjob s pid state cmdline).2.jobs = s.jobs ∧
      (addjob s pid state cmdline).2.nextjid = s.nextjid := by
  by_cases hk : pid < 1
  · rw [addjob_of_lt hk]; exact ⟨rfl, rfl⟩
  · cases hf : firstIdx (fun j => j.pid == 0) s.jobs with
    | none => rw [addjob_of_none hk hf]; exact ⟨rfl, rfl⟩
    | some i =>
      exact absurd (addjob_of_some state cmdline hk hf).1 h

/-- What a successful `deletejob` clears. -/
theorem deletejob_success {s : Shell} {pid : Int} (h : (deletejob s pid).1 = 1) :
    1 ≤ pid ∧ ∃ i : Nat, firstIdx (fun j => j.pid == pid) s.jobs = some i ∧ i < s.jobs.length ∧
      (deletejob s pid).2.jobs = s.jobs.set i clearedJob ∧
      (deletejob s pid).2.nextjid = maxjid (s.jobs.set i clearedJob) + 1 := by
  by_cases hk : pid < 1
  · rw [deletejob_of_lt hk] at h; exact absurd h zero_ne_one_int
  · cases hf : firstIdx (fun j => j.pid == pid) s.jobs with
    | none => rw [deletejob_of_none hf] at h; exact absurd h zero_ne_one_int
    | some i =>
      rw [deletejob_of_some hk hf]
      exact ⟨by omega, i, rfl, firstIdx_lt_length hf, rfl, rfl⟩

/-- A `deletejob` that found nothing leaves everything alone. -/
theorem deletejob_failure {s : Shell} {pid : Int} (h : (deletejob s pid).1 ≠ 1) :
    (deletejob s pid).2 = s := by
  by_cases hk : pid < 1
  · rw [deletejob_of_lt hk]
  · cases hf : firstIdx (fun j => j.pid == pid) s.jobs with
    | none => rw [deletejob_of_none hf]
    | some i =>
      rw [deletejob_of_some hk hf] at h
      exact absurd rfl h

/-- A successful `addjob` gives the job the value of `nextjid` before the call. -/
theorem assignedJid_of_success {s : Shell} {pid state : Int} {cmdline : List Char}
    (h : (addjob s pid state cmdline).1 = 1) :
    assignedJid s pid state cmdline = some s.nextjid := by
  obtain ⟨-, i, hf, hi, hjobs, -⟩ := addjob_success h
  unfold assignedJid
  rw [if_pos h, hf]
  show Option.map job_t.jid (addjob s pid state cmdline).2.jobs[i]? = some s.nextjid
  rw [hjobs, getElem?_set_slot _ _ _ _ hi]
  simp

/-- Claim C5. After a successful `deletejob` on a table built from the initial
one by `addjob` and `deletejob`, `nextjid` is above the job id of every
occupied slot and is one more than the job id of some occupied slot, or is 1
when no slot is occupied; and the next successful `addjob` gives exactly
`nextjid` to its job.  In particular, after three jobs were added (job ids 1,
2, 3), removing job 2 makes the next job get id 4, and removing job 3 instead
makes it get id 3. -/
theorem deletejob_recomputes_nextjid (verbose : Bool) (ops : List TableOp) (pid : Int) :
    ((deletejob (runOps (initTable verbose) ops) pid).1 = 1 →
      (∀ j ∈ (deletejob (runOps (initTable verbose) ops) pid).2.jobs,
        j.pid ≠ 0 → j.jid < (deletejob (runOps (initTable verbose) ops) pid).2.nextjid) ∧
      ((∃ j ∈ (deletejob (runOps (initTable verbose) ops) pid).2.jobs,
          j.pid ≠ 0 ∧ (deletejob (runOps (initTable verbose) ops) pid).2.nextjid = j.jid + 1) ∨
        ((∀ j ∈ (deletejob (runOps (initTable verbose) ops) pid).2.jobs, j.pid = 0) ∧
          (deletejob (runOps (initTable verbose) ops) pid).2.nextjid = 1)) ∧
      ∀ (pid2 state : Int) (cmdline : List Char),
        (addjob (deletejob (runOps (initTable verbose) ops) pid).2 pid2 state cmdline).1 = 1 →
        assignedJid (deletejob (runOps (initTable verbose) ops) pid).2 pid2 state cmdline =
          some (deletejob (runOps (initTable verbose) ops) pid).2.nextjid) ∧
    (pid2jid (runOps (initTable verbose)
        [TableOp.add 101 BG [], TableOp.add 102 BG [], TableOp.add 103 BG []]).jobs 101 = 1 ∧
      pid2jid (runOps (initTable verbose)
        [TableOp.add 101 BG [], TableOp.add 102 BG [], TableOp.add 103 BG []]).jobs 102 = 2 ∧
      pid2jid (runOps (initTable verbose)
        [TableOp.add 101 BG [], TableOp.add 102 BG [], TableOp.add 103 BG []]).jobs 103 = 3 ∧
      assignedJid (runOps (initTable verbose)
        [TableOp.add 101 BG [], TableOp.add 102 BG [], TableOp.add 103 BG [],
          TableOp.remove 102]) 104 BG [] = some 4 ∧
      assignedJid (runOps (initTable verbose)
        [TableOp.add 101 BG [], TableOp.add 102 BG [], TableOp.add 103 BG [],
          TableOp.remove 103]) 104 BG [] = some 3) := by
  refine ⟨?_, ?_⟩
  · intro h
    have hok := tableOK_deletejob (tableOK_runOps (tableOK_initTable verbose) ops) pid
    obtain ⟨-, i, -, -, hjobs, hnext⟩ := deletejob_success h
    refine ⟨?_, ?_, ?_⟩
    · intro j hj _
      rw [hnext]
      rw [hjobs] at hj
      have := le_maxjid hj
      omega
    · rw [hnext]
      rcases maxjid_eq ((runOps (initTable verbose) ops).jobs.set i clearedJob) with h0 | h1
      · right
        refine ⟨?_, by omega⟩
        intro j hj
        rcases hok.2 j hj with ⟨hp, _⟩ | ⟨_, hjid⟩
        · exact hp
        · rw [hjobs] at hj
          have := le_maxjid hj
          omega
      · left
        obtain ⟨j, hj, hjm, hpos⟩ := h1
        rw [← hjobs] at hj
        refine ⟨j, hj, ?_, by omega⟩
        rcases hok.2 j hj with ⟨_, hz, _⟩ | ⟨hp, _⟩
        · omega
        · omega
    · intro pid2 state cmdline hadd
      exact assignedJid_of_success hadd
  · cases verbose <;> decide

theorem atMostOneFG_initTable (verbose : Bool) : AtMostOneFG (initTable verbose).jobs := by
  intro i k a b ha _ hsa
  have := List.eq_of_mem_replicate (List.getElem?_mem ha)
  subst this
  exact absurd hsa (by decide)

theorem atMostOneFG_addjob {s : Shell} (h : AtMostOneFG s.jobs) (pid state : Int)
    (cmdline : List Char) (hfg : state = FG → ∀ j ∈ s.jobs, j.state ≠ FG) :
    AtMostOneFG (addjob s pid state cmdline).2.jobs := by
  by_cases hs : (addjob s pid state cmdline).1 = 1
  · obtain ⟨-, i, -, hi, hjobs, -⟩ := addjob_success hs
    intro p q a b ha hb hsa hsb
    rw [hjobs, getElem?_set_slot _ _ _ _ hi] at ha hb
    by_cases hpi : p = i <;> by_cases hqi : q = i
    · omega
    · simp only [hpi, if_true, hqi, if_false] at ha hb
      cases ha
      exact absurd hsb (hfg hsa b (List.getElem?_mem hb))
    · simp only [hpi, if_false, hqi, if_true] at ha hb
      cases hb
      exact absurd hsa (hfg hsb a (List.getElem?_mem ha))
    · simp only [hpi, if_false, hqi] at ha hb
      exact h p q a b ha hb hsa hsb
  · rw [(addjob_failure hs).1]; exact h

theorem atMostOneFG_deletejob {s : Shell} (h : AtMostOneFG s.jobs) (pid : Int) :
    AtMostOneFG (deletejob s pid).2.jobs := by
  by_cases hs : (deletejob s pid).1 = 1
  · obtain ⟨-, i, -, hi, hjobs, -⟩ := deletejob_success hs
    intro p q a b ha hb hsa hsb
    rw [hjobs, getElem?_set_slot _ _ _ _ hi] at ha hb
    by_cases hpi : p = i
    · simp only [hpi, if_true] at ha
      cases ha
      exact absurd hsa (by decide)
    · by_cases hqi : q = i
      · simp only [hqi, if_true] at hb
        cases hb
        exact absurd hsb (by decide)
      · simp only [hpi, if_false, hqi] at ha hb
        exact h p q a b ha hb hsa hsb
  · rw [deletejob_failure hs]; exact h

theorem atMostOneFG_runOps (ops : List TableOp) :
    ∀ s : Shell, AtMostOneFG s.jobs → AddsFgOnlyWhenNone s ops →
      AtMostOneFG (runOps s ops).jobs := by
  induction ops with
  | nil => intro s h _; exact h
  | cons op ops ih =>
    intro s h hw
    cases op with
    | add pid state cmdline =>
      exact ih _ (atMostOneFG_addjob h pid state cmdline hw.1) hw.2
    | remove pid =>
      exact ih _ (atMostOneFG_deletejob h pid) hw

theorem addsFgOnlyWhenNone_take (ops : List TableOp) :
    ∀ (s : Shell) (n : Nat), AddsFgOnlyWhenNone s ops → AddsFgOnlyWhenNone s (ops.take n) := by
  induction ops with
  | nil => intro s n h; simpa using h
  | cons op ops ih =>
    intro s n h
    cases n with
    | zero => exact trivial
    | succ n =>
      cases op with
      | add pid state cmdline => exact ⟨h.1, ih _ n h.2⟩
      | remove pid => exact ih _ n h

/-- Claim C2 fails as stated. After `addjob(jobs, 1, FG, "")` and
`addjob(jobs, 2, FG, "")` on the initial table, slots 0 and 1 are both in
state `FG`. -/
theorem table_one_fg_counterexample :
    ¬ AtMostOneFG (runOps (initTable false)
      [TableOp.add 1 FG [], TableOp.add 2 FG []]).jobs := by
  intro h
  have := h 0 1 { pid := 1, jid := 1, state := FG, cmdline := [] }
    { pid := 2, jid := 2, state := FG, cmdline := [] } (by decide) (by decide) (by decide)
    (by decide)
  exact absurd this (by decide)

/-- Claim C2, as amended. Take a sequence of `addjob` and `deletejob` calls run
from the initial table in which `addjob` is called with state `FG` only when
no slot is in state `FG`.  Then after any number `n` of its calls the table
does not hold two slots in state `FG`. -/
theorem table_one_fg (verbose : Bool) (ops : List TableOp)
    (h : AddsFgOnlyWhenNone (initTable verbose) ops) (n : Nat) :
    AtMostOneFG (runOps (initTable verbose) (ops.take n)).jobs :=
  atMostOneFG_runOps _ _ (atMostOneFG_initTable verbose) (addsFgOnlyWhenNone_take ops _ n h)

theorem table_one_fg_witness :
    AddsFgOnlyWhenNone (initTable false)
      [TableOp.add 1 FG [], TableOp.add 2 BG [], TableOp.remove 1, TableOp.add 3 FG []] ∧
    AtMostOneFG (runOps (initTable false)
      ([TableOp.add 1 FG [], TableOp.add 2 BG [], TableOp.remove 1,
        TableOp.add 3 FG []].take 4)).jobs :=
  ⟨by decide, table_one_fg false _ (by decide) 4⟩

/-! ## Lemmas on the shell -/

theorem seq_of_run {s : Shell} (k : Shell → Shell) (h : s.mode = Mode.run) : s.seq k = k s := by
  simp [Shell.seq, h]

theorem seq_of_not_run {s : Shell} (k : Shell → Shell) (h : s.mode ≠ Mode.run) : s.seq k = s := by
  simp [Shell.seq, h]

theorem shellInv_of_ended {s : Shell} (h : s.mode.ended) : ShellInv s := by
  unfold ShellInv
  cases hm : s.mode <;> simp_all [Mode.ended]

theorem ended_not_run {s : Shell} (h : s.mode.ended) : s.mode ≠ Mode.run := by
  intro hm
  rw [hm] at h
  exact h

theorem shellInv_run {s : Shell} (hm : s.mode = Mode.run) (hc : Core s) (hf : NoFG s.jobs) :
    ShellInv s := by
  unfold ShellInv
  rw [hm]
  exact ⟨hc, hf⟩

/-- `Core` only looks at the table, the counter and the set of records. -/
theorem core_congr {s t : Shell} (hj : t.jobs = s.jobs) (hn : t.nextjid = s.nextjid)
    (hp : ∀ q, hasProc s q = true → hasProc t q = true) (h : Core s) : Core t := by
  obtain ⟨⟨h1, h2⟩, h3, h4⟩ := h
  refine ⟨⟨by rw [hn]; exact h1, by rw [hj]; exact h2⟩, by rw [hj]; exact h3, ?_⟩
  rw [hj]
  intro j hjm hne
  exact hp _ (h4 j hjm hne)

theorem hasProc_iff {s : Shell} {q : Int} : hasProc s q = true ↔ ∃ r ∈ s.procs, r.pid = q := by
  simp [hasProc]

/-- The effect of `change_proc_stat`: it exits, or it goes on with the same
records up to their `STAT` lines. -/
theorem change_proc_stat_spec (s : Shell) (pid : Int) (stat : String) :
    (change_proc_stat s pid stat).jobs = s.jobs ∧
    (change_proc_stat s pid stat).nextjid = s.nextjid ∧
    (((change_proc_stat s pid stat).mode = s.mode ∧ hasProc s pid = true ∧
        ∀ q, hasProc (change_proc_stat s pid stat) q = hasProc s q) ∨
      ((change_proc_stat s pid stat).mode = Mode.exited 1 ∧ hasProc s pid = false)) := by
  unfold change_proc_stat
  by_cases h : hasProc s pid = true
  · rw [if_pos h]
    refine ⟨rfl, rfl, Or.inl ⟨rfl, h, ?_⟩⟩
    intro q
    simp only [hasProc, List.any_map]
    congr 1
    funext r
    simp only [Function.comp]
    split <;> rfl
  · rw [if_neg h]
    exact ⟨rfl, rfl, Or.inr ⟨rfl, by simpa using h⟩⟩

/-- The effect of `add_proc`: it exits when the record is there, else adds it. -/
theorem add_proc_spec (s : Shell) (name : List Char) (pid ppid : Int) (stat : String) :
    (add_proc s name pid ppid stat).jobs = s.jobs ∧
    (add_proc s name pid ppid stat).nextjid = s.nextjid ∧
    (((add_proc s name pid ppid stat).mode = s.mode ∧ hasProc s pid = false ∧
        ∀ q, hasProc (add_proc s name pid ppid stat) q = (hasProc s q || q == pid)) ∨
      ((add_proc s name pid ppid stat).mode = Mode.exited 1 ∧ hasProc s pid = true)) := by
  unfold add_proc
  by_cases h : hasProc s pid = true
  · rw [if_pos h]
    exact ⟨rfl, rfl, Or.inr ⟨rfl, h⟩⟩
  · rw [if_neg h]
    have h' : hasProc s pid = false := by simpa using h
    refine ⟨rfl, rfl, Or.inl ⟨rfl, h', ?_⟩⟩
    intro q
    simp only [hasProc, write_proc, List.any_append, List.any_cons, List.any_nil, Bool.or_false,
      List.any_filter]
    by_cases hq : q = pid
    · subst hq
      simp
    · have : (pid == q) = false := by simpa using fun e => hq e.symm
      have hq' : (q == pid) = false := by simpa using hq
      rw [this, hq', Bool.or_false, Bool.or_false]
      congr 1
      funext r
      by_cases hr : r.pid = q
      · subst hr; simp [hq]
      · simp [hr]

/-- The effect of `remove_proc`: it exits when the record is not there, else
removes it. -/
theorem remove_proc_spec (s : Shell) (pid : Int) :
    (remove_proc s pid).jobs = s.jobs ∧
    (remove_proc s pid).nextjid = s.nextjid ∧
    (((remove_proc s pid).mode = s.mode ∧ hasProc s pid = true ∧
        ∀ q, hasProc (remove_proc s pid) q = (hasProc s q && q != pid)) ∨
      ((remove_proc s pid).mode = Mode.exited 1 ∧ hasProc s pid = false)) := by
  unfold remove_proc
  by_cases h : hasProc s pid = true
  · rw [if_pos h]
    refine ⟨rfl, rfl, Or.inl ⟨rfl, h, ?_⟩⟩
    intro q
    simp only [hasProc, List.any_filter]
    by_cases hq : q = pid
    · subst hq
      simp
    · have hq' : (q != pid) = true := by simpa using hq
      rw [hq', Bool.and_true]
      congr 1
      funext r
      by_cases hr : r.pid = q
      · subst hr; simp [hq]
      · simp [hr]
  · rw [if_neg h]
    exact ⟨rfl, rfl, Or.inr ⟨rfl, by simpa using h⟩⟩

/-- Slots of a table after `job->state = st` on slot `i`. -/
theorem setState_getElem? (jobs : List job_t) (i k : Nat) (st : Int) :
    (setState jobs i st)[k]? =
      if k = i then (jobs[i]?).map (fun j => { j with state := st }) else jobs[k]? := by
  unfold setState
  by_cases hi : i < jobs.length
  · rw [getElem?_set_slot _ _ _ _ hi]
    by_cases hk : k = i
    · simp only [hk, if_true]
      rw [List.getD_eq_getElem?_getD, List.getElem?_eq_getElem hi]
      rfl
    · simp only [hk, if_false]
  · have hnone : jobs[i]? = none := List.getElem?_eq_none (by omega)
    rw [List.set_eq_of_length_le (by omega)]
    by_cases hk : k = i
    · simp only [hk, if_true, hnone, Option.map_none']
    · simp only [hk, if_false]

/-- A slot after `setState` comes from the slot before, with the same pid, job
id and command line. -/
theorem setState_slot {jobs : List job_t} {i k : Nat} {st : Int} {j2 : job_t}
    (h : (setState jobs i st)[k]? = some j2) :
    ∃ j, jobs[k]? = some j ∧ j2.pid = j.pid ∧ j2.jid = j.jid ∧ j2.cmdline = j.cmdline ∧
      (k ≠ i → j2 = j) ∧ (k = i → j2.state = st) := by
  rw [setState_getElem?] at h
  by_cases hk : k = i
  · subst hk
    simp only [if_true, Option.map_eq_some'] at h
    obtain ⟨j, hj, rfl⟩ := h
    exact ⟨j, hj, rfl, rfl, rfl, fun hne => absurd rfl hne, fun _ => rfl⟩
  · simp only [hk, if_false] at h
    exact ⟨j2, h, rfl, rfl, rfl, fun _ => rfl, fun e => absurd e hk⟩

theorem setState_length (jobs : List job_t) (i : Nat) (st : Int) :
    (setState jobs i st).length = jobs.length := by
  simp [setState]

theorem mem_setState {jobs : List job_t} {i : Nat} {st : Int} {j2 : job_t}
    (h : j2 ∈ setState jobs i st) :
    ∃ (k : Nat) (j : job_t), (setState jobs i st)[k]? = some j2 ∧ jobs[k]? = some j ∧
      j2.pid = j.pid ∧ j2.jid = j.jid ∧ (k ≠ i → j2 = j) ∧ (k = i → j2.state = st) := by
  obtain ⟨k, hk⟩ := List.mem_iff_getElem?.1 h
  obtain ⟨j, hj, h1, h2, -, h3, h4⟩ := setState_slot hk
  exact ⟨k, j, hk, hj, h1, h2, h3, h4⟩

/-- `Core` survives `job->state = st` on an occupied slot. -/
theorem core_setState {s : Shell} (h : Core s) (i : Nat) (st : Int)
    (hocc : ∀ j, s.jobs[i]? = some j → j.pid ≠ 0) :
    Core { s with jobs := setState s.jobs i st } := by
  obtain ⟨⟨h1, h2⟩, h3, h4⟩ := h
  refine ⟨⟨h1, ?_⟩, ?_, ?_⟩
  · intro j2 hj2
    obtain ⟨k, j, -, hj, hp, hjid, hne, -⟩ := mem_setState hj2
    by_cases hk : k = i
    · subst hk
      have hp0 := hocc j hj
      rcases h2 j (List.getElem?_mem hj) with ⟨hz, _⟩ | ⟨ha, hb⟩
      · exact absurd hz hp0
      · exact Or.inr ⟨by rw [hp]; exact ha, by rw [hjid]; exact hb⟩
    · rw [hne hk]
      exact h2 j (List.getElem?_mem hj)
  · intro p q a b ha hb hpa hab
    obtain ⟨a0, ha0, hap, -⟩ := setState_slot ha
    obtain ⟨b0, hb0, hbp, -⟩ := setState_slot hb
    exact h3 p q a0 b0 ha0 hb0 (by rw [← hap]; exact hpa) (by rw [← hap, ← hbp]; exact hab)
  · intro j2 hj2 hne
    obtain ⟨k, j, -, hj, hp, -⟩ := mem_setState hj2
    show hasProc s j2.pid = true
    rw [hp]
    exact h4 j (List.getElem?_mem hj) (by rw [← hp]; exact hne)

/-- With unique pids, `getjobpid` on the pid of an occupied slot finds that slot. -/
theorem getjobpid_of_slot {jobs : List job_t} (hu : PidsUnique jobs) {i : Nat} {j : job_t}
    (hj : jobs[i]? = some j) (hp : 1 ≤ j.pid) : getjobpid jobs j.pid = some i := by
  unfold getjobpid
  rw [if_neg (by omega), firstIdx_eq_some_iff]
  refine ⟨⟨j, hj, by simp⟩, ?_⟩
  intro k hk j2 hj2
  by_contra hne
  have heq : j2.pid = j.pid := by simpa using hne
  have := hu k i j2 j hj2 hj (by omega) heq
  omega

/-- What `getjobpid` returns is a slot holding the pid, which is positive. -/
theorem getjobpid_some {jobs : List job_t} {pid : Int} {i : Nat}
    (h : getjobpid jobs pid = some i) :
    1 ≤ pid ∧ ∃ j, jobs[i]? = some j ∧ j.pid = pid := by
  unfold getjobpid at h
  by_cases hk : pid < 1
  · rw [if_pos hk] at h; cases h
  · rw [if_neg hk] at h
    obtain ⟨⟨j, hj, hp⟩, -⟩ := (firstIdx_eq_some_iff _ _ _).1 h
    exact ⟨by omega, j, hj, by simpa using hp⟩

/-- When `getjobpid` returns `NULL` no slot holds the pid, if it is positive. -/
theorem getjobpid_none {jobs : List job_t} {pid : Int} (h : getjobpid jobs pid = none)
    (hp : 1 ≤ pid) : ∀ j ∈ jobs, j.pid ≠ pid := by
  unfold getjobpid at h
  rw [if_neg (by omega)] at h
  intro j hj
  simpa using (firstIdx_eq_none_iff _ _).1 h j hj

/-- What `getjobjid` returns is a slot holding the job id, which is positive. -/
theorem getjobjid_some {jobs : List job_t} {jid : Int} {i : Nat}
    (h : getjobjid jobs jid = some i) :
    1 ≤ jid ∧ ∃ j, jobs[i]? = some j ∧ j.jid = jid := by
  unfold getjobjid at h
  by_cases hk : jid < 1
  · rw [if_pos hk] at h; cases h
  · rw [if_neg hk] at h
    obtain ⟨⟨j, hj, hp⟩, -⟩ := (firstIdx_eq_some_iff _ _ _).1 h
    exact ⟨by omega, j, hj, by simpa using hp⟩

/-- A target of `fg` or `bg` that resolves, resolves to an occupied slot. -/
theorem pidjid_str2job_some {jobs : List job_t} (hok : ∀ j ∈ jobs, SlotOK j) {str : List Char}
    {i : Nat} (h : pidjid_str2job jobs str = some (some i)) :
    ∃ j, jobs[i]? = some j ∧ 1 ≤ j.pid := by
  have key : ∀ j, jobs[i]? = some j → (1 ≤ j.pid ∨ 1 ≤ j.jid) → 1 ≤ j.pid := by
    intro j hj hor
    rcases hok j (List.getElem?_mem hj) with ⟨h1, h2, -⟩ | ⟨h1, -⟩
    · omega
    · exact h1
  unfold pidjid_str2job at h
  split at h
  · split at h
    · exact absurd h (by simp)
    · obtain ⟨h1, j, hj, hjid⟩ := getjobjid_some (Option.some.inj h)
      exact ⟨j, hj, key j hj (Or.inr (by omega))⟩
  · obtain ⟨h1, j, hj, hpid⟩ := getjobpid_some (Option.some.inj h)
    exact ⟨j, hj, key j hj (Or.inl (by omega))⟩

/-- The two outcomes of `waitfg`: it returns at once, or it suspends on a slot
that is in state `FG`. -/
theorem waitfg_cases (s : Shell) (pid : Int) :
    (waitfg s pid = s ∧
      ∀ i, getjobpid s.jobs pid = some i → ∀ j, s.jobs[i]? = some j → j.state ≠ FG) ∨
    ∃ (i : Nat) (j : job_t), getjobpid s.jobs pid = some i ∧ s.jobs[i]? = some j ∧
      j.state = FG ∧ waitfg s pid = { s with mode := Mode.inWaitfg i } := by
  unfold waitfg
  cases hg : getjobpid s.jobs pid with
  | none => exact Or.inl ⟨rfl, fun i hi => by cases hi⟩
  | some i =>
    obtain ⟨-, j, hj, -⟩ := getjobpid_some hg
    have hd : s.jobs.getD i clearedJob = j := getD_of_getElem? hj _
    simp only [hd]
    by_cases hs : j.state = FG
    · rw [if_pos hs]
      exact Or.inr ⟨i, j, rfl, hj, hs, rfl⟩
    · rw [if_neg hs]
      refine Or.inl ⟨rfl, ?_⟩
      intro i2 hi2 j2 hj2
      cases hi2
      rw [hj] at hj2
      cases hj2
      exact hs

theorem fgShrink_refl (jobs : List job_t) : FgShrink jobs jobs :=
  fun _ j2 h hs => ⟨j2, h, hs⟩

theorem fgShrink_trans {a b c : List job_t} (h1 : FgShrink a b) (h2 : FgShrink b c) :
    FgShrink a c := by
  intro k j hj hs
  obtain ⟨j1, hj1, hs1⟩ := h2 k j hj hs
  exact h1 k j1 hj1 hs1

theorem fgShrink_setState (jobs : List job_t) (i : Nat) {st : Int} (hst : st ≠ FG) :
    FgShrink jobs (setState jobs i st) := by
  intro k j2 hj2 hs
  obtain ⟨j, hj, -, -, -, hne, heq⟩ := setState_slot hj2
  by_cases hk : k = i
  · exact absurd ((heq hk).symm.trans hs) hst
  · rw [hne hk] at hs
    exact ⟨j, hj, hs⟩

theorem fgShrink_set_cleared (jobs : List job_t) (i : Nat) :
    FgShrink jobs (jobs.set i clearedJob) := by
  intro k j2 hj2 hs
  by_cases hi : i < jobs.length
  · rw [getElem?_set_slot _ _ _ _ hi] at hj2
    by_cases hk : k = i
    · simp only [hk, if_true] at hj2
      cases hj2
      exact absurd hs (by decide)
    · simp only [hk, if_false] at hj2
      exact ⟨j2, hj2, hs⟩
  · rw [List.set_eq_of_length_le (by omega)] at hj2
    exact ⟨j2, hj2, hs⟩

theorem noFG_of_fgShrink {a b : List job_t} (h : FgShrink a b) (ha : NoFG a) : NoFG b := by
  intro j hj hs
  obtain ⟨k, hk⟩ := List.mem_iff_getElem?.1 hj
  obtain ⟨j1, hj1, hs1⟩ := h k j hk hs
  exact ha j1 (List.getElem?_mem hj1) hs1

theorem onlyFG_of_fgShrink {a b : List job_t} {i : Nat} (h : FgShrink a b) (ha : OnlyFG i a) :
    OnlyFG i b := by
  intro k j hj hs
  obtain ⟨j1, hj1, hs1⟩ := h k j hj hs
  exact ha k j1 hj1 hs1

theorem onlyFG_of_noFG {jobs : List job_t} (i : Nat) (h : NoFG jobs) : OnlyFG i jobs :=
  fun _ j hj hs => absurd hs (h j (List.getElem?_mem hj))

theorem atMostOneFG_of_onlyFG {jobs : List job_t} {i : Nat} (h : OnlyFG i jobs) :
    AtMostOneFG jobs :=
  fun p q a b ha hb hsa hsb => (h p a ha hsa).trans (h q b hb hsb).symm

/-- `ShellInv` only looks at the mode, the table, the counter and the records. -/
theorem shellInv_congr {s t : Shell} (hm : t.mode = s.mode) (hj : t.jobs = s.jobs)
    (hn : t.nextjid = s.nextjid) (hp : ∀ q, hasProc s q = true → hasProc t q = true)
    (h : ShellInv s) : ShellInv t := by
  unfold ShellInv at h ⊢
  rw [hm]
  cases hmode : s.mode with
  | run => rw [hmode] at h; exact ⟨core_congr hj hn hp h.1, by rw [hj]; exact h.2⟩
  | inQuit => rw [hmode] at h; exact ⟨core_congr hj hn hp h.1, by rw [hj]; exact h.2⟩
  | inWaitfg i => rw [hmode] at h; exact ⟨core_congr hj hn hp h.1, by rw [hj]; exact h.2⟩
  | exited c => trivial
  | undefinedBehaviour => trivial

theorem shellInv_print {s : Shell} (h : ShellInv s) (m : Msg) : ShellInv (s.print m) :=
  shellInv_congr rfl rfl rfl (fun _ hq => hq) h

/-- After `change_proc_stat` at the prompt: ended, or at the prompt with `Core`
and the table as before. -/
theorem change_proc_stat_run {s : Shell} (hm : s.mode = Mode.run) (hc : Core s) (pid : Int)
    (stat : String) :
    (change_proc_stat s pid stat).mode.ended ∨
      ((change_proc_stat s pid stat).mode = Mode.run ∧ Core (change_proc_stat s pid stat) ∧
        (change_proc_stat s pid stat).jobs = s.jobs ∧
        ∀ q, hasProc (change_proc_stat s pid stat) q = hasProc s q) := by
  obtain ⟨hj, hn, h | h⟩ := change_proc_stat_spec s pid stat
  · obtain ⟨h1, -, h3⟩ := h
    exact Or.inr ⟨h1.trans hm, core_congr hj hn (fun q hq => by rw [h3]; exact hq) hc, hj, h3⟩
  · left
    rw [h.1]
    trivial

/-- The end of `waitfg` callers when no job is in state `FG`: `waitfg` returns
at once and the shell record is updated. -/
theorem wait_tail_noFG {s : Shell} (hm : s.mode = Mode.run) (hc : Core s) (hf : NoFG s.jobs)
    (pid : Int) :
    ShellInv ((waitfg s pid).seq fun s5 => change_proc_stat s5 s5.shell_pid "Rs+") := by
  rcases waitfg_cases s pid with ⟨hw, -⟩ | ⟨i, j, -, hj, hs, -⟩
  · rw [hw, seq_of_run _ hm]
    rcases change_proc_stat_run hm hc s.shell_pid "Rs+" with he | ⟨h1, h2, h3, -⟩
    · exact shellInv_of_ended he
    · exact shellInv_run h1 h2 (by rw [h3]; exact hf)
  · exact absurd hs (hf j (List.getElem?_mem hj))

/-- The end of `waitfg` callers when the awaited job is the one job in state
`FG`: `waitfg` suspends on its slot. -/
theorem wait_tail_fg {s : Shell} (hc : Core s) {i : Nat} {j : job_t}
    (hj : s.jobs[i]? = some j) (hp : 1 ≤ j.pid) (hs : j.state = FG) (hf : OnlyFG i s.jobs)
    (k : Shell → Shell) :
    (waitfg s j.pid).seq k = { s with mode := Mode.inWaitfg i } ∧
      ShellInv ((waitfg s j.pid).seq k) := by
  have hg := getjobpid_of_slot hc.2.1 hj hp
  rcases waitfg_cases s j.pid with ⟨-, hw⟩ | ⟨i2, j2, hg2, -, -, hw⟩
  · exact absurd hs (hw i hg j hj)
  · rw [hg] at hg2
    cases hg2
    rw [hw, seq_of_not_run _ (by simp)]
    refine ⟨rfl, ?_⟩
    unfold ShellInv
    exact ⟨hc, hf⟩

theorem onlyFG_setState {jobs : List job_t} (hf : NoFG jobs) (i : Nat) (st : Int) :
    OnlyFG i (setState jobs i st) := by
  intro k j2 hj2 hs
  by_contra hk
  obtain ⟨j, hj, -, -, -, hne, -⟩ := setState_slot hj2
  rw [hne hk] at hs
  exact hf j (List.getElem?_mem hj) hs

theorem noFG_setState {jobs : List job_t} (hf : NoFG jobs) (i : Nat) {st : Int} (hst : st ≠ FG) :
    NoFG (setState jobs i st) :=
  noFG_of_fgShrink (fgShrink_setState jobs i hst) hf

theorem setState_self {jobs : List job_t} {i : Nat} {j : job_t} (hj : jobs[i]? = some j)
    (st : Int) : (setState jobs i st)[i]? = some { j with state := st } := by
  rw [setState_getElem?, if_pos rfl, hj]
  rfl

/-! ## The run of `do_bgfg` without signals -/

theorem seq_congr {s : Shell} {k1 k2 : Shell → Shell} (h : s.mode = Mode.run → k1 s = k2 s) :
    s.seq k1 = s.seq k2 := by
  by_cases hm : s.mode = Mode.run
  · rw [seq_of_run _ hm, seq_of_run _ hm]; exact h hm
  · rw [seq_of_not_run _ hm, seq_of_not_run _ hm]

theorem change_proc_stat_jobs (s : Shell) (pid : Int) (stat : String) :
    (change_proc_stat s pid stat).jobs = s.jobs :=
  (change_proc_stat_spec s pid stat).1

theorem setState_getD_pid (jobs : List job_t) (i : Nat) (st : Int) :
    ((setState jobs i st).getD i clearedJob).pid = (jobs.getD i clearedJob).pid := by
  rw [List.getD_eq_getElem?_getD, List.getD_eq_getElem?_getD, setState_getElem?, if_pos rfl]
  cases jobs[i]? <;> rfl

/-- The run of `do_bgfg` in which no signal arrives. -/
theorem do_bgfg_quiet (s : Shell) (argv : List (List Char)) :
    do_bgfg s argv noSignals = do_bgfgQuiet s argv := by
  cases argv with
  | nil => rfl
  | cons cmd tl =>
    cases tl with
    | nil => rfl
    | cons target rest =>
      unfold do_bgfg do_bgfgQuiet
      dsimp only [noSignals, Shell.handling]
      by_cases hr : rest ≠ []
      · rw [if_pos hr, if_pos hr]
      · rw [if_neg hr, if_neg hr]
        cases hp : pidjid_str2job s.jobs target with
        | none => rfl
        | some job =>
          cases job with
          | none => rfl
          | some i =>
            dsimp only
            by_cases hu : (s.jobs.getD i clearedJob).state = UNDEF
            · rw [if_pos hu, if_pos hu]
            · rw [if_neg hu, if_neg hu]
              by_cases hfg : cmd = "fg".toList
              · rw [if_pos hfg, if_pos hfg]
                apply seq_congr
                intro _
                apply seq_congr
                intro _
                rw [change_proc_stat_jobs, change_proc_stat_jobs]
                have e : ∀ t : Shell,
                    ((if (s.jobs.getD i clearedJob).state = ST then
                      t.kill (-(s.jobs.getD i clearedJob).pid) Signal.SIGCONT else t).jobs) = t.jobs := by
                  intro t; split <;> rfl
                simp only [setState_getD_pid, e, change_proc_stat_jobs]
              · rw [if_neg hfg, if_neg hfg]
                by_cases hbg : cmd = "bg".toList
                · rw [if_pos hbg, if_pos hbg]
                  apply seq_congr
                  intro _
                  rw [change_proc_stat_jobs]
                · rw [if_neg hbg, if_neg hbg]

/-- The function `do_bgfg` keeps the shell invariant. -/
theorem do_bgfg_inv {s : Shell} (hm : s.mode = Mode.run) (hc : Core s) (hf : NoFG s.jobs)
    (argv : List (List Char)) : ShellInv (do_bgfg s argv noSignals) := by
  have hs : ShellInv s := shellInv_run hm hc hf
  rw [do_bgfg_quiet]
  unfold do_bgfgQuiet
  split
  · exact hs
  · exact shellInv_print hs _
  · rename_i cmd target rest
    split
    · exact shellInv_print hs _
    · split
      · exact shellInv_of_ended trivial
      · exact shellInv_print hs _
      · rename_i i hres
        obtain ⟨j, hj, hp⟩ := pidjid_str2job_some hc.1.2 hres
        have hd : s.jobs.getD i clearedJob = j := getD_of_getElem? hj _
        simp only [hd]
        split
        · exact shellInv_print hs _
        · split
          · -- fg
            rcases change_proc_stat_run hm hc j.pid "R+" with he | ⟨h1, h2, h3, -⟩
            · rw [seq_of_not_run _ (ended_not_run he)]
              exact shellInv_of_ended he
            · rw [seq_of_run _ h1]
              rcases change_proc_stat_run h1 h2 (change_proc_stat s j.pid "R+").shell_pid "Ss"
                with he | ⟨k1, k2, k3, -⟩
              · rw [seq_of_not_run _ (ended_not_run he)]
                exact shellInv_of_ended he
              · rw [seq_of_run _ k1]
                generalize hs2 : change_proc_stat (change_proc_stat s j.pid "R+")
                  (change_proc_stat s j.pid "R+").shell_pid "Ss" = s2 at k1 k2 k3
                have hjobs : s2.jobs = s.jobs := k3.trans h3
                generalize hs3 : (if j.state = ST then s2.kill (-j.pid) Signal.SIGCONT else s2)
                  = s3
                have e1 : s3.jobs = s.jobs := by
                  rw [← hs3]; split <;> simpa [Shell.kill] using hjobs
                have e2 : s3.mode = Mode.run := by
                  rw [← hs3]; split <;> simpa [Shell.kill] using k1
                have e3 : Core s3 := by
                  rw [← hs3]
                  split
                  · exact core_congr rfl rfl (fun _ hq => hq) k2
                  · exact k2
                have hj3 : s3.jobs[i]? = some j := by rw [e1]; exact hj
                have c4 : Core { s3 with jobs := setState s3.jobs i FG } :=
                  core_setState e3 i FG (fun j' hj' => by
                    rw [hj3] at hj'; cases hj'; omega)
                exact (wait_tail_fg c4 (setState_self hj3 FG) hp rfl
                  (onlyFG_setState (by rw [e1]; exact hf) i FG) _).2
          · split
            · -- bg
              rcases change_proc_stat_run hm hc j.pid "R" with he | ⟨h1, h2, h3, -⟩
              · rw [seq_of_not_run _ (ended_not_run he)]
                exact shellInv_of_ended he
              · rw [seq_of_run _ h1]
                generalize hs1 : change_proc_stat s j.pid "R" = s1 at h1 h2 h3
                generalize hs2 : (if j.state ≠ BG then s1.kill (-j.pid) Signal.SIGCONT else s1)
                  = s2
                have e1 : s2.jobs = s.jobs := by
                  rw [← hs2]; split <;> simpa [Shell.kill] using h3
                have e2 : s2.mode = Mode.run := by
                  rw [← hs2]; split <;> simpa [Shell.kill] using h1
                have e3 : Core s2 := by
                  rw [← hs2]
                  split
                  · exact core_congr rfl rfl (fun _ hq => hq) h2
                  · exact h2
                have hj2 : s2.jobs[i]? = some j := by rw [e1]; exact hj
                refine shellInv_run e2 (core_setState e3 i BG (fun j' hj' => by
                    rw [hj2] at hj'; cases hj'; omega)) ?_
                exact noFG_setState (by rw [e1]; exact hf) i (by decide)
            · exact hs

/-- What `addjob` leaves alone. -/
theorem addjob_frame (s : Shell) (pid state : Int) (cmdline : List Char) :
    (addjob s pid state cmdline).2.mode = s.mode ∧
    (addjob s pid state cmdline).2.procs = s.procs ∧
    (addjob s pid state cmdline).2.shell_pid = s.shell_pid := by
  unfold addjob
  split
  · exact ⟨rfl, rfl, rfl⟩
  · split
    · cases s.verbose <;> exact ⟨rfl, rfl, rfl⟩
    · exact ⟨rfl, rfl, rfl⟩

/-- What `deletejob` leaves alone. -/
theorem deletejob_frame (s : Shell) (pid : Int) :
    (deletejob s pid).2.mode = s.mode ∧ (deletejob s pid).2.procs = s.procs ∧
    (deletejob s pid).2.shell_pid = s.shell_pid := by
  unfold deletejob
  split
  · exact ⟨rfl, rfl, rfl⟩
  · split <;> exact ⟨rfl, rfl, rfl⟩

theorem hasProc_congr {s t : Shell} (h : t.procs = s.procs) (q : Int) :
    hasProc t q = hasProc s q := by
  simp [hasProc, h]

/-- `Core` after the `addjob` and `add_proc` of `eval`, if `add_proc` returns. -/
theorem addjob_add_proc_core {s : Shell} (hm : s.mode = Mode.run) (hc : Core s)
    (pid state : Int) (cmdline name : List Char) (ppid : Int) (stat : String) :
    (add_proc (addjob s pid state cmdline).2 name pid ppid stat).mode.ended ∨
      ((add_proc (addjob s pid state cmdline).2 name pid ppid stat).mode = Mode.run ∧
        Core (add_proc (addjob s pid state cmdline).2 name pid ppid stat) ∧
        (add_proc (addjob s pid state cmdline).2 name pid ppid stat).jobs =
          (addjob s pid state cmdline).2.jobs) := by
  obtain ⟨fm, fp, -⟩ := addjob_frame s pid state cmdline
  obtain ⟨hj, hn, h | h⟩ := add_proc_spec (addjob s pid state cmdline).2 name pid ppid stat
  · right
    obtain ⟨h1, h2, h3⟩ := h
    rw [hasProc_congr fp] at h2
    refine ⟨h1.trans (fm.trans hm), ?_, hj⟩
    have hcov : ∀ j ∈ s.jobs, j.pid ≠ 0 → j.pid ≠ pid := by
      intro j hjm hne heq
      have := hc.2.2 j hjm hne
      rw [heq, h2] at this
      cases this
    have htab := tableOK_addjob hc.1 pid state cmdline
    refine ⟨⟨by rw [hn]; exact htab.1, by rw [hj]; exact htab.2⟩, ?_, ?_⟩
    · rw [hj]
      by_cases hs : (addjob s pid state cmdline).1 = 1
      · obtain ⟨hpid, i, -, hi, hjobs, -⟩ := addjob_success hs
        intro p q a b ha hb hpa hab
        rw [hjobs, getElem?_set_slot _ _ _ _ hi] at ha hb
        by_cases hpi : p = i <;> by_cases hqi : q = i
        · omega
        · simp only [hpi, if_true, hqi, if_false] at ha hb
          cases ha
          exact absurd hab.symm (hcov b (List.getElem?_mem hb) (by rw [← hab]; exact hpa))
        · simp only [hpi, if_false, hqi, if_true] at ha hb
          cases hb
          exact absurd hab (hcov a (List.getElem?_mem ha) hpa)
        · simp only [hpi, if_false, hqi] at ha hb
          exact hc.2.1 p q a b ha hb hpa hab
      · rw [(addjob_failure hs).1]; exact hc.2.1
    · rw [hj]
      intro j hjm hne
      rw [h3, hasProc_congr fp]
      by_cases hs : (addjob s pid state cmdline).1 = 1
      · obtain ⟨-, i, -, -, hjobs, -⟩ := addjob_success hs
        rw [hjobs] at hjm
        rcases List.mem_or_eq_of_mem_set hjm with hold | hnew
        · rw [hc.2.2 j hold hne]; rfl
        · subst hnew; simp
      · rw [(addjob_failure hs).1] at hjm
        rw [hc.2.2 j hjm hne]; rfl
  · left
    rw [h.1]
    trivial

/-- The `FG` slots after `addjob`. -/
theorem addjob_fg {s : Shell} (hf : NoFG s.jobs) (pid state : Int) (cmdline : List Char) :
    (state ≠ FG → NoFG (addjob s pid state cmdline).2.jobs) ∧
    ((addjob s pid state cmdline).1 ≠ 1 → NoFG (addjob s pid state cmdline).2.jobs) ∧
    ((addjob s pid state cmdline).1 = 1 → ∃ i : Nat, OnlyFG i (addjob s pid state cmdline).2.jobs ∧
      (addjob s pid state cmdline).2.jobs[i]? =
        some { pid := pid, jid := s.nextjid, state := state, cmdline := cmdline }) := by
  refine ⟨?_, ?_, ?_⟩
  · intro hst
    by_cases hs : (addjob s pid state cmdline).1 = 1
    · obtain ⟨-, i, -, -, hjobs, -⟩ := addjob_success hs
      rw [hjobs]
      intro j hjm
      rcases List.mem_or_eq_of_mem_set hjm with hold | hnew
      · exact hf j hold
      · subst hnew; exact hst
    · rw [(addjob_failure hs).1]; exact hf
  · intro hs
    rw [(addjob_failure hs).1]; exact hf
  · intro hs
    obtain ⟨-, i, -, hi, hjobs, -⟩ := addjob_success hs
    refine ⟨i, ?_, ?_⟩
    · intro k j hj hsj
      rw [hjobs, getElem?_set_slot _ _ _ _ hi] at hj
      by_contra hk
      simp only [hk, if_false] at hj
      exact hf j (List.getElem?_mem hj) hsj
    · rw [hjobs, getElem?_set_slot _ _ _ _ hi, if_pos rfl]

/-- The launch of an external command keeps the shell invariant. -/
theorem launch_inv {s : Shell} (hm : s.mode = Mode.run) (hc : Core s) (hf : NoFG s.jobs)
    (argv0 cmdline : List Char) (bg pid : Int) : ShellInv (launch s argv0 cmdline bg pid) := by
  unfold launch
  by_cases hbg : bg = 0
  · simp only [hbg, if_true]
    rcases change_proc_stat_run hm hc s.shell_pid "Ss" with he | ⟨h1, h2, h3, -⟩
    · rw [seq_of_not_run _ (ended_not_run he)]
      exact shellInv_of_ended he
    · rw [seq_of_run _ h1]
      generalize change_proc_stat s s.shell_pid "Ss" = s1 at h1 h2 h3
      have hf1 : NoFG s1.jobs := by rw [h3]; exact hf
      rcases addjob_add_proc_core h1 h2 pid FG cmdline argv0
          (addjob s1 pid FG cmdline).2.shell_pid "R+" with he | ⟨k1, k2, k3⟩
      · rw [seq_of_not_run _ (ended_not_run he)]
        exact shellInv_of_ended he
      · rw [seq_of_run _ k1]
        generalize add_proc (addjob s1 pid FG cmdline).2 argv0 pid
          (addjob s1 pid FG cmdline).2.shell_pid "R+" = s3 at k1 k2 k3
        obtain ⟨-, hfail, hsucc⟩ := addjob_fg hf1 pid FG cmdline
        by_cases hs : (addjob s1 pid FG cmdline).1 = 1
        · obtain ⟨i, ho, hi⟩ := hsucc hs
          have hpid := (addjob_success hs).1
          rw [← k3] at ho hi
          exact (wait_tail_fg k2 hi hpid rfl ho _).2
        · have := hfail hs
          rw [← k3] at this
          exact wait_tail_noFG k1 k2 this pid
  · simp only [hbg, if_false]
    rw [seq_of_run _ hm]
    rcases addjob_add_proc_core hm hc pid BG cmdline argv0
        (addjob s pid BG cmdline).2.shell_pid "R" with he | ⟨k1, k2, k3⟩
    · rw [seq_of_not_run _ (ended_not_run he)]
      exact shellInv_of_ended he
    · rw [seq_of_run _ k1]
      refine shellInv_run k1 k2 ?_
      rw [k3]
      exact (addjob_fg hf pid BG cmdline).1 (by decide)

/-- `Core` after the `deletejob` and `remove_proc` of `sigchld_handler`, if
`remove_proc` returns; no slot enters state `FG`. -/
theorem deletejob_remove_proc_core {s : Shell} (hm : s.mode = Mode.run) (hc : Core s)
    (pid : Int) :
    (remove_proc (deletejob s pid).2 pid).mode.ended ∨
      ((remove_proc (deletejob s pid).2 pid).mode = Mode.run ∧
        Core (remove_proc (deletejob s pid).2 pid) ∧
        FgShrink s.jobs (remove_proc (deletejob s pid).2 pid).jobs) := by
  obtain ⟨fm, fp, -⟩ := deletejob_frame s pid
  obtain ⟨hj, hn, h | h⟩ := remove_proc_spec (deletejob s pid).2 pid
  · right
    obtain ⟨h1, -, h3⟩ := h
    have htab := tableOK_deletejob hc.1 pid
    by_cases hs : (deletejob s pid).1 = 1
    · obtain ⟨hpid, i, hfi, hi, hjobs, -⟩ := deletejob_success hs
      obtain ⟨⟨j0, hj0, hp0⟩, -⟩ := (firstIdx_eq_some_iff _ _ _).1 hfi
      have hp0' : j0.pid = pid := by simpa using hp0
      refine ⟨h1.trans (fm.trans hm), ⟨⟨by rw [hn]; exact htab.1, by rw [hj]; exact htab.2⟩,
        ?_, ?_⟩, ?_⟩
      · rw [hj, hjobs]
        intro p q a b ha hb hpa hab
        rw [getElem?_set_slot _ _ _ _ hi] at ha hb
        by_cases hpi : p = i
        · simp only [hpi, if_true] at ha
          cases ha
          exact absurd rfl hpa
        · by_cases hqi : q = i
          · simp only [hqi, if_true] at hb
            cases hb
            exact absurd hab hpa
          · simp only [hpi, if_false, hqi] at ha hb
            exact hc.2.1 p q a b ha hb hpa hab
      · rw [hj, hjobs]
        intro j hjm hne
        obtain ⟨k, hk⟩ := List.mem_iff_getElem?.1 hjm
        rw [getElem?_set_slot _ _ _ _ hi] at hk
        by_cases hki : k = i
        · simp only [hki, if_true] at hk
          cases hk
          exact absurd rfl hne
        · simp only [hki, if_false] at hk
          rw [h3, hasProc_congr fp, hc.2.2 j (List.getElem?_mem hk) hne]
          have : j.pid ≠ pid := by
            intro heq
            exact hki (hc.2.1 k i j j0 hk hj0 hne (heq.trans hp0'.symm))
          simpa using this
      · rw [hj, hjobs]
        exact fgShrink_set_cleared _ _
    · have hsame := deletejob_failure hs
      rw [hsame] at hj hn h1 h3 htab
      rw [hsame]
      refine ⟨h1.trans hm, ⟨⟨by rw [hn]; exact htab.1, by rw [hj]; exact htab.2⟩,
        ?_, ?_⟩, ?_⟩
      · rw [hj]; exact hc.2.1
      · rw [hj]
        intro j hjm hne
        rw [h3, hc.2.2 j hjm hne]
        have : j.pid ≠ pid := by
          intro heq
          apply hs
          by_cases hk : pid < 1
          · rcases hc.1.2 j hjm with ⟨hz, -⟩ | ⟨hp, -⟩
            · exact absurd hz hne
            · omega
          · cases hfi : firstIdx (fun j => j.pid == pid) s.jobs with
            | none =>
              have := (firstIdx_eq_none_iff _ _).1 hfi j hjm
              simp [heq] at this
            | some i => rw [deletejob_of_some hk hfi]
        simpa using this
      · rw [hj]; exact fgShrink_refl _
  · left
    rw [h.1]
    trivial

/-- One reaped child in `sigchld_handler`: the handler ends the process, or it
goes on with `Core` and no new slot in state `FG`. -/
theorem sigchld_step_spec {s : Shell} (hm : s.mode = Mode.run) (hc : Core s) (pid : Int)
    (status : Status) :
    (sigchld_step s pid status).mode.ended ∨
      ((sigchld_step s pid status).mode = Mode.run ∧ Core (sigchld_step s pid status) ∧
        FgShrink s.jobs (sigchld_step s pid status).jobs) := by
  unfold sigchld_step
  cases status with
  | stopped =>
    simp only []
    cases hg : getjobpid s.jobs pid with
    | none =>
      simp only []
      rw [seq_of_not_run _ (by simp)]
      left; trivial
    | some i =>
      simp only []
      obtain ⟨hpid, j, hj, hjp⟩ := getjobpid_some hg
      have c1 : Core { s with jobs := setState s.jobs i ST } :=
        core_setState hc i ST (fun j' hj' => by rw [hj] at hj'; cases hj'; omega)
      rw [seq_of_run _ (by exact hm)]
      simp only [if_true]
      rcases change_proc_stat_run (s := { s with jobs := setState s.jobs i ST }) hm c1 pid "T"
        with he | ⟨h1, h2, h3, -⟩
      · exact Or.inl he
      · refine Or.inr ⟨h1, h2, ?_⟩
        rw [h3]
        exact fgShrink_setState _ _ (by decide)
  | signaled sig =>
    simp only []
    cases hg : getjobpid s.jobs pid with
    | none =>
      simp only []
      rw [seq_of_not_run _ (by simp)]
      left; trivial
    | some i =>
      simp only []
      have hm1 : (s.print (Msg.terminated (s.jobs.getD i clearedJob).pid sig)).mode = Mode.run := hm
      have hc1 : Core (s.print (Msg.terminated (s.jobs.getD i clearedJob).pid sig)) :=
        core_congr rfl rfl (fun _ hq => hq) hc
      rw [seq_of_run _ (by rw [(deletejob_frame _ _).1]; exact hm1)]
      simp only [reduceCtorEq, if_false]
      exact deletejob_remove_proc_core hm1 hc1 pid
  | exited =>
    simp only []
    rw [seq_of_run _ (by rw [(deletejob_frame _ _).1]; exact hm)]
    simp only [reduceCtorEq, if_false]
    exact deletejob_remove_proc_core hm hc pid

/-- The function `sigchld_handler` ends the process, or returns with `Core`
and no new slot in state `FG`. -/
theorem sigchld_handler_spec (reaped : List (Int × Status)) :
    ∀ s : Shell, s.mode = Mode.run → Core s →
      (sigchld_handler s reaped).mode.ended ∨
        ((sigchld_handler s reaped).mode = Mode.run ∧ Core (sigchld_handler s reaped) ∧
          FgShrink s.jobs (sigchld_handler s reaped).jobs) := by
  induction reaped with
  | nil => intro s hm hc; exact Or.inr ⟨hm, hc, fgShrink_refl _⟩
  | cons x rest ih =>
    intro s hm hc
    obtain ⟨pid, status⟩ := x
    unfold sigchld_handler
    by_cases hp : pid > 0
    · rw [if_pos hp]
      rcases sigchld_step_spec hm hc pid status with he | ⟨h1, h2, h3⟩
      · rw [seq_of_not_run _ (ended_not_run he)]
        exact Or.inl he
      · rw [seq_of_run _ h1]
        rcases ih _ h1 h2 with he | ⟨k1, k2, k3⟩
        · exact Or.inl he
        · exact Or.inr ⟨k1, k2, fgShrink_trans h3 k3⟩
    · rw [if_neg hp]
      exact Or.inr ⟨hm, hc, fgShrink_refl _⟩

/-- Every handler ends the process, or returns with `Core` and no new slot in
state `FG`. -/
theorem handler_spec {s : Shell} (hm : s.mode = Mode.run) (hc : Core s) (n : Notification) :
    (handler s n).mode.ended ∨
      ((handler s n).mode = Mode.run ∧ Core (handler s n) ∧ FgShrink s.jobs (handler s n).jobs) := by
  cases n with
  | sigchld reaped => exact sigchld_handler_spec reaped s hm hc
  | sigint =>
    right
    unfold handler sigint_handler
    simp only []
    split
    · exact ⟨hm, core_congr rfl rfl (fun _ hq => hq) hc, fgShrink_refl _⟩
    · exact ⟨hm, hc, fgShrink_refl _⟩
  | sigtstp =>
    right
    unfold handler sigtstp_handler
    simp only []
    split
    · exact ⟨hm, core_congr rfl rfl (fun _ hq => hq) hc, fgShrink_refl _⟩
    · exact ⟨hm, hc, fgShrink_refl _⟩
  | sigquit => left; trivial

theorem remove_proc_mode (s : Shell) (pid : Int) :
    (remove_proc s pid).mode = s.mode ∨ (remove_proc s pid).mode.ended := by
  obtain ⟨-, -, h | h⟩ := remove_proc_spec s pid
  · exact Or.inl h.1
  · right; rw [h.1]; trivial

theorem quitFinish_loop_mode (l : List job_t) :
    ∀ s : Shell, (s.mode = Mode.run ∨ s.mode.ended) →
      (l.foldl (fun acc j => acc.seq fun a => remove_proc a j.pid) s).mode = Mode.run ∨
        (l.foldl (fun acc j => acc.seq fun a => remove_proc a j.pid) s).mode.ended := by
  induction l with
  | nil => intro s h; exact h
  | cons j l ih =>
    intro s h
    simp only [List.foldl_cons]
    apply ih
    rcases h with h | h
    · rw [seq_of_run _ h]
      rcases remove_proc_mode s j.pid with h1 | h1
      · exact Or.inl (h1.trans h)
      · exact Or.inr h1
    · rw [seq_of_not_run _ (ended_not_run h)]
      exact Or.inr h

/-- The end of `do_quit` ends the process. -/
theorem quitFinish_ended {s : Shell} (hm : s.mode = Mode.run) : (quitFinish s).mode.ended := by
  unfold quitFinish
  simp only []
  rcases quitFinish_loop_mode (s.jobs.filter (fun j => j.state == ST)) s (Or.inl hm) with h | h
  · rw [seq_of_run _ h]
    rcases remove_proc_mode (List.foldl (fun acc j => acc.seq fun a => remove_proc a j.pid) s
      (s.jobs.filter (fun j => j.state == ST)))
      (List.foldl (fun acc j => acc.seq fun a => remove_proc a j.pid) s
      (s.jobs.filter (fun j => j.state == ST))).shell_pid with h1 | h1
    · rw [seq_of_run _ (h1.trans h)]
      trivial
    · rw [seq_of_not_run _ (ended_not_run h1)]
      exact h1
  · rw [seq_of_not_run _ (ended_not_run h), seq_of_not_run _ (ended_not_run h)]
    exact h

/-- The drain loop of `do_quit` keeps the shell invariant. -/
theorem quitWait_inv {s : Shell} (hm : s.mode = Mode.run) (hc : Core s) (hf : NoFG s.jobs) :
    ShellInv (quitWait s) := by
  unfold quitWait
  split
  · unfold ShellInv
    exact ⟨core_congr rfl rfl (fun _ hq => hq) hc, hf⟩
  · exact shellInv_of_ended (quitFinish_ended hm)

/-- The function `do_quit` keeps the shell invariant. -/
theorem do_quit_inv {s : Shell} (hm : s.mode = Mode.run) (hc : Core s) (hf : NoFG s.jobs) :
    ShellInv (do_quit s) := by
  unfold do_quit
  exact quitWait_inv (by exact hm) (core_congr rfl rfl (fun _ hq => hq) hc) hf

/-- The function `add_user` keeps the shell invariant. -/
theorem add_user_inv {s : Shell} (hs : ShellInv s) (argv : List (List Char)) :
    ShellInv (add_user s argv) := by
  unfold add_user
  split
  · exact shellInv_print hs _
  · split
    · split
      · exact shellInv_print hs _
      · simp only []
        split
        · exact shellInv_of_ended (by trivial)
        · exact shellInv_congr rfl rfl rfl (fun _ hq => hq) hs
    · exact shellInv_print hs _
    · exact shellInv_print hs _

/-- The function `nth_cmd` keeps the shell invariant if the call of `eval` in
it does. -/
theorem nth_cmd_inv {ev : Shell → List Char → Shell}
    (hev : ∀ (t : Shell) (l : List Char), t.mode = Mode.run → Core t → NoFG t.jobs →
      ShellInv (ev t l))
    {s : Shell} (hm : s.mode = Mode.run) (hc : Core s) (hf : NoFG s.jobs)
    (argv : List (List Char)) : ShellInv (nth_cmd ev s argv) := by
  have hs : ShellInv s := shellInv_run hm hc hf
  unfold nth_cmd
  simp only []
  split
  · exact shellInv_print hs _
  · split
    · exact shellInv_of_ended (by trivial)
    · split
      · exact shellInv_print hs _
      · exact hev s _ hm hc hf

/-- The function `builtin_cmd` keeps the shell invariant if the call of `eval`
in it does; when it returns 0 it has changed nothing. -/
theorem builtin_cmd_inv {ev : Shell → List Char → Shell}
    (hev : ∀ (t : Shell) (l : List Char), t.mode = Mode.run → Core t → NoFG t.jobs →
      ShellInv (ev t l))
    {s : Shell} (hm : s.mode = Mode.run) (hc : Core s) (hf : NoFG s.jobs)
    (argv : List (List Char)) :
    ShellInv (builtin_cmd ev s argv).2 ∧
      ((builtin_cmd ev s argv).1 = 0 → (builtin_cmd ev s argv).2 = s) := by
  have hs : ShellInv s := shellInv_run hm hc hf
  unfold builtin_cmd
  simp only []
  split
  · exact ⟨do_bgfg_inv hm hc hf argv, fun h => absurd h one_ne_zero_int⟩
  · split
    · refine ⟨?_, fun h => absurd h one_ne_zero_int⟩
      split
      · exact shellInv_congr rfl rfl rfl (fun _ hq => hq) hs
      · exact shellInv_print hs _
    · split
      · exact ⟨add_user_inv hs argv, fun h => absurd h one_ne_zero_int⟩
      · split
        · refine ⟨?_, fun h => absurd h one_ne_zero_int⟩
          split
          · exact shellInv_congr rfl rfl rfl (fun _ hq => hq) hs
          · exact shellInv_congr rfl rfl rfl (fun _ hq => hq) hs
        · split
          · exact ⟨nth_cmd_inv hev hm hc hf argv, fun h => absurd h one_ne_zero_int⟩
          · split
            · refine ⟨?_, fun h => absurd h one_ne_zero_int⟩
              split
              · exact shellInv_print hs _
              · exact do_quit_inv hm hc hf
            · split
              · exact ⟨do_quit_inv hm hc hf, fun h => absurd h one_ne_zero_int⟩
              · exact ⟨hs, fun _ => rfl⟩

/-- The function `eval` keeps the shell invariant. -/
theorem evalFuel_inv (fuel : Nat) :
    ∀ (s : Shell) (cmdline : List Char) (forkpid : Int), s.mode = Mode.run → Core s →
      NoFG s.jobs → ShellInv (evalFuel fuel s cmdline forkpid) := by
  induction fuel with
  | zero =>
    intro s cmdline forkpid _ _ _
    exact shellInv_of_ended (by trivial)
  | succ fuel ih =>
    intro s cmdline forkpid hm hc hf
    unfold evalFuel
    split
    · exact shellInv_of_ended trivial
    · exact shellInv_run hm hc hf
    · rename_i arg0 args bg _
      simp only []
      have h1 : (if arg0.head? ≠ some '!' then add_history s cmdline else s).mode = Mode.run := by
        split <;> exact hm
      have h2 : Core (if arg0.head? ≠ some '!' then add_history s cmdline else s) := by
        split
        · exact core_congr rfl rfl (fun _ hq => hq) hc
        · exact hc
      have h3 : NoFG (if arg0.head? ≠ some '!' then add_history s cmdline else s).jobs := by
        split <;> exact hf
      generalize (if arg0.head? ≠ some '!' then add_history s cmdline else s) = s1 at h1 h2 h3 ⊢
      obtain ⟨k1, k2⟩ := @builtin_cmd_inv (fun s' l => evalFuel fuel s' l forkpid)
        (fun t l tm tc tf => ih t l forkpid tm tc tf) s1 h1 h2 h3 (arg0 :: args)
      by_cases hr : (builtin_cmd (fun s' l => evalFuel fuel s' l forkpid) s1 (arg0 :: args)).1 = 0
      · rw [if_pos hr, k2 hr]
        exact launch_inv h1 h2 h3 _ _ _ _
      · rw [if_neg hr]
        exact k1

/-- One signal delivery keeps the shell invariant. -/
theorem deliver_inv {s : Shell} (hs : ShellInv s) (n : Notification) : ShellInv (deliver s n) := by
  unfold deliver
  unfold ShellInv at hs
  split
  · rename_i hm
    rw [hm] at hs
    rcases handler_spec hm hs.1 n with he | ⟨h1, h2, h3⟩
    · exact shellInv_of_ended he
    · exact shellInv_run h1 h2 (noFG_of_fgShrink h3 hs.2)
  · rename_i i hm
    rw [hm] at hs
    have hc : Core { s with mode := Mode.run } := core_congr rfl rfl (fun _ hq => hq) hs.1
    rcases handler_spec (s := { s with mode := Mode.run }) rfl hc n with he | ⟨h1, h2, h3⟩
    · rw [seq_of_not_run _ (ended_not_run he)]
      exact shellInv_of_ended he
    · rw [seq_of_run _ h1]
      have ho : OnlyFG i (handler { s with mode := Mode.run } n).jobs :=
        onlyFG_of_fgShrink h3 hs.2
      split
      · unfold ShellInv
        exact ⟨core_congr rfl rfl (fun _ hq => hq) h2, ho⟩
      · rename_i hnot
        have hno : NoFG (handler { s with mode := Mode.run } n).jobs := by
          intro j hj hsj
          obtain ⟨k, hk⟩ := List.mem_iff_getElem?.1 hj
          have hki := ho k j hk hsj
          subst hki
          rw [getD_of_getElem? hk] at hnot
          exact hnot hsj
        rcases change_proc_stat_run h1 h2 (handler { s with mode := Mode.run } n).shell_pid "Rs+"
          with he | ⟨k1, k2, k3, -⟩
        · exact shellInv_of_ended he
        · exact shellInv_run k1 k2 (by rw [k3]; exact hno)
  · rename_i hm
    rw [hm] at hs
    have hc : Core { s with mode := Mode.run } := core_congr rfl rfl (fun _ hq => hq) hs.1
    rcases handler_spec (s := { s with mode := Mode.run }) rfl hc n with he | ⟨h1, h2, h3⟩
    · rw [seq_of_not_run _ (ended_not_run he)]
      exact shellInv_of_ended he
    · rw [seq_of_run _ h1]
      exact quitWait_inv h1 h2 (noFG_of_fgShrink h3 hs.2)
  · rename_i c hm
    exact shellInv_of_ended (by rw [hm]; trivial)
  · rename_i hm
    exact shellInv_of_ended (by rw [hm]; trivial)

/-- The shell invariant holds in every state the shell passes through. -/
theorem reachable_inv {s0 s : Shell} (h0 : ShellInv s0) (h : Reachable s0 s) : ShellInv s := by
  induction h with
  | start => exact h0
  | command fuel cmdline forkpid _ hm ih =>
    unfold ShellInv at ih
    rw [hm] at ih
    exact evalFuel_inv fuel _ cmdline forkpid hm ih.1 ih.2
  | notify n _ ih => exact deliver_inv ih n

/-- The shell invariant holds when `main` enters its loop. -/
theorem startShell_inv (verbose : Bool) (shell_pid ppid : Int) (username : List Char)
    (procs : List ProcRec) (passwd : List (List Char × List Char))
    (homes histfile : List (List Char)) :
    ShellInv (startShell verbose shell_pid ppid username procs passwd homes histfile) := by
  unfold startShell
  generalize hs0 : bootShell verbose shell_pid username procs passwd homes histfile = s0
  have hj : s0.jobs = initjobs := by rw [← hs0]; rfl
  have hn : s0.nextjid = 1 := by rw [← hs0]; rfl
  have hm : s0.mode = Mode.run := by rw [← hs0]; rfl
  have hz : ∀ j ∈ s0.jobs, j.pid = 0 := by
    rw [hj]
    intro j hjm
    have := List.eq_of_mem_replicate hjm
    subst this
    rfl
  have hc : Core s0 := by
    refine ⟨⟨by rw [hn], by rw [hj]; exact tableOK_initjobs⟩, ?_, ?_⟩
    · intro i k a b ha _ hpa
      exact absurd (hz a (List.getElem?_mem ha)) hpa
    · intro j hjm hne
      exact absurd (hz j hjm) hne
  have hf : NoFG s0.jobs := by
    rw [hj]
    intro j hjm
    have := List.eq_of_mem_replicate hjm
    subst this
    decide
  obtain ⟨aj, an, h | h⟩ := add_proc_spec s0 "tsh".toList shell_pid ppid "Rs+"
  · obtain ⟨a1, -, a3⟩ := h
    rw [seq_of_run _ (a1.trans hm)]
    unfold init_history
    split
    · exact shellInv_of_ended (by trivial)
    · refine shellInv_run (a1.trans hm) ?_ (by rw [show _ = s0.jobs from aj]; exact hf)
      exact core_congr aj an (fun q hq => (a3 q).trans (by rw [hq]; rfl)) hc
  · have he : (add_proc s0 "tsh".toList shell_pid ppid "Rs+").mode.ended := by
      rw [h.1]; trivial
    rw [seq_of_not_run _ (ended_not_run he)]
    exact shellInv_of_ended he

/-- Claim C3. Start the shell in any environment and let it take any sequence
of command lines (each evaluated when `main` is reading, with any `fork`
result, `fg`/`bg`/`!n`/external launches and the other built-ins included) and
signals, each run to its end or to its next `sigsuspend`.  In every state so
reached where `main` is about to read a command or a handler can run (at the
prompt, suspended in `waitfg`, suspended in `do_quit`), at most one slot of
the job table is in state `FG`; at the prompt none is. -/
theorem shell_at_most_one_fg (verbose : Bool) (shell_pid ppid : Int) (username : List Char)
    (procs : List ProcRec) (passwd : List (List Char × List Char))
    (homes histfile : List (List Char)) (s : Shell)
    (h : Reachable (startShell verbose shell_pid ppid username procs passwd homes histfile) s)
    (hm : s.mode = Mode.run ∨ (∃ i, s.mode = Mode.inWaitfg i) ∨ s.mode = Mode.inQuit) :
    AtMostOneFG s.jobs ∧ (s.mode = Mode.run → NoFG s.jobs) := by
  have hinv := reachable_inv (startShell_inv verbose shell_pid ppid username procs passwd homes
    histfile) h
  unfold ShellInv at hinv
  rcases hm with hm | ⟨i, hm⟩ | hm
  · rw [hm] at hinv
    exact ⟨atMostOneFG_of_onlyFG (onlyFG_of_noFG 0 hinv.2), fun _ => hinv.2⟩
  · rw [hm] at hinv
    exact ⟨atMostOneFG_of_onlyFG hinv.2, fun h => by rw [hm] at h; cases h⟩
  · rw [hm] at hinv
    exact ⟨atMostOneFG_of_onlyFG (onlyFG_of_noFG 0 hinv.2), fun h => by rw [hm] at h; cases h⟩

theorem shell_at_most_one_fg_witness :
    Reachable (startShell false 100 1 "root".toList [] [] [] [])
      (evalFuel 11 (startShell false 100 1 "root".toList [] [] [] []) "/bin/ls\n".toList 200) ∧
    (evalFuel 11 (startShell false 100 1 "root".toList [] [] [] []) "/bin/ls\n".toList 200).mode
      = Mode.inWaitfg 0 ∧
    AtMostOneFG
      (evalFuel 11 (startShell false 100 1 "root".toList [] [] [] []) "/bin/ls\n".toList 200).jobs :=
  ⟨Reachable.command 11 _ 200 Reachable.start (by decide), by decide,
    (shell_at_most_one_fg false 100 1 "root".toList [] [] [] [] _
      (Reachable.command 11 _ 200 Reachable.start (by decide))
      (Or.inr (Or.inl ⟨0, by decide⟩))).1⟩

theorem change_proc_stat_of_hasProc {s : Shell} {pid : Int} (h : hasProc s pid = true)
    (stat : String) :
    (change_proc_stat s pid stat).jobs = s.jobs ∧
    (change_proc_stat s pid stat).kills = s.kills ∧
    (change_proc_stat s pid stat).mode = s.mode ∧
    (change_proc_stat s pid stat).shell_pid = s.shell_pid ∧
    (change_proc_stat s pid stat).nextjid = s.nextjid ∧
    (change_proc_stat s pid stat).out = s.out := by
  unfold change_proc_stat
  rw [if_pos h]
  exact ⟨rfl, rfl, rfl, rfl, rfl, rfl⟩

/-- The modes a handler can leave: it returns, or the process has ended. -/
theorem sigchld_step_mode {s : Shell} (hm : s.mode = Mode.run) (pid : Int) (status : Status) :
    (sigchld_step s pid status).mode = Mode.run ∨ (sigchld_step s pid status).mode.ended := by
  have cps : ∀ (t : Shell) (q : Int) (st : String), t.mode = Mode.run →
      (change_proc_stat t q st).mode = Mode.run ∨ (change_proc_stat t q st).mode.ended := by
    intro t q st ht
    obtain ⟨-, -, h | h⟩ := change_proc_stat_spec t q st
    · exact Or.inl (h.1.trans ht)
    · right; rw [h.1]; trivial
  have rp : ∀ (t : Shell) (q : Int), t.mode = Mode.run →
      (remove_proc t q).mode = Mode.run ∨ (remove_proc t q).mode.ended := by
    intro t q ht
    rcases remove_proc_mode t q with h | h
    · exact Or.inl (h.trans ht)
    · exact Or.inr h
  unfold sigchld_step
  cases status with
  | stopped =>
    simp only []
    cases getjobpid s.jobs pid with
    | none =>
      simp only []
      rw [seq_of_not_run _ (by simp)]
      right; trivial
    | some i =>
      simp only []
      rw [seq_of_run _ (by exact hm)]
      simp only [if_true]
      exact cps _ _ _ hm
  | signaled sig =>
    simp only []
    cases getjobpid s.jobs pid with
    | none =>
      simp only []
      rw [seq_of_not_run _ (by simp)]
      right; trivial
    | some i =>
      simp only []
      have hm1 : (deletejob (s.print (Msg.terminated (s.jobs.getD i clearedJob).pid sig))
          pid).2.mode = Mode.run := by
        rw [(deletejob_frame _ _).1]; exact hm
      rw [seq_of_run _ hm1]
      simp only [reduceCtorEq, if_false]
      exact rp _ _ hm1
  | exited =>
    simp only []
    have hm1 : (deletejob s pid).2.mode = Mode.run := by
      rw [(deletejob_frame _ _).1]; exact hm
    rw [seq_of_run _ hm1]
    simp only [reduceCtorEq, if_false]
    exact rp _ _ hm1

theorem sigchld_handler_mode (reaped : List (Int × Status)) :
    ∀ s : Shell, s.mode = Mode.run →
      (sigchld_handler s reaped).mode = Mode.run ∨ (sigchld_handler s reaped).mode.ended := by
  induction reaped with
  | nil => intro s hm; exact Or.inl hm
  | cons x rest ih =>
    intro s hm
    obtain ⟨pid, status⟩ := x
    unfold sigchld_handler
    by_cases hp : pid > 0
    · rw [if_pos hp]
      rcases sigchld_step_mode hm pid status with h1 | he
      · rw [seq_of_run _ h1]
        exact ih _ h1
      · rw [seq_of_not_run _ (ended_not_run he)]
        exact Or.inr he
    · rw [if_neg hp]
      exact Or.inl hm

theorem handler_mode {s : Shell} (hm : s.mode = Mode.run) (n : Notification) :
    (handler s n).mode = Mode.run ∨ (handler s n).mode.ended := by
  cases n with
  | sigchld reaped => exact sigchld_handler_mode reaped s hm
  | sigint =>
    left
    unfold handler sigint_handler
    simp only []
    split <;> exact hm
  | sigtstp =>
    left
    unfold handler sigtstp_handler
    simp only []
    split <;> exact hm
  | sigquit => right; trivial

/-- In `waitfg`, a signal leaves the shell suspended exactly when its handler
returns and the awaited slot is still in state `FG`. -/
theorem deliver_inWaitfg {u : Shell} {i : Nat} (hu : u.mode = Mode.inWaitfg i)
    (n : Notification) :
    (deliver u n).mode = Mode.inWaitfg i ↔
      ((handler { u with mode := Mode.run } n).mode = Mode.run ∧
        ((handler { u with mode := Mode.run } n).jobs.getD i clearedJob).state = FG) := by
  unfold deliver
  rw [hu]
  simp only []
  rcases handler_mode (s := { u with mode := Mode.run }) rfl n with h | h
  · rw [seq_of_run _ h]
    by_cases hfg : ((handler { u with mode := Mode.run } n).jobs.getD i clearedJob).state = FG
    · rw [if_pos hfg]
      exact ⟨fun _ => ⟨h, hfg⟩, fun _ => rfl⟩
    · rw [if_neg hfg]
      constructor
      · intro hw
        obtain ⟨-, -, hc | hc⟩ := change_proc_stat_spec (handler { u with mode := Mode.run } n)
          (handler { u with mode := Mode.run } n).shell_pid "Rs+"
        · rw [hc.1, h] at hw; cases hw
        · rw [hc.1] at hw; cases hw
      · intro hw
        exact absurd hw.2 hfg
  · rw [seq_of_not_run _ (ended_not_run h)]
    constructor
    · intro hw
      rw [hw] at h
      exact absurd h (by simp [Mode.ended])
    · intro hw
      exact absurd hw.1 (ended_not_run h)

/-- The command `fg` on a resolved job when no signal arrives while `do_bgfg`
executes.  In a reachable state at the prompt in which the shell's own
`./proc` record exists, let the target of `fg <target>` resolve to slot `i`
holding job `j`, stopped or in the background.  Then `do_bgfg` makes exactly
one `kill(-j.pid, SIGCONT)` if `j` was stopped and no `kill` if it was in the
background; slot `i` holds `j` with state `FG` and the same pid, job id and
command line; every other slot and `nextjid` are as before; and the shell is
suspended in `waitfg` on slot `i`.  From a state suspended there, a signal
leaves the shell suspended exactly when its handler returns with slot `i`
still in state `FG`; no command is read meanwhile (`Reachable.command` needs
`Mode.run`). -/
theorem fg_quiet (verbose : Bool) (shell_pid ppid : Int) (username : List Char)
    (procs : List ProcRec) (passwd : List (List Char × List Char))
    (homes histfile : List (List Char)) (s : Shell)
    (hr : Reachable (startShell verbose shell_pid ppid username procs passwd homes histfile) s)
    (hm : s.mode = Mode.run) (hshell : hasProc s s.shell_pid = true)
    (target : List Char) (i : Nat) (j : job_t)
    (hres : pidjid_str2job s.jobs target = some (some i)) (hj : s.jobs[i]? = some j)
    (hst : j.state = ST ∨ j.state = BG) :
    (do_bgfg s ["fg".toList, target] noSignals).kills =
      s.kills ++ (if j.state = ST then [(-j.pid, Signal.SIGCONT)] else []) ∧
    (do_bgfg s ["fg".toList, target] noSignals).jobs.length = s.jobs.length ∧
    (do_bgfg s ["fg".toList, target] noSignals).jobs[i]? =
      some { pid := j.pid, jid := j.jid, state := FG, cmdline := j.cmdline } ∧
    (∀ k, k ≠ i → (do_bgfg s ["fg".toList, target] noSignals).jobs[k]? = s.jobs[k]?) ∧
    (do_bgfg s ["fg".toList, target] noSignals).nextjid = s.nextjid ∧
    (do_bgfg s ["fg".toList, target] noSignals).mode = Mode.inWaitfg i ∧
    (∀ (u : Shell) (n : Notification), u.mode = Mode.inWaitfg i →
      ((deliver u n).mode = Mode.inWaitfg i ↔
        ((handler { u with mode := Mode.run } n).mode = Mode.run ∧
          ((handler { u with mode := Mode.run } n).jobs.getD i clearedJob).state = FG))) := by
  have hinv := reachable_inv (startShell_inv verbose shell_pid ppid username procs passwd homes
    histfile) hr
  unfold ShellInv at hinv
  rw [hm] at hinv
  obtain ⟨hc, hf⟩ := hinv
  obtain ⟨j0, hj0, hp⟩ := pidjid_str2job_some hc.1.2 hres
  rw [hj] at hj0
  cases hj0
  have hproc : hasProc s j.pid = true := hc.2.2 j (List.getElem?_mem hj) (by omega)
  have hd : s.jobs.getD i clearedJob = j := getD_of_getElem? hj _
  have hundef : ¬ j.state = UNDEF := by
    rcases hst with h | h <;> rw [h] <;> decide
  -- the two record updates
  obtain ⟨a1, a2, a3, a4, a5, -⟩ := change_proc_stat_of_hasProc hproc "R+"
  have hshell1 : hasProc (change_proc_stat s j.pid "R+")
      (change_proc_stat s j.pid "R+").shell_pid = true := by
    obtain ⟨-, -, h | h⟩ := change_proc_stat_spec s j.pid "R+"
    · rw [h.2.2, a4]; exact hshell
    · rw [h.2] at hproc; cases hproc
  have hc1 : Core (change_proc_stat s j.pid "R+") := by
    rcases change_proc_stat_run hm hc j.pid "R+" with he | h
    · rw [a3, hm] at he; exact absurd he (by simp [Mode.ended])
    · exact h.2.1
  obtain ⟨b1, b2, b3, b4, b5, -⟩ := change_proc_stat_of_hasProc hshell1 "Ss"
  have hc2 : Core (change_proc_stat (change_proc_stat s j.pid "R+")
      (change_proc_stat s j.pid "R+").shell_pid "Ss") := by
    rcases change_proc_stat_run (a3.trans hm) hc1 (change_proc_stat s j.pid "R+").shell_pid "Ss"
      with he | h
    · rw [b3, a3, hm] at he; exact absurd he (by simp [Mode.ended])
    · exact h.2.1
  generalize hs2 : change_proc_stat (change_proc_stat s j.pid "R+")
      (change_proc_stat s j.pid "R+").shell_pid "Ss" = s2 at b1 b2 b3 b4 b5 hc2
  have m1 : (change_proc_stat s j.pid "R+").mode = Mode.run := a3.trans hm
  have m2 : s2.mode = Mode.run := b3.trans m1
  -- unfold the function along the branch taken
  have hfun : do_bgfg s ["fg".toList, target] noSignals =
      { (if j.state = ST then s2.kill (-j.pid) Signal.SIGCONT else s2) with
        jobs := setState (if j.state = ST then s2.kill (-j.pid) Signal.SIGCONT else s2).jobs i FG,
        mode := Mode.inWaitfg i } := by
    rw [do_bgfg_quiet]
    unfold do_bgfgQuiet
    simp only [ne_eq, not_true_eq_false, if_false, hres, hd, hundef, if_true]
    rw [seq_of_run _ m1, seq_of_run _ (by rw [hs2]; exact m2), hs2]
    generalize hs3 : (if j.state = ST then s2.kill (-j.pid) Signal.SIGCONT else s2) = s3
    have e1 : s3.jobs = s.jobs := by
      rw [← hs3]; split <;> simpa [Shell.kill] using b1.trans a1
    have e3 : Core s3 := by
      rw [← hs3]
      split
      · exact core_congr rfl rfl (fun _ hq => hq) hc2
      · exact hc2
    have hj3 : s3.jobs[i]? = some j := by rw [e1]; exact hj
    have c4 : Core { s3 with jobs := setState s3.jobs i FG } :=
      core_setState e3 i FG (fun j' hj' => by rw [hj3] at hj'; cases hj'; omega)
    exact (wait_tail_fg c4 (setState_self hj3 FG) hp rfl
      (onlyFG_setState (by rw [e1]; exact hf) i FG) _).1
  have hjobs2 : (if j.state = ST then s2.kill (-j.pid) Signal.SIGCONT else s2).jobs = s.jobs := by
    split <;> simpa [Shell.kill] using b1.trans a1
  rw [hfun]
  refine ⟨?_, ?_, ?_, ?_, ?_, rfl, fun u n hu => deliver_inWaitfg hu n⟩
  · show (if j.state = ST then s2.kill (-j.pid) Signal.SIGCONT else s2).kills = _
    split
    · simp [Shell.kill, b2, a2]
    · simp [b2, a2]
  · show (setState _ i FG).length = _
    rw [setState_length, hjobs2]
  · show (setState _ i FG)[i]? = _
    rw [hjobs2, setState_self hj FG]
  · intro k hk
    show (setState _ i FG)[k]? = _
    rw [hjobs2, setState_getElem?, if_neg hk]
  · show (if j.state = ST then s2.kill (-j.pid) Signal.SIGCONT else s2).nextjid = _
    split <;> simpa [Shell.kill] using b5.trans a5


/-! ## The theorems at concrete inputs -/

/-- Claim C4 at a full table: `addjob` with pid 17 is rejected with the
diagnostic. -/
theorem addjob_rejected_witness :
    (0 : Int) < 17 ∧ (∀ j ∈ fullTable.jobs, j.pid ≠ 0) ∧
    (addjob fullTable 17 BG []).1 = 0 ∧
    (addjob fullTable 17 BG []).2.out = fullTable.out ++ [Msg.tooManyJobs] :=
  ⟨by decide, by decide, (addjob_rejected fullTable 17 BG []).2.2.1 (by decide) (by decide)⟩

/-- Claim C7 at a full table: `deletejob` of pid 3 clears slot 2 only. -/
theorem deletejob_spec_witness :
    (deletejob fullTable 3).1 = 1 ∧
    ∃ i : Nat, (∃ j, fullTable.jobs[i]? = some j ∧ j.pid = 3) ∧
      (∀ k, k < i → ∀ j, fullTable.jobs[k]? = some j → j.pid ≠ 3) ∧
      (deletejob fullTable 3).2.jobs.length = fullTable.jobs.length ∧
      (deletejob fullTable 3).2.jobs[i]? =
        some { pid := 0, jid := 0, state := UNDEF, cmdline := [] } ∧
      ∀ k, k ≠ i → (deletejob fullTable 3).2.jobs[k]? = fullTable.jobs[k]? :=
  ⟨by decide, (deletejob_spec fullTable 3).2.2.1 (by decide)⟩

/-- Claim C8 at a full table: job id 5 is found in slot 4, which is occupied. -/
theorem getjob_lookup_witness :
    (∀ e ∈ fullTable.jobs, e.pid = 0 → e.jid = 0) ∧ getjobjid fullTable.jobs 5 = some 4 ∧
    ∀ j, fullTable.jobs[4]? = some j → j.pid ≠ 0 :=
  ⟨by decide, by decide,
    fun j hj => ((getjob_lookup fullTable.jobs 5).2.2.2.2.2 4 j (by decide) hj).2 (by decide)⟩

/-- Claim C9 at a full table, for the job in slot 2. -/
theorem live_slot_wf_witness :
    ({ pid := 3, jid := 3, state := BG, cmdline := [] } : job_t) ∈
      (runOps (initTable false) (addsFrom 1 16)).jobs ∧
    ((BG ≠ UNDEF → (0 : Int) < 3 ∧ (1 : Int) ≤ 3) ∧ ((3 : Int) = 0 → (3 : Int) = 0 ∧ BG = UNDEF)) :=
  ⟨by decide, live_slot_wf false (addsFrom 1 16)
    { pid := 3, jid := 3, state := BG, cmdline := [] } (by decide)⟩

/-- Claim C5 after three adds and the removal of pid 102: `nextjid` is 4, one
more than the job id of pid 103. -/
theorem deletejob_recomputes_nextjid_witness :
    (deletejob (runOps (initTable false)
      [TableOp.add 101 BG [], TableOp.add 102 BG [], TableOp.add 103 BG []]) 102).1 = 1 ∧
    (deletejob (runOps (initTable false)
      [TableOp.add 101 BG [], TableOp.add 102 BG [], TableOp.add 103 BG []]) 102).2.nextjid = 4 ∧
    ∀ j ∈ (deletejob (runOps (initTable false)
      [TableOp.add 101 BG [], TableOp.add 102 BG [], TableOp.add 103 BG []]) 102).2.jobs,
      j.pid ≠ 0 → j.jid < (deletejob (runOps (initTable false)
        [TableOp.add 101 BG [], TableOp.add 102 BG [], TableOp.add 103 BG []]) 102).2.nextjid :=
  ⟨by decide, by decide,
    ((deletejob_recomputes_nextjid false
      [TableOp.add 101 BG [], TableOp.add 102 BG [], TableOp.add 103 BG []] 102).1
      (by decide)).1⟩

/-- The function `builtin_cmd` returns 0 and changes nothing on a first word
that is not a built-in. -/
theorem builtin_cmd_of_not_builtin (ev : Shell → List Char → Shell) (s : Shell)
    {arg0 : List Char} (args : List (List Char)) (h : isBuiltin arg0 = false) :
    builtin_cmd ev s (arg0 :: args) = (0, s) := by
  simp only [isBuiltin, Bool.or_eq_false_iff, beq_eq_false_iff_ne, ne_eq] at h
  obtain ⟨⟨⟨⟨⟨⟨⟨h1, h2⟩, h3⟩, h4⟩, h5⟩, h6⟩, h7⟩, h8⟩ := h
  unfold builtin_cmd
  simp only [List.headD_cons, h1, h2, h3, h4, h5, h6, h7, h8, or_self, if_false]

/-- The function `eval` on a line with a first word, one step unfolded. -/
theorem evalFuel_succ (fuel : Nat) (s : Shell) (cmdline : List Char) (forkpid : Int)
    {arg0 : List Char} {args : List (List Char)} {bg : Int}
    (hp : parseline cmdline = some (arg0 :: args, bg)) :
    evalFuel (fuel + 1) s cmdline forkpid =
      if (builtin_cmd (fun s' l => evalFuel fuel s' l forkpid)
          (if arg0.head? ≠ some '!' then add_history s cmdline else s) (arg0 :: args)).1 = 0 then
        launch (builtin_cmd (fun s' l => evalFuel fuel s' l forkpid)
          (if arg0.head? ≠ some '!' then add_history s cmdline else s) (arg0 :: args)).2
          arg0 cmdline bg forkpid
      else (builtin_cmd (fun s' l => evalFuel fuel s' l forkpid)
          (if arg0.head? ≠ some '!' then add_history s cmdline else s) (arg0 :: args)).2 := by
  rw [evalFuel, hp]

/-- A `bg` or `fg` line: `eval` records it in the history and calls `do_bgfg`. -/
theorem evalFuel_bgfg (fuel : Nat) (s : Shell) (cmdline : List Char) (forkpid : Int)
    {arg0 : List Char} {args : List (List Char)} {bg : Int}
    (hp : parseline cmdline = some (arg0 :: args, bg))
    (h0 : arg0 = "bg".toList ∨ arg0 = "fg".toList) :
    evalFuel (fuel + 1) s cmdline forkpid =
      do_bgfg (add_history s cmdline) (arg0 :: args) noSignals := by
  have hbang : arg0.head? ≠ some '!' := by
    rcases h0 with h | h <;> rw [h] <;> decide
  have hb : ∀ t : Shell, builtin_cmd (fun s' l => evalFuel fuel s' l forkpid) t (arg0 :: args) =
      (1, do_bgfg t (arg0 :: args) noSignals) := by
    intro t
    unfold builtin_cmd
    simp only [List.headD_cons]
    rw [if_pos h0]
  rw [evalFuel_succ fuel s cmdline forkpid hp, hb, if_pos hbang, if_neg one_ne_zero_int]

/-- The function `builtin_cmd` on `logout`. -/
theorem builtin_cmd_logout (ev : Shell → List Char → Shell) (s : Shell)
    (args : List (List Char)) :
    builtin_cmd ev s ("logout".toList :: args) =
      (1, if check_suspend s.jobs ≠ 0 then s.print Msg.suspendedJobs else do_quit s) := by
  have e1 : ¬ ("logout".toList = "bg".toList ∨ "logout".toList = "fg".toList) := by decide
  have e2 : ¬ ("logout".toList = "jobs".toList) := by decide
  have e3 : ¬ ("logout".toList = "adduser".toList) := by decide
  have e4 : ¬ ("logout".toList = "history".toList) := by decide
  have e5 : ¬ ("logout".toList.head? = some '!') := by decide
  unfold builtin_cmd
  simp only [List.headD_cons]
  rw [if_neg e1, if_neg e2, if_neg e3, if_neg e4, if_neg e5]
  exact if_pos trivial

/-- A `logout` line: `eval` records it in the history, then `builtin_cmd`
refuses or quits. -/
theorem evalFuel_logout (fuel : Nat) (s : Shell) (cmdline : List Char) (forkpid : Int)
    {args : List (List Char)} {bg : Int}
    (hp : parseline cmdline = some ("logout".toList :: args, bg)) :
    evalFuel (fuel + 1) s cmdline forkpid =
      if check_suspend (add_history s cmdline).jobs ≠ 0 then
        (add_history s cmdline).print Msg.suspendedJobs
      else do_quit (add_history s cmdline) := by
  have e5 : "logout".toList.head? ≠ some '!' := by decide
  rw [evalFuel_succ fuel s cmdline forkpid hp, builtin_cmd_logout, if_pos e5,
    if_neg one_ne_zero_int]

/-- A line whose first word is not a built-in: `eval` records it in the
history and launches it. -/
theorem evalFuel_external (fuel : Nat) (s : Shell) (cmdline : List Char) (forkpid : Int)
    {arg0 : List Char} {args : List (List Char)} {bg : Int}
    (hp : parseline cmdline = some (arg0 :: args, bg))
    (h0 : isBuiltin arg0 = false) :
    evalFuel (fuel + 1) s cmdline forkpid =
      launch (add_history s cmdline) arg0 cmdline bg forkpid := by
  have hbang : arg0.head? ≠ some '!' := by
    simp only [isBuiltin, Bool.or_eq_false_iff, beq_eq_false_iff_ne, ne_eq] at h0
    simpa using h0.1.1.2
  rw [evalFuel_succ fuel s cmdline forkpid hp, builtin_cmd_of_not_builtin _ _ _ h0,
    if_pos hbang, if_pos rfl]

/-- What `add_history` leaves alone. -/
theorem add_history_frame (s : Shell) (cmdline : List Char) :
    (add_history s cmdline).jobs = s.jobs ∧ (add_history s cmdline).nextjid = s.nextjid ∧
    (add_history s cmdline).procs = s.procs ∧ (add_history s cmdline).kills = s.kills ∧
    (add_history s cmdline).out = s.out ∧ (add_history s cmdline).mode = s.mode ∧
    (add_history s cmdline).shell_pid = s.shell_pid :=
  ⟨rfl, rfl, rfl, rfl, rfl, rfl, rfl⟩

/-- An unresolved target, when no signal arrives while `do_bgfg` executes:
if the lookup gives `NULL`, or a slot whose state is `UNDEF`, the command
prints "no such job or process" and does nothing else. -/
theorem do_bgfg_unresolved (s : Shell) (cmd target : List Char)
    (h : pidjid_str2job s.jobs target = some none ∨
      ∃ (i : Nat) (j : job_t), pidjid_str2job s.jobs target = some (some i) ∧
        s.jobs[i]? = some j ∧ j.state = UNDEF) :
    do_bgfg s [cmd, target] noSignals = s.print Msg.noSuchJob := by
  rw [do_bgfg_quiet]
  unfold do_bgfgQuiet
  simp only [ne_eq, not_true_eq_false, if_false]
  rcases h with h | ⟨i, j, hi, hj, hs⟩
  · rw [h]
  · rw [hi]
    simp only [getD_of_getElem? hj, hs, if_true]

/-! ## Built-in commands at the prompt -/

/-- The invariant at the prompt, from reachability. -/
theorem reachable_prompt {s0 s : Shell} (h0 : ShellInv s0) (h : Reachable s0 s)
    (hm : s.mode = Mode.run) : Core s ∧ NoFG s.jobs := by
  have hinv := reachable_inv h0 h
  unfold ShellInv at hinv
  rw [hm] at hinv
  exact hinv

/-- The scan finds a slot when one satisfies the test. -/
theorem firstIdx_of_mem {p : job_t → Bool} {l : List job_t} {j : job_t} (hj : j ∈ l)
    (hp : p j = true) :
    ∃ (i : Nat) (j0 : job_t), firstIdx p l = some i ∧ l[i]? = some j0 ∧ p j0 = true := by
  cases hf : firstIdx p l with
  | none =>
    have := (firstIdx_eq_none_iff p l).1 hf j hj
    rw [hp] at this
    cases this
  | some i =>
    obtain ⟨⟨j0, hj0, hp0⟩, -⟩ := (firstIdx_eq_some_iff p l i).1 hf
    exact ⟨i, j0, rfl, hj0, hp0⟩

/-- A slot whose state is not `UNDEF` holds a positive pid in an `SlotOK` table. -/
theorem pid_pos_of_state {jobs : List job_t} (hok : ∀ j ∈ jobs, SlotOK j) {j : job_t}
    (hj : j ∈ jobs) (hs : j.state ≠ UNDEF) : 1 ≤ j.pid := by
  rcases hok j hj with ⟨-, -, h, -⟩ | ⟨h, -⟩
  · exact absurd h hs
  · exact h

/-- The command `bg` on a resolved job when no signal arrives while `do_bgfg`
executes.  In a reachable state at the prompt, let the line be `bg <target>`
and the target resolve to slot `i` holding job `j` (state not `UNDEF`).  Then
`eval` makes exactly one `kill(-j.pid, SIGCONT)` if `j` was not already in
state `BG` and no `kill` if it was; slot `i` holds `j` with state `BG` and the
same pid, job id and command line; every other slot and `nextjid` are as
before; and `eval` has returned to the prompt (`Mode.run`): it did not wait. -/
theorem bg_quiet (verbose : Bool) (shell_pid ppid : Int) (username : List Char)
    (procs : List ProcRec) (passwd : List (List Char × List Char))
    (homes histfile : List (List Char)) (s : Shell)
    (hr : Reachable (startShell verbose shell_pid ppid username procs passwd homes histfile) s)
    (hm : s.mode = Mode.run) (fuel : Nat) (cmdline : List Char) (forkpid : Int)
    (target : List Char) (bg : Int) (i : Nat) (j : job_t)
    (hparse : parseline cmdline = some (["bg".toList, target], bg))
    (hres : pidjid_str2job s.jobs target = some (some i)) (hj : s.jobs[i]? = some j)
    (hst : j.state ≠ UNDEF) :
    (evalFuel (fuel + 1) s cmdline forkpid).kills =
      s.kills ++ (if j.state = BG then [] else [(-j.pid, Signal.SIGCONT)]) ∧
    (evalFuel (fuel + 1) s cmdline forkpid).jobs.length = s.jobs.length ∧
    (evalFuel (fuel + 1) s cmdline forkpid).jobs[i]? =
      some { pid := j.pid, jid := j.jid, state := BG, cmdline := j.cmdline } ∧
    (∀ k, k ≠ i → (evalFuel (fuel + 1) s cmdline forkpid).jobs[k]? = s.jobs[k]?) ∧
    (evalFuel (fuel + 1) s cmdline forkpid).nextjid = s.nextjid ∧
    (evalFuel (fuel + 1) s cmdline forkpid).mode = Mode.run := by
  obtain ⟨hc, -⟩ := reachable_prompt (startShell_inv verbose shell_pid ppid username procs
    passwd homes histfile) hr hm
  rw [evalFuel_bgfg fuel s cmdline forkpid hparse (Or.inl rfl)]
  generalize hs1 : add_history s cmdline = s1
  obtain ⟨f1, f2, f3, f4, -, f6, -⟩ := add_history_frame s cmdline
  rw [hs1] at f1 f2 f3 f4 f6
  have hres1 : pidjid_str2job s1.jobs target = some (some i) := by rw [f1]; exact hres
  have hj1 : s1.jobs[i]? = some j := by rw [f1]; exact hj
  have hd : s1.jobs.getD i clearedJob = j := getD_of_getElem? hj1 _
  have hpid : 1 ≤ j.pid := pid_pos_of_state hc.1.2 (List.getElem?_mem hj) hst
  have hproc : hasProc s1 j.pid = true := by
    rw [hasProc_congr f3]
    exact hc.2.2 j (List.getElem?_mem hj) (by omega)
  obtain ⟨a1, a2, a3, -, a5, -⟩ := change_proc_stat_of_hasProc hproc "R"
  have hnf : ¬ ("bg".toList = "fg".toList) := by decide
  have hfun : do_bgfg s1 ["bg".toList, target] noSignals =
      { (if j.state ≠ BG then (change_proc_stat s1 j.pid "R").kill (-j.pid) Signal.SIGCONT
          else change_proc_stat s1 j.pid "R") with
        jobs := setState (if j.state ≠ BG then
          (change_proc_stat s1 j.pid "R").kill (-j.pid) Signal.SIGCONT
          else change_proc_stat s1 j.pid "R").jobs i BG } := by
    rw [do_bgfg_quiet]
    unfold do_bgfgQuiet
    simp only [ne_eq, not_true_eq_false, if_false, hres1, hd, hst, hnf, if_true]
    rw [seq_of_run _ (a3.trans (f6.trans hm))]
  rw [hfun]
  by_cases hb : j.state = BG
  · simp only [hb, ne_eq, not_true_eq_false, if_false, if_true, List.append_nil]
    refine ⟨a2.trans f4, ?_, ?_, ?_, a5.trans f2, a3.trans (f6.trans hm)⟩
    · rw [setState_length, a1, f1]
    · rw [a1, setState_self hj1 BG]
    · intro k hk
      rw [a1, setState_getElem?, if_neg hk, f1]
  · simp only [hb, ne_eq, not_false_eq_true, if_true, if_false]
    refine ⟨?_, ?_, ?_, ?_, a5.trans f2, a3.trans (f6.trans hm)⟩
    · show (change_proc_stat s1 j.pid "R").kills ++ [(-j.pid, Signal.SIGCONT)] = _
      rw [a2, f4]
    · show (setState (change_proc_stat s1 j.pid "R").jobs i BG).length = _
      rw [setState_length, a1, f1]
    · show (setState (change_proc_stat s1 j.pid "R").jobs i BG)[i]? = _
      rw [a1, setState_self hj1 BG]
    · intro k hk
      show (setState (change_proc_stat s1 j.pid "R").jobs i BG)[k]? = _
      rw [a1, setState_getElem?, if_neg hk, f1]

/-- Claim C13 fails as stated. With job 1 stopped, `logout` is refused and the
shell stays at the prompt, but the command history is not as before: `eval`
has recorded the line `logout` in it. -/
theorem logout_refused_counterexample :
    (∃ j ∈ stoppedShell.jobs, j.state = ST) ∧ stoppedShell.mode = Mode.run ∧
    (evalFuel 11 stoppedShell "logout\n".toList 0).mode = Mode.run ∧
    (evalFuel 11 stoppedShell "logout\n".toList 0).history ≠ stoppedShell.history := by
  decide

/-- Claim C13, as amended. In a reachable state at the prompt with at least one
job in state `ST`, evaluating a `logout` line refuses: the shell does not exit
(it is back at the prompt), no signal is sent, and the job table, `nextjid`,
the `./proc` records and the history file are as before; "There are suspended
jobs." is printed, and the line itself is recorded in the command history as
`add_history` does for every line not starting with `!`. -/
theorem logout_refused (verbose : Bool) (shell_pid ppid : Int) (username : List Char)
    (procs : List ProcRec) (passwd : List (List Char × List Char))
    (homes histfile : List (List Char)) (s : Shell)
    (hr : Reachable (startShell verbose shell_pid ppid username procs passwd homes histfile) s)
    (hm : s.mode = Mode.run) (fuel : Nat) (cmdline : List Char) (forkpid : Int)
    (args : List (List Char)) (bg : Int)
    (hparse : parseline cmdline = some ("logout".toList :: args, bg))
    (hst : ∃ j ∈ s.jobs, j.state = ST) :
    (evalFuel (fuel + 1) s cmdline forkpid).mode = Mode.run ∧
    (evalFuel (fuel + 1) s cmdline forkpid).kills = s.kills ∧
    (evalFuel (fuel + 1) s cmdline forkpid).jobs = s.jobs ∧
    (evalFuel (fuel + 1) s cmdline forkpid).nextjid = s.nextjid ∧
    (evalFuel (fuel + 1) s cmdline forkpid).procs = s.procs ∧
    (evalFuel (fuel + 1) s cmdline forkpid).histfile = s.histfile ∧
    (evalFuel (fuel + 1) s cmdline forkpid).out = s.out ++ [Msg.suspendedJobs] ∧
    (evalFuel (fuel + 1) s cmdline forkpid).history = s.history.set s.history_idx cmdline ∧
    (evalFuel (fuel + 1) s cmdline forkpid).history_idx = (s.history_idx + 1) % MAXHISTORY := by
  obtain ⟨hc, -⟩ := reachable_prompt (startShell_inv verbose shell_pid ppid username procs
    passwd homes histfile) hr hm
  obtain ⟨j, hj, hs⟩ := hst
  have hcs : check_suspend (add_history s cmdline).jobs ≠ 0 := by
    show check_suspend s.jobs ≠ 0
    unfold check_suspend
    obtain ⟨i, j0, hf, hj0, hp0⟩ := firstIdx_of_mem (p := fun j => j.state == ST) hj
      (by simpa using hs)
    rw [hf]
    simp only [getD_of_getElem? hj0]
    have hs0 : j0.state = ST := by simpa using hp0
    have := pid_pos_of_state hc.1.2 (List.getElem?_mem hj0) (by rw [hs0]; decide)
    omega
  rw [evalFuel_logout fuel s cmdline forkpid hparse, if_pos hcs]
  exact ⟨hm, rfl, rfl, rfl, rfl, rfl, rfl, rfl, rfl⟩

/-- Where the shell has not ended, the invariant gives `Core` and at most one
slot in state `FG`. -/
theorem reachable_live {s0 s : Shell} (h0 : ShellInv s0) (h : Reachable s0 s)
    (hl : ¬ s.mode.ended) : Core s ∧ AtMostOneFG s.jobs := by
  have hinv := reachable_inv h0 h
  unfold ShellInv at hinv
  cases hm : s.mode with
  | run =>
    rw [hm] at hinv
    exact ⟨hinv.1, atMostOneFG_of_onlyFG (onlyFG_of_noFG 0 hinv.2)⟩
  | inQuit =>
    rw [hm] at hinv
    exact ⟨hinv.1, atMostOneFG_of_onlyFG (onlyFG_of_noFG 0 hinv.2)⟩
  | inWaitfg i =>
    rw [hm] at hinv
    exact ⟨hinv.1, atMostOneFG_of_onlyFG hinv.2⟩
  | exited c => rw [hm] at hl; exact absurd trivial hl
  | undefinedBehaviour => rw [hm] at hl; exact absurd trivial hl

/-- What `remove_proc` leaves alone when the record is there. -/
theorem remove_proc_of_hasProc {s : Shell} {pid : Int} (h : hasProc s pid = true) :
    (remove_proc s pid).jobs = s.jobs ∧ (remove_proc s pid).kills = s.kills ∧
    (remove_proc s pid).mode = s.mode ∧ (remove_proc s pid).shell_pid = s.shell_pid ∧
    (remove_proc s pid).nextjid = s.nextjid ∧ (remove_proc s pid).out = s.out := by
  unfold remove_proc
  rw [if_pos h]
  exact ⟨rfl, rfl, rfl, rfl, rfl, rfl⟩

/-- Printing before `deletejob` or after it is the same. -/
theorem deletejob_print (s : Shell) (m : Msg) (pid : Int) :
    deletejob (s.print m) pid = ((deletejob s pid).1, (deletejob s pid).2.print m) := by
  unfold deletejob
  split
  · rfl
  · show (match firstIdx (fun j => j.pid == pid) s.jobs with
      | some i => _
      | none => _) = _
    cases firstIdx (fun j => j.pid == pid) s.jobs <;> rfl

/-- Once the process has ended, the rest of the reaping loop does nothing. -/
theorem sigchld_fold_not_run (reaped : List (Int × Status)) :
    ∀ s : Shell, s.mode ≠ Mode.run →
      reaped.foldl (fun acc x => acc.seq fun a => sigchld_step a x.1 x.2) s = s := by
  induction reaped with
  | nil => intro s _; rfl
  | cons x rest ih =>
    intro s hs
    simp only [List.foldl_cons]
    rw [seq_of_not_run _ hs]
    exact ih s hs

/-- The function `sigchld_handler` runs the loop body on every reported child,
in order, as long as the reported pids are positive. -/
theorem sigchld_handler_eq_fold (reaped : List (Int × Status)) :
    ∀ s : Shell, s.mode = Mode.run → (∀ x ∈ reaped, 0 < x.1) →
      sigchld_handler s reaped =
        reaped.foldl (fun acc x => acc.seq fun a => sigchld_step a x.1 x.2) s := by
  induction reaped with
  | nil => intro s _ _; rfl
  | cons x rest ih =>
    intro s hm hpos
    obtain ⟨pid, status⟩ := x
    have hp : pid > 0 := hpos (pid, status) (List.mem_cons_self _ _)
    simp only [List.foldl_cons]
    rw [seq_of_run _ hm]
    unfold sigchld_handler
    rw [if_pos hp]
    by_cases hr : (sigchld_step s pid status).mode = Mode.run
    · rw [seq_of_run _ hr]
      exact ih _ hr (fun y hy => hpos y (List.mem_cons_of_mem _ hy))
    · rw [seq_of_not_run _ hr, sigchld_fold_not_run rest _ hr]

/-- Setting the mode to the mode it has changes nothing. -/
theorem with_mode_run {s : Shell} (h : s.mode = Mode.run) : { s with mode := Mode.run } = s := by
  cases s
  simp only at h
  subst h
  rfl

/-- The function `deletejob` looks at nothing but the table. -/
theorem deletejob_congr {s t : Shell} (hj : t.jobs = s.jobs) (hn : t.nextjid = s.nextjid)
    (pid : Int) :
    (deletejob t pid).1 = (deletejob s pid).1 ∧
    (deletejob t pid).2.jobs = (deletejob s pid).2.jobs ∧
    (deletejob t pid).2.nextjid = (deletejob s pid).2.nextjid := by
  by_cases hk : pid < 1
  · rw [deletejob_of_lt hk, deletejob_of_lt hk]
    exact ⟨rfl, hj, hn⟩
  · cases hf : firstIdx (fun j => j.pid == pid) s.jobs with
    | none =>
      have hf2 : firstIdx (fun j => j.pid == pid) t.jobs = none := by rw [hj]; exact hf
      rw [deletejob_of_none hf, deletejob_of_none hf2]
      exact ⟨rfl, hj, hn⟩
    | some i =>
      have hf2 : firstIdx (fun j => j.pid == pid) t.jobs = some i := by rw [hj]; exact hf
      rw [deletejob_of_some hk hf, deletejob_of_some hk hf2]
      refine ⟨rfl, ?_, ?_⟩
      · show t.jobs.set i clearedJob = s.jobs.set i clearedJob
        rw [hj]
      · show maxjid (t.jobs.set i clearedJob) + 1 = maxjid (s.jobs.set i clearedJob) + 1
        rw [hj]

/-- The function `deletejob` prints nothing. -/
theorem deletejob_out (s : Shell) (pid : Int) : (deletejob s pid).2.out = s.out := by
  unfold deletejob
  split
  · rfl
  · split <;> rfl

/-- Claim C16. One run of `sigchld_handler` applies its loop body to every
reported child, in order (while the process has not ended), not only to the
first.  For a child whose pid is in slot `i` of the table of a reachable
state: if it stopped, slot `i` gets state `ST`, keeps pid, job id and command
line, every other slot and `nextjid` are as before and nothing is printed; if
it was terminated by signal `sig`, table and `nextjid` become what
`deletejob(jobs, pid)` (which succeeds) makes them and the one line
"process pid terminated due to uncaught signal sig" is printed; if it exited,
table and `nextjid` become what `deletejob(jobs, pid)` makes them and nothing
is printed.  In each case the handler goes on (`Mode.run`). -/
theorem sigchld_reaps (verbose : Bool) (shell_pid ppid : Int) (username : List Char)
    (procs : List ProcRec) (passwd : List (List Char × List Char))
    (homes histfile : List (List Char)) (u : Shell)
    (hr : Reachable (startShell verbose shell_pid ppid username procs passwd homes histfile) u)
    (hl : ¬ u.mode.ended) :
    (∀ (s : Shell) (reaped : List (Int × Status)), s.mode = Mode.run →
      (∀ x ∈ reaped, 0 < x.1) →
      sigchld_handler s reaped =
        reaped.foldl (fun acc x => acc.seq fun a => sigchld_step a x.1 x.2) s) ∧
    (∀ (pid : Int) (i : Nat) (j : job_t), getjobpid u.jobs pid = some i → u.jobs[i]? = some j →
      ((sigchld_step { u with mode := Mode.run } pid Status.stopped).mode = Mode.run ∧
        (sigchld_step { u with mode := Mode.run } pid Status.stopped).jobs[i]? =
          some { pid := j.pid, jid := j.jid, state := ST, cmdline := j.cmdline } ∧
        (∀ k, k ≠ i →
          (sigchld_step { u with mode := Mode.run } pid Status.stopped).jobs[k]? = u.jobs[k]?) ∧
        (sigchld_step { u with mode := Mode.run } pid Status.stopped).jobs.length =
          u.jobs.length ∧
        (sigchld_step { u with mode := Mode.run } pid Status.stopped).nextjid = u.nextjid ∧
        (sigchld_step { u with mode := Mode.run } pid Status.stopped).out = u.out) ∧
      (∀ sig : Int,
        (sigchld_step { u with mode := Mode.run } pid (Status.signaled sig)).mode = Mode.run ∧
        (deletejob u pid).1 = 1 ∧
        (sigchld_step { u with mode := Mode.run } pid (Status.signaled sig)).jobs =
          (deletejob u pid).2.jobs ∧
        (sigchld_step { u with mode := Mode.run } pid (Status.signaled sig)).nextjid =
          (deletejob u pid).2.nextjid ∧
        (sigchld_step { u with mode := Mode.run } pid (Status.signaled sig)).out =
          u.out ++ [Msg.terminated pid sig]) ∧
      ((sigchld_step { u with mode := Mode.run } pid Status.exited).mode = Mode.run ∧
        (deletejob u pid).1 = 1 ∧
        (sigchld_step { u with mode := Mode.run } pid Status.exited).jobs =
          (deletejob u pid).2.jobs ∧
        (sigchld_step { u with mode := Mode.run } pid Status.exited).nextjid =
          (deletejob u pid).2.nextjid ∧
        (sigchld_step { u with mode := Mode.run } pid Status.exited).out = u.out)) := by
  obtain ⟨hc, -⟩ := reachable_live (startShell_inv verbose shell_pid ppid username procs
    passwd homes histfile) hr hl
  refine ⟨fun s reaped hm hpos => sigchld_handler_eq_fold reaped s hm hpos, ?_⟩
  intro pid i j hg hj
  obtain ⟨hpid, j0, hj0, hjp⟩ := getjobpid_some hg
  rw [hj] at hj0
  cases hj0
  have hproc : hasProc u pid = true := by
    rw [← hjp]
    exact hc.2.2 j (List.getElem?_mem hj) (by omega)
  generalize hv : ({ u with mode := Mode.run } : Shell) = v
  have vj : v.jobs = u.jobs := by rw [← hv]
  have vn : v.nextjid = u.nextjid := by rw [← hv]
  have vo : v.out = u.out := by rw [← hv]
  have vm : v.mode = Mode.run := by rw [← hv]
  have vp : v.procs = u.procs := by rw [← hv]
  have hgv : getjobpid v.jobs pid = some i := by rw [vj]; exact hg
  have hjv : v.jobs[i]? = some j := by rw [vj]; exact hj
  have hprocv : hasProc v pid = true := by rw [hasProc_congr vp]; exact hproc
  have hdel : (deletejob u pid).1 = 1 := by
    have hf : firstIdx (fun j => j.pid == pid) u.jobs = some i := by
      unfold getjobpid at hg
      rw [if_neg (by omega)] at hg
      exact hg
    rw [deletejob_of_some (by omega) hf]
  have hdj : (deletejob v pid).2.jobs = (deletejob u pid).2.jobs ∧
      (deletejob v pid).2.nextjid = (deletejob u pid).2.nextjid ∧
      (deletejob v pid).2.out = u.out ∧ (deletejob v pid).2.mode = Mode.run ∧
      hasProc (deletejob v pid).2 pid = true := by
    obtain ⟨-, c2, c3⟩ := deletejob_congr vj vn pid
    refine ⟨c2, c3, (deletejob_out v pid).trans vo, ?_, ?_⟩
    · rw [(deletejob_frame _ _).1]; exact vm
    · rw [hasProc_congr (deletejob_frame _ _).2.1]
      exact hprocv
  refine ⟨?_, ?_, ?_⟩
  · -- stopped
    have hstep : sigchld_step v pid Status.stopped =
        change_proc_stat { v with jobs := setState v.jobs i ST } pid "T" := by
      unfold sigchld_step
      simp only [hgv, if_true]
      rw [seq_of_run _ (by exact vm)]
    have hp2 : hasProc { v with jobs := setState v.jobs i ST } pid = true := hprocv
    obtain ⟨a1, -, a3, -, a5, a6⟩ := change_proc_stat_of_hasProc hp2 "T"
    rw [hstep]
    refine ⟨a3.trans vm, ?_, ?_, ?_, a5.trans vn, a6.trans vo⟩
    · rw [a1]
      show (setState v.jobs i ST)[i]? = _
      rw [setState_self hjv ST]
    · intro k hk
      rw [a1]
      show (setState v.jobs i ST)[k]? = _
      rw [setState_getElem?, if_neg hk, vj]
    · rw [a1]
      show (setState v.jobs i ST).length = _
      rw [setState_length, vj]
  · -- signaled
    intro sig
    have hd : v.jobs.getD i clearedJob = j := getD_of_getElem? hjv _
    have hstep : sigchld_step v pid (Status.signaled sig) =
        remove_proc ((deletejob v pid).2.print (Msg.terminated pid sig)) pid := by
      unfold sigchld_step
      simp only [hgv, hd, hjp, deletejob_print, reduceCtorEq, if_false]
      rw [seq_of_run _ (by exact hdj.2.2.2.1)]
    have hp2 : hasProc ((deletejob v pid).2.print (Msg.terminated pid sig)) pid = true :=
      hdj.2.2.2.2
    obtain ⟨a1, -, a3, -, a5, a6⟩ := remove_proc_of_hasProc hp2
    rw [hstep]
    refine ⟨a3.trans hdj.2.2.2.1, hdel, a1.trans hdj.1, a5.trans hdj.2.1, ?_⟩
    rw [a6]
    show (deletejob v pid).2.out ++ [Msg.terminated pid sig] = _
    rw [hdj.2.2.1]
  · -- exited
    have hstep : sigchld_step v pid Status.exited = remove_proc (deletejob v pid).2 pid := by
      unfold sigchld_step
      simp only [reduceCtorEq, if_false]
      rw [seq_of_run _ (by exact hdj.2.2.2.1)]
    obtain ⟨a1, -, a3, -, a5, a6⟩ := remove_proc_of_hasProc hdj.2.2.2.2
    rw [hstep]
    exact ⟨a3.trans hdj.2.2.2.1, hdel, a1.trans hdj.1, a5.trans hdj.2.1, a6.trans hdj.2.2.1⟩

/-! ## Launching an external command -/

/-- What `add_proc` does when the record is not there yet. -/
theorem add_proc_of_not_hasProc {s : Shell} {pid : Int} (h : hasProc s pid = false)
    (name : List Char) (ppid : Int) (stat : String) :
    (add_proc s name pid ppid stat).jobs = s.jobs ∧
    (add_proc s name pid ppid stat).kills = s.kills ∧
    (add_proc s name pid ppid stat).mode = s.mode ∧
    (add_proc s name pid ppid stat).shell_pid = s.shell_pid ∧
    (add_proc s name pid ppid stat).nextjid = s.nextjid ∧
    (add_proc s name pid ppid stat).out = s.out ∧
    ∀ q, hasProc (add_proc s name pid ppid stat) q = (hasProc s q || q == pid) := by
  obtain ⟨-, -, h1 | h1⟩ := add_proc_spec s name pid ppid stat
  · refine ⟨?_, ?_, ?_, ?_, ?_, ?_, h1.2.2⟩ <;>
    · unfold add_proc
      rw [if_neg (by rw [h]; simp)]
      rfl
  · rw [h] at h1
    exact absurd h1.2 (by simp)

/-- The function `waitfg` returns at once when no slot holds the pid. -/
theorem waitfg_of_none {s : Shell} {pid : Int} (h : getjobpid s.jobs pid = none) :
    waitfg s pid = s := by
  unfold waitfg
  rw [h]

/-- The state of the shell after the part of `eval` that is common to every
launch with a fresh pid: the `change_proc_stat` of a foreground launch,
`addjob` and `add_proc` all return, and only `addjob` touches table, counter
and output. -/
theorem launch_prefix {s : Shell} (hm : s.mode = Mode.run) (hc : Core s) (bg pid : Int)
    (argv0 cmdline : List Char) (hfresh : hasProc s pid = false)
    (hshell : bg = 0 → hasProc s s.shell_pid = true) :
    ∃ s1 s3 : Shell,
      s1.jobs = s.jobs ∧ s1.nextjid = s.nextjid ∧ s1.out = s.out ∧ s1.kills = s.kills ∧
      s1.mode = Mode.run ∧ s1.verbose = s.verbose ∧
      s3.mode = Mode.run ∧ Core s3 ∧
      s3.jobs = (addjob s1 pid (if bg = 0 then FG else BG) cmdline).2.jobs ∧
      s3.nextjid = (addjob s1 pid (if bg = 0 then FG else BG) cmdline).2.nextjid ∧
      s3.out = (addjob s1 pid (if bg = 0 then FG else BG) cmdline).2.out ∧
      s3.kills = s.kills ∧ hasProc s3 pid = true ∧
      (bg = 0 → hasProc s3 s3.shell_pid = true) ∧
      launch s argv0 cmdline bg pid =
        if bg = 0 then (waitfg s3 pid).seq fun s4 => change_proc_stat s4 s4.shell_pid "Rs+"
        else s3 := by
  -- the first step
  have hfirst : ∃ s1 : Shell,
      s1 = (if bg = 0 then change_proc_stat s s.shell_pid "Ss" else s) ∧
      s1.jobs = s.jobs ∧ s1.nextjid = s.nextjid ∧ s1.out = s.out ∧ s1.kills = s.kills ∧
      s1.mode = Mode.run ∧ s1.shell_pid = s.shell_pid ∧ Core s1 ∧
      (∀ q, hasProc s1 q = hasProc s q) ∧ s1.verbose = s.verbose := by
    by_cases hbg : bg = 0
    · refine ⟨change_proc_stat s s.shell_pid "Ss", by rw [if_pos hbg], ?_⟩
      obtain ⟨a1, a2, a3, a4, a5, a6⟩ := change_proc_stat_of_hasProc (hshell hbg) "Ss"
      rcases change_proc_stat_run hm hc s.shell_pid "Ss" with he | ⟨-, h2, -, h4⟩
      · rw [a3, hm] at he
        exact absurd he (by simp [Mode.ended])
      · refine ⟨a1, a5, a6, a2, a3.trans hm, a4, h2, h4, ?_⟩
        unfold change_proc_stat
        rw [if_pos (hshell hbg)]
    · exact ⟨s, by rw [if_neg hbg], rfl, rfl, rfl, rfl, hm, rfl, hc, fun _ => rfl, rfl⟩
  obtain ⟨s1, hs1, b1, b2, b3, b4, b5, b6, b7, b8, b9⟩ := hfirst
  obtain ⟨fm, fp, fs⟩ := addjob_frame s1 pid (if bg = 0 then FG else BG) cmdline
  have hfresh2 : hasProc (addjob s1 pid (if bg = 0 then FG else BG) cmdline).2 pid = false := by
    rw [hasProc_congr fp, b8]
    exact hfresh
  obtain ⟨c1, c2, c3, c4, c5, c6, c7⟩ := add_proc_of_not_hasProc hfresh2 argv0
    (addjob s1 pid (if bg = 0 then FG else BG) cmdline).2.shell_pid (if bg = 0 then "R+" else "R")
  have hcore : Core (add_proc (addjob s1 pid (if bg = 0 then FG else BG) cmdline).2 argv0 pid
      (addjob s1 pid (if bg = 0 then FG else BG) cmdline).2.shell_pid
      (if bg = 0 then "R+" else "R")) := by
    rcases addjob_add_proc_core b5 b7 pid (if bg = 0 then FG else BG) cmdline argv0
      (addjob s1 pid (if bg = 0 then FG else BG) cmdline).2.shell_pid
      (if bg = 0 then "R+" else "R") with he | h
    · rw [c3, fm, b5] at he
      exact absurd he (by simp [Mode.ended])
    · exact h.2.1
  have hkills : (addjob s1 pid (if bg = 0 then FG else BG) cmdline).2.kills = s1.kills := by
    unfold addjob
    split
    · rfl
    · split
      · cases s1.verbose <;> rfl
      · rfl
  refine ⟨s1, _, b1, b2, b3, b4, b5, b9, c3.trans (fm.trans b5), hcore, c1, c5, c6,
    c2.trans (hkills.trans b4), ?_, ?_, ?_⟩
  · rw [c7]
    simp
  · intro hbg
    rw [c7, c4, fs, b6, hasProc_congr fp, b8, hshell hbg]
    rfl
  · unfold launch
    simp only []
    rw [← hs1, seq_of_run _ b5, seq_of_run _ (c3.trans (fm.trans b5))]

/-- Claim C18. In a reachable state at the prompt, let `parseline` return the
words `arg0 :: args` and the background flag `bg` for the line (so the line
has fewer than `MAXARGS` words and fits `MAXLINE`: on the other lines
`parseline` overruns its buffers and returns nothing), let the first word not
be a built-in, let `fork` return `forkpid >= 1`, let slot `i` be the first
free slot, let `./proc/forkpid` not exist yet and, for a foreground launch,
let the shell's own record exist.  Then after `eval` slot `i` holds the job
with pid `forkpid`, job id `nextjid`, the original line as command line, and
state `BG` if `parseline` returned the background flag and `FG` otherwise;
every other slot is as before; no signal was sent; and the shell is
suspended in `waitfg` on slot `i` for a foreground launch and back at the
prompt for a background launch. -/
theorem launch_registers (verbose : Bool) (shell_pid ppid : Int) (username : List Char)
    (procs : List ProcRec) (passwd : List (List Char × List Char))
    (homes histfile : List (List Char)) (s : Shell)
    (hr : Reachable (startShell verbose shell_pid ppid username procs passwd homes histfile) s)
    (hm : s.mode = Mode.run) (fuel : Nat) (cmdline : List Char) (forkpid : Int)
    (arg0 : List Char) (args : List (List Char)) (bg : Int) (i : Nat)
    (hparse : parseline cmdline = some (arg0 :: args, bg)) (hnb : isBuiltin arg0 = false)
    (hpid : 1 ≤ forkpid) (hfree : firstIdx (fun j => j.pid == 0) s.jobs = some i)
    (hfresh : hasProc s forkpid = false)
    (hshell : bg = 0 → hasProc s s.shell_pid = true) :
    (evalFuel (fuel + 1) s cmdline forkpid).jobs.length = s.jobs.length ∧
    (evalFuel (fuel + 1) s cmdline forkpid).jobs[i]? =
      some { pid := forkpid, jid := s.nextjid,
             state := if bg = 0 then FG else BG, cmdline := cmdline } ∧
    (∀ k, k ≠ i → (evalFuel (fuel + 1) s cmdline forkpid).jobs[k]? = s.jobs[k]?) ∧
    (evalFuel (fuel + 1) s cmdline forkpid).kills = s.kills ∧
    (bg = 0 →
      (evalFuel (fuel + 1) s cmdline forkpid).mode = Mode.inWaitfg i) ∧
    (bg ≠ 0 → (evalFuel (fuel + 1) s cmdline forkpid).mode = Mode.run) := by
  obtain ⟨hc, hnofg⟩ := reachable_prompt (startShell_inv verbose shell_pid ppid username procs
    passwd homes histfile) hr hm
  rw [evalFuel_external fuel s cmdline forkpid hparse hnb]
  obtain ⟨s1, s3, b1, b2, -, -, -, -, m3, c3, j3, -, -, k3, -, -, hl⟩ :=
    launch_prefix (s := add_history s cmdline) hm (core_congr rfl rfl (fun _ hq => hq) hc) bg
      forkpid arg0 cmdline hfresh hshell
  have b1' : s1.jobs = s.jobs := b1
  have b2' : s1.nextjid = s.nextjid := b2
  have k3' : s3.kills = s.kills := k3
  have hfree1 : firstIdx (fun j => j.pid == 0) s1.jobs = some i := by rw [b1']; exact hfree
  obtain ⟨-, a2, -⟩ := @addjob_of_some s1 forkpid (if bg = 0 then FG else BG) cmdline i
    (by omega) hfree1
  rw [a2, b1', b2'] at j3
  have hi : i < s.jobs.length := firstIdx_lt_length hfree
  have hslot : s3.jobs[i]? =
      some ⟨forkpid, s.nextjid, if bg = 0 then FG else BG, cmdline⟩ := by
    rw [j3, getElem?_set_slot _ _ _ _ hi, if_pos rfl]
  have hother : ∀ k, k ≠ i → s3.jobs[k]? = s.jobs[k]? := by
    intro k hk
    rw [j3, getElem?_set_slot _ _ _ _ hi, if_neg hk]
  have hlen : s3.jobs.length = s.jobs.length := by rw [j3]; simp
  rw [hl]
  by_cases hbg : bg = 0
  · rw [if_pos hbg]
    have honly : OnlyFG i s3.jobs := by
      intro k j hj hs
      by_contra hk
      rw [hother k hk] at hj
      exact hnofg j (List.getElem?_mem hj) hs
    obtain ⟨hw, -⟩ := wait_tail_fg c3 hslot hpid (by simp only [hbg, if_true]) honly
      (fun s4 => change_proc_stat s4 s4.shell_pid "Rs+")
    rw [hw]
    exact ⟨hlen, hslot, hother, k3', fun _ => rfl, fun h => absurd hbg h⟩
  · rw [if_neg hbg]
    exact ⟨hlen, hslot, hother, k3', fun h => absurd h hbg, fun _ => m3⟩

/-- Claim C20. In a reachable state at the prompt whose job table is full, let
`parseline` return the words `arg0 :: args` and the background flag `bg` for
the line (so the line has fewer than `MAXARGS` words and fits `MAXLINE`: on
the other lines `parseline` overruns its buffers and returns nothing), let
the first word not be a built-in, let `fork` return `forkpid >= 1`, let
`./proc/forkpid` not exist yet and, for a foreground launch, let the shell's
own record exist.  Then `eval` prints "Tried to create too many jobs" and
nothing else, leaves the job table and `nextjid` as they were (the new pid is
in no slot), sends no signal, and is back at the prompt (`Mode.run`: the
shell has not ended, and a foreground launch did not block). -/
theorem launch_table_full (verbose : Bool) (shell_pid ppid : Int) (username : List Char)
    (procs : List ProcRec) (passwd : List (List Char × List Char))
    (homes histfile : List (List Char)) (s : Shell)
    (hr : Reachable (startShell verbose shell_pid ppid username procs passwd homes histfile) s)
    (hm : s.mode = Mode.run) (fuel : Nat) (cmdline : List Char) (forkpid : Int)
    (arg0 : List Char) (args : List (List Char)) (bg : Int)
    (hparse : parseline cmdline = some (arg0 :: args, bg)) (hnb : isBuiltin arg0 = false)
    (hpid : 1 ≤ forkpid) (hfull : ∀ j ∈ s.jobs, j.pid ≠ 0)
    (hfresh : hasProc s forkpid = false)
    (hshell : bg = 0 → hasProc s s.shell_pid = true) :
    (evalFuel (fuel + 1) s cmdline forkpid).out = s.out ++ [Msg.tooManyJobs] ∧
    (evalFuel (fuel + 1) s cmdline forkpid).jobs = s.jobs ∧
    (evalFuel (fuel + 1) s cmdline forkpid).nextjid = s.nextjid ∧
    (evalFuel (fuel + 1) s cmdline forkpid).kills = s.kills ∧
    (evalFuel (fuel + 1) s cmdline forkpid).mode = Mode.run ∧
    getjobpid (evalFuel (fuel + 1) s cmdline forkpid).jobs forkpid = none := by
  obtain ⟨hc, hnofg⟩ := reachable_prompt (startShell_inv verbose shell_pid ppid username procs
    passwd homes histfile) hr hm
  rw [evalFuel_external fuel s cmdline forkpid hparse hnb]
  obtain ⟨s1, s3, b1, b2, b3, -, -, -, m3, c3, j3, n3, o3, k3, -, p3, hl⟩ :=
    launch_prefix (s := add_history s cmdline) hm (core_congr rfl rfl (fun _ hq => hq) hc) bg
      forkpid arg0 cmdline hfresh hshell
  have b1' : s1.jobs = s.jobs := b1
  have b2' : s1.nextjid = s.nextjid := b2
  have b3' : s1.out = s.out := b3
  have k3' : s3.kills = s.kills := k3
  have hnone : firstIdx (fun j => j.pid == 0) s1.jobs = none := by
    rw [b1', firstIdx_eq_none_iff]
    intro j hj
    simpa using hfull j hj
  rw [addjob_of_none (by omega) hnone] at j3 n3 o3
  have j3' : s3.jobs = s.jobs := j3.trans b1'
  have n3' : s3.nextjid = s.nextjid := n3.trans b2'
  have o3' : s3.out = s.out ++ [Msg.tooManyJobs] := by
    rw [o3]
    show s1.out ++ [Msg.tooManyJobs] = _
    rw [b3']
  have hmiss : getjobpid s.jobs forkpid = none := by
    unfold getjobpid
    rw [if_neg (by omega), firstIdx_eq_none_iff]
    intro j hj
    have hp := hc.2.2 j hj (hfull j hj)
    have : j.pid ≠ forkpid := by
      intro heq
      rw [heq, hfresh] at hp
      cases hp
    simpa using this
  rw [hl]
  by_cases hbg : bg = 0
  · rw [if_pos hbg, waitfg_of_none (by rw [j3']; exact hmiss), seq_of_run _ m3]
    obtain ⟨a1, a2, a3, -, a5, a6⟩ := change_proc_stat_of_hasProc (p3 hbg) "Rs+"
    exact ⟨a6.trans o3', a1.trans j3', a5.trans n3', a2.trans k3', a3.trans m3,
      by rw [a1, j3']; exact hmiss⟩
  · rw [if_neg hbg]
    exact ⟨o3', j3', n3', k3', m3, by rw [j3']; exact hmiss⟩

/-! ## Waiting for the foreground job -/

theorem slotsKept_refl (jobs : List job_t) : SlotsKept jobs jobs :=
  fun _ j2 h => ⟨j2, h, Or.inr rfl⟩

theorem slotsKept_of_eq {a b : List job_t} (h : b = a) : SlotsKept a b := by
  rw [h]; exact slotsKept_refl a

theorem slotsKept_trans {a b c : List job_t} (h1 : SlotsKept a b) (h2 : SlotsKept b c) :
    SlotsKept a c := by
  intro k j3 hj3
  obtain ⟨j2, hj2, h⟩ := h2 k j3 hj3
  obtain ⟨j1, hj1, h'⟩ := h1 k j2 hj2
  refine ⟨j1, hj1, ?_⟩
  rcases h with h | h
  · exact Or.inl h
  · rcases h' with h' | h'
    · exact Or.inl (h.trans h')
    · exact Or.inr (h.trans h')

theorem slotsKept_setState (jobs : List job_t) (i : Nat) (st : Int) :
    SlotsKept jobs (setState jobs i st) := by
  intro k j2 hj2
  obtain ⟨j, hj, hp, -⟩ := setState_slot hj2
  exact ⟨j, hj, Or.inr hp⟩

theorem slotsKept_set_cleared (jobs : List job_t) (i : Nat) :
    SlotsKept jobs (jobs.set i clearedJob) := by
  intro k j2 hj2
  by_cases hi : i < jobs.length
  · rw [getElem?_set_slot _ _ _ _ hi] at hj2
    by_cases hk : k = i
    · simp only [hk, if_true] at hj2
      cases hj2
      subst hk
      exact ⟨jobs[k], List.getElem?_eq_getElem hi, Or.inl rfl⟩
    · simp only [hk, if_false] at hj2
      exact ⟨j2, hj2, Or.inr rfl⟩
  · rw [List.set_eq_of_length_le (by omega)] at hj2
    exact ⟨j2, hj2, Or.inr rfl⟩

theorem slotsKept_deletejob (s : Shell) (pid : Int) : SlotsKept s.jobs (deletejob s pid).2.jobs := by
  by_cases hs : (deletejob s pid).1 = 1
  · obtain ⟨-, i, -, -, hjobs, -⟩ := deletejob_success hs
    rw [hjobs]
    exact slotsKept_set_cleared _ _
  · rw [deletejob_failure hs]
    exact slotsKept_refl _

theorem remove_proc_jobs (s : Shell) (pid : Int) : (remove_proc s pid).jobs = s.jobs :=
  (remove_proc_spec s pid).1

/-- Sequencing a step that keeps the slots keeps the slots. -/
theorem slotsKept_seq {jobs : List job_t} {s : Shell} (k : Shell → Shell)
    (hs : SlotsKept jobs s.jobs) (hk : ∀ x, SlotsKept x.jobs (k x).jobs) :
    SlotsKept jobs (s.seq k).jobs := by
  unfold Shell.seq
  split
  · exact slotsKept_trans hs (hk s)
  · exact hs

theorem sigchld_step_slots (s : Shell) (pid : Int) (status : Status) :
    SlotsKept s.jobs (sigchld_step s pid status).jobs := by
  unfold sigchld_step
  simp only []
  apply slotsKept_seq
  · cases status with
    | stopped =>
      simp only []
      cases getjobpid s.jobs pid with
      | none => exact slotsKept_refl _
      | some i => exact slotsKept_setState _ _ _
    | signaled sig =>
      simp only []
      cases getjobpid s.jobs pid with
      | none => exact slotsKept_refl _
      | some i => exact slotsKept_deletejob (s.print _) pid
    | exited => exact slotsKept_deletejob s pid
  · intro x
    split
    · exact slotsKept_of_eq (change_proc_stat_jobs _ _ _)
    · exact slotsKept_of_eq (remove_proc_jobs _ _)

theorem sigchld_handler_slots (reaped : List (Int × Status)) :
    ∀ s : Shell, SlotsKept s.jobs (sigchld_handler s reaped).jobs := by
  induction reaped with
  | nil => intro s; exact slotsKept_refl _
  | cons x rest ih =>
    intro s
    obtain ⟨pid, status⟩ := x
    unfold sigchld_handler
    split
    · exact slotsKept_seq _ (sigchld_step_slots s pid status) (fun y => ih y)
    · exact slotsKept_refl _

/-- A handler removes jobs or changes their state; it moves or adds none. -/
theorem handler_slots (s : Shell) (n : Notification) : SlotsKept s.jobs (handler s n).jobs := by
  cases n with
  | sigchld reaped => exact sigchld_handler_slots reaped s
  | sigint =>
    unfold handler sigint_handler
    simp only []
    split <;> exact slotsKept_refl _
  | sigtstp =>
    unfold handler sigtstp_handler
    simp only []
    split <;> exact slotsKept_refl _
  | sigquit => exact slotsKept_refl _

/-- Claim C19. The function `waitfg(pid)`: if no slot holds `pid`, or the slot
that does is not in state `FG`, it returns at once and changes nothing; if
the slot `i` that holds `pid` is in state `FG`, it suspends on slot `i`; in
both cases table and `nextjid` are as before.  While it is suspended on slot
`i`, a signal leaves it suspended exactly when the handler returns with slot
`i` still in state `FG`, and the wake-up changes neither table nor `nextjid`
beyond what the handler did.  In a reachable state suspended on slot `i`
holding job `j`, slot `i` is in state `FG` after a handler exactly when the
table then holds a job with the pid of `j` in state `FG`: the wait ends with
the first handler that removes that job or takes it out of state `FG`. -/
theorem waitfg_spec (verbose : Bool) (shell_pid ppid : Int) (username : List Char)
    (procs : List ProcRec) (passwd : List (List Char × List Char))
    (homes histfile : List (List Char)) :
    (∀ (s : Shell) (pid : Int),
      (getjobpid s.jobs pid = none ∨
        ∃ (i : Nat) (j : job_t), getjobpid s.jobs pid = some i ∧ s.jobs[i]? = some j ∧
          j.state ≠ FG) →
      waitfg s pid = s) ∧
    (∀ (s : Shell) (pid : Int) (i : Nat) (j : job_t), getjobpid s.jobs pid = some i →
      s.jobs[i]? = some j → j.state = FG →
      waitfg s pid = { s with mode := Mode.inWaitfg i }) ∧
    (∀ (s : Shell) (pid : Int),
      (waitfg s pid).jobs = s.jobs ∧ (waitfg s pid).nextjid = s.nextjid) ∧
    (∀ (u : Shell) (n : Notification) (i : Nat), u.mode = Mode.inWaitfg i →
      ((deliver u n).mode = Mode.inWaitfg i ↔
        ((handler { u with mode := Mode.run } n).mode = Mode.run ∧
          ((handler { u with mode := Mode.run } n).jobs.getD i clearedJob).state = FG)) ∧
      (deliver u n).jobs = (handler { u with mode := Mode.run } n).jobs ∧
      (deliver u n).nextjid = (handler { u with mode := Mode.run } n).nextjid) ∧
    (∀ (u : Shell) (n : Notification) (i : Nat) (j : job_t),
      Reachable (startShell verbose shell_pid ppid username procs passwd homes histfile) u →
      u.mode = Mode.inWaitfg i → u.jobs[i]? = some j →
      (handler { u with mode := Mode.run } n).mode = Mode.run →
      (((handler { u with mode := Mode.run } n).jobs.getD i clearedJob).state = FG ↔
        ∃ (k : Nat) (j2 : job_t), (handler { u with mode := Mode.run } n).jobs[k]? = some j2 ∧
          j2.pid = j.pid ∧ j2.state = FG)) := by
  refine ⟨?_, ?_, ?_, ?_, ?_⟩
  · intro s pid h
    rcases h with h | ⟨i, j, hi, hj, hs⟩
    · exact waitfg_of_none h
    · unfold waitfg
      rw [hi]
      simp only [getD_of_getElem? hj, hs, if_false]
  · intro s pid i j hi hj hs
    unfold waitfg
    rw [hi]
    simp only [getD_of_getElem? hj, hs, if_true]
  · intro s pid
    unfold waitfg
    cases getjobpid s.jobs pid with
    | none => exact ⟨rfl, rfl⟩
    | some i =>
      simp only []
      split <;> exact ⟨rfl, rfl⟩
  · intro u n i hu
    refine ⟨deliver_inWaitfg hu n, ?_⟩
    unfold deliver
    rw [hu]
    simp only []
    generalize handler { u with mode := Mode.run } n = t
    by_cases ht : t.mode = Mode.run
    · rw [seq_of_run _ ht]
      by_cases hfg : (t.jobs.getD i clearedJob).state = FG
      · rw [if_pos hfg]
        exact ⟨rfl, rfl⟩
      · rw [if_neg hfg]
        exact ⟨(change_proc_stat_spec _ _ _).1, (change_proc_stat_spec _ _ _).2.1⟩
    · rw [seq_of_not_run _ ht]
      exact ⟨rfl, rfl⟩
  · intro u n i j hr hu hj hret
    have hinv := reachable_inv (startShell_inv verbose shell_pid ppid username procs passwd
      homes histfile) hr
    unfold ShellInv at hinv
    rw [hu] at hinv
    obtain ⟨hc, honly⟩ := hinv
    have hcu : Core { u with mode := Mode.run } := core_congr rfl rfl (fun _ hq => hq) hc
    rcases handler_spec (s := { u with mode := Mode.run }) rfl hcu n with he | ⟨-, h2, h3⟩
    · exact absurd hret (ended_not_run he)
    · have hk := handler_slots { u with mode := Mode.run } n
      generalize handler { u with mode := Mode.run } n = t at h2 h3 hk ⊢
      have h3' : FgShrink u.jobs t.jobs := h3
      have hk' : SlotsKept u.jobs t.jobs := hk
      constructor
      · intro hfg
        cases ht : t.jobs[i]? with
        | none =>
          rw [List.getD_eq_getElem?_getD, ht] at hfg
          exact absurd hfg (by decide)
        | some j2 =>
          rw [getD_of_getElem? ht] at hfg
          obtain ⟨j1, hj1, hp⟩ := hk' i j2 ht
          rw [hj] at hj1
          cases hj1
          have hpos := pid_pos_of_state h2.1.2 (List.getElem?_mem ht) (by rw [hfg]; decide)
          refine ⟨i, j2, ht, ?_, hfg⟩
          rcases hp with hp | hp
          · omega
          · exact hp
      · rintro ⟨k, j2, hk2, -, hfg⟩
        obtain ⟨j1, hj1, hs1⟩ := h3' k j2 hk2 hfg
        have := honly k j1 hj1 hs1
        subst this
        rw [getD_of_getElem? hk2]
        exact hfg

/-! ## Runs of the shell on given inputs -/

/-- Taking inputs one after the other, commands only at the prompt, stays
within the reachable states. -/
theorem reachable_steps {s0 : Shell} (inputs : List Input) :
    ∀ s : Shell, Reachable s0 s → CommandsAtPrompt s inputs →
      Reachable s0 (inputs.foldl step s) := by
  induction inputs with
  | nil => intro s h _; exact h
  | cons x rest ih =>
    intro s h hp
    cases x with
    | command cmdline forkpid =>
      exact ih _ (Reachable.command (MAXHISTORY + 1) cmdline forkpid h hp.1) hp.2
    | notify n => exact ih _ (Reachable.notify n h) hp

/-- Claim C17, the code at a failing input. The table is full (pids 201 to 216)
and pid 300 was launched all the same, so it runs, has its `./proc` record and
is in no slot.  When `SIGCHLD` reports it terminated by a signal, or stopped,
`sigchld_handler` dereferences the `NULL` that `getjobpid` returned; only when
it reports a normal exit does the handler go on, with the table unchanged. -/
theorem sigchld_lookup_miss :
    Reachable exampleShell untrackedShell ∧ untrackedShell.mode = Mode.run ∧
    (∀ j ∈ untrackedShell.jobs, j.pid ≠ 0) ∧
    getjobpid untrackedShell.jobs 300 = none ∧ hasProc untrackedShell 300 = true ∧
    (deliver untrackedShell (Notification.sigchld [(300, Status.signaled 9)])).mode =
      Mode.undefinedBehaviour ∧
    (deliver untrackedShell (Notification.sigchld [(300, Status.stopped)])).mode =
      Mode.undefinedBehaviour ∧
    (deliver untrackedShell (Notification.sigchld [(300, Status.exited)])).mode = Mode.run ∧
    (deliver untrackedShell (Notification.sigchld [(300, Status.exited)])).jobs =
      untrackedShell.jobs :=
  ⟨reachable_steps _ _ Reachable.start (by decide), by decide, by decide, by decide, by decide,
    by decide, by decide, by decide, by decide⟩

/-! ## The theorems at concrete inputs, continued -/

/-- Claim C13 (amended) at a shell whose job 1 is stopped. -/
theorem logout_refused_witness :
    Reachable (startShell false 100 1 "root".toList [] [] [] []) stoppedShell ∧
    stoppedShell.mode = Mode.run ∧
    parseline "logout\n".toList = some (["logout".toList], 0) ∧
    (∃ j ∈ stoppedShell.jobs, j.state = ST) ∧
    (evalFuel 11 stoppedShell "logout\n".toList 0).mode = Mode.run ∧
    (evalFuel 11 stoppedShell "logout\n".toList 0).kills = stoppedShell.kills ∧
    (evalFuel 11 stoppedShell "logout\n".toList 0).jobs = stoppedShell.jobs :=
  ⟨Reachable.notify _ (Reachable.command 11 _ 200 Reachable.start (by decide)),
    by decide, by decide, by decide,
    (logout_refused false 100 1 "root".toList [] [] [] [] stoppedShell
      (Reachable.notify _ (Reachable.command 11 _ 200 Reachable.start (by decide)))
      (by decide) 10 "logout\n".toList 0 [] 0 (by decide) (by decide)).1,
    (logout_refused false 100 1 "root".toList [] [] [] [] stoppedShell
      (Reachable.notify _ (Reachable.command 11 _ 200 Reachable.start (by decide)))
      (by decide) 10 "logout\n".toList 0 [] 0 (by decide) (by decide)).2.1,
    (logout_refused false 100 1 "root".toList [] [] [] [] stoppedShell
      (Reachable.notify _ (Reachable.command 11 _ 200 Reachable.start (by decide)))
      (by decide) 10 "logout\n".toList 0 [] 0 (by decide) (by decide)).2.2.1⟩

/-- Claim C16 at a shell with two background jobs, for the stop of pid 201. -/
theorem sigchld_reaps_witness :
    Reachable exampleShell (twoJobInputs.foldl step exampleShell) ∧
    ¬ (twoJobInputs.foldl step exampleShell).mode.ended ∧
    getjobpid (twoJobInputs.foldl step exampleShell).jobs 201 = some 1 ∧
    (sigchld_step { twoJobInputs.foldl step exampleShell with mode := Mode.run } 201
      Status.stopped).jobs[1]? = some ⟨201, 2, ST, "/bin/b &\n".toList⟩ ∧
    (sigchld_handler (twoJobInputs.foldl step exampleShell)
      [(201, Status.stopped), (200, Status.signaled 9)]).jobs.map job_t.pid =
      0 :: 201 :: List.replicate 14 0 :=
  ⟨reachable_steps _ _ Reachable.start (by decide), by decide, by decide,
    ((sigchld_reaps false 100 1 "root".toList [] [] [] [] _
      (reachable_steps twoJobInputs _ Reachable.start (by decide)) (by decide)).2 201 1
      ⟨201, 2, BG, "/bin/b &\n".toList⟩ (by decide) (by decide)).1.2.1,
    by decide⟩

/-- Claim C18 at the start: `/bin/ls` as pid 200 fills slot 0 in state `FG` and
the shell waits for it. -/
theorem launch_registers_witness :
    parseline "/bin/ls\n".toList = some (["/bin/ls".toList], 0) ∧
    isBuiltin "/bin/ls".toList = false ∧
    firstIdx (fun j => j.pid == 0) exampleShell.jobs = some 0 ∧
    hasProc exampleShell 200 = false ∧
    (evalFuel 11 exampleShell "/bin/ls\n".toList 200).jobs[0]? =
      some ⟨200, 1, FG, "/bin/ls\n".toList⟩ ∧
    (evalFuel 11 exampleShell "/bin/ls\n".toList 200).mode = Mode.inWaitfg 0 :=
  ⟨by decide, by decide, by decide, by decide,
    (launch_registers false 100 1 "root".toList [] [] [] [] exampleShell Reachable.start
      (by decide) 10 "/bin/ls\n".toList 200 "/bin/ls".toList [] 0 0 (by decide) (by decide)
      (by decide) (by decide) (by decide) (fun _ => by decide)).2.1,
    (launch_registers false 100 1 "root".toList [] [] [] [] exampleShell Reachable.start
      (by decide) 10 "/bin/ls\n".toList 200 "/bin/ls".toList [] 0 0 (by decide) (by decide)
      (by decide) (by decide) (by decide) (fun _ => by decide)).2.2.2.2.1 (by decide)⟩

/-- Claim C19 at a shell waiting for pid 200: the wait ends when `SIGCHLD`
reports that pid 200 exited. -/
theorem waitfg_spec_witness :
    (fgInputs.foldl step exampleShell).mode = Mode.inWaitfg 0 ∧
    (deliver (fgInputs.foldl step exampleShell)
      (Notification.sigchld [(200, Status.exited)])).mode = Mode.run ∧
    ((deliver (fgInputs.foldl step exampleShell) Notification.sigint).mode = Mode.inWaitfg 0 ↔
      ((handler { fgInputs.foldl step exampleShell with mode := Mode.run }
          Notification.sigint).mode = Mode.run ∧
        ((handler { fgInputs.foldl step exampleShell with mode := Mode.run }
          Notification.sigint).jobs.getD 0 clearedJob).state = FG)) :=
  ⟨by decide, by decide,
    ((waitfg_spec false 100 1 "root".toList [] [] [] []).2.2.2.1
      (fgInputs.foldl step exampleShell) Notification.sigint 0 (by decide)).1⟩

/-- Claim C20 at a full table: launching `/bin/job &` as pid 300 prints the
diagnostic and leaves the table alone. -/
theorem launch_table_full_witness :
    Reachable exampleShell (fillInputs.foldl step exampleShell) ∧
    (fillInputs.foldl step exampleShell).mode = Mode.run ∧
    (∀ j ∈ (fillInputs.foldl step exampleShell).jobs, j.pid ≠ 0) ∧
    hasProc (fillInputs.foldl step exampleShell) 300 = false ∧
    (evalFuel 11 (fillInputs.foldl step exampleShell) "/bin/job &\n".toList 300).out =
      (fillInputs.foldl step exampleShell).out ++ [Msg.tooManyJobs] ∧
    (evalFuel 11 (fillInputs.foldl step exampleShell) "/bin/job &\n".toList 300).jobs =
      (fillInputs.foldl step exampleShell).jobs :=
  ⟨reachable_steps _ _ Reachable.start (by decide), by decide, by decide, by decide,
    (launch_table_full false 100 1 "root".toList [] [] [] [] _
      (reachable_steps fillInputs _ Reachable.start (by decide)) (by decide) 10
      "/bin/job &\n".toList 300 "/bin/job".toList [] 1 (by decide) (by decide) (by decide)
      (by decide) (by decide) (fun h => absurd h (by decide))).1,
    (launch_table_full false 100 1 "root".toList [] [] [] [] _
      (reachable_steps fillInputs _ Reachable.start (by decide)) (by decide) 10
      "/bin/job &\n".toList 300 "/bin/job".toList [] 1 (by decide) (by decide) (by decide)
      (by decide) (by decide) (fun h => absurd h (by decide))).2.1⟩

/-! ## The command history -/

/-- The fields `add_history` leaves alone, over a run of calls. -/
theorem add_history_foldl_out (lines : List (List Char)) :
    ∀ s : Shell, (lines.foldl add_history s).out = s.out := by
  induction lines with
  | nil => intro s; rfl
  | cons l ls ih => intro s; rw [List.foldl_cons, ih]; rfl

/-- The history array after the lines `lines` were recorded, one `add_history`
each, starting from the empty history: `history_idx` is the number of lines
modulo 10, each of the last ten lines sits at its number modulo 10, and while
fewer than ten lines were recorded the entries from `history_idx` on are
empty. -/
theorem history_after_adds (s0 : Shell) (h0 : s0.history = List.replicate MAXHISTORY [])
    (hi0 : s0.history_idx = 0) (lines : List (List Char)) :
    (lines.foldl add_history s0).history.length = MAXHISTORY ∧
    (lines.foldl add_history s0).history_idx = lines.length % MAXHISTORY ∧
    (∀ j, j < lines.length → lines.length ≤ j + MAXHISTORY →
      (lines.foldl add_history s0).history.getD (j % MAXHISTORY) [] = lines.getD j []) ∧
    (∀ i, lines.length ≤ i → i < MAXHISTORY →
      (lines.foldl add_history s0).history.getD i [] = []) := by
  induction lines using List.reverseRecOn with
  | nil =>
    refine ⟨by rw [List.foldl_nil, h0]; simp, by rw [List.foldl_nil, hi0]; rfl, ?_, ?_⟩
    · intro j hj; exact absurd hj (by simp)
    · intro i _ hi
      rw [List.foldl_nil, h0, List.getD_eq_getElem?_getD, List.getElem?_replicate]
      simp [hi]
  | append_singleton ls x ih =>
    obtain ⟨a1, a2, a3, a4⟩ := ih
    rw [List.foldl_append, List.foldl_cons, List.foldl_nil]
    generalize ls.foldl add_history s0 = s at a1 a2 a3 a4
    have hlen : (ls ++ [x]).length = ls.length + 1 := by simp
    have hidx : s.history_idx < s.history.length := by
      rw [a1, a2]; exact Nat.mod_lt _ (by decide)
    have hset : ∀ i, (add_history s x).history.getD i [] =
        if i = s.history_idx then x else s.history.getD i [] := by
      intro i
      show (s.history.set s.history_idx x).getD i [] = _
      rw [List.getD_eq_getElem?_getD, List.getElem?_set, List.getD_eq_getElem?_getD]
      by_cases h : s.history_idx = i
      · rw [if_pos h, if_pos h.symm, if_pos (h ▸ hidx)]; rfl
      · rw [if_neg h, if_neg (fun e => h e.symm)]
    refine ⟨?_, ?_, ?_, ?_⟩
    · show (s.history.set s.history_idx x).length = MAXHISTORY
      rw [List.length_set]; exact a1
    · show (s.history_idx + 1) % MAXHISTORY = (ls ++ [x]).length % MAXHISTORY
      rw [hlen, a2]
      show (ls.length % 10 + 1) % 10 = (ls.length + 1) % 10
      omega
    · intro j hj hj2
      rw [hlen] at hj hj2
      rw [hset, a2]
      by_cases hjk : j = ls.length
      · rw [hjk, if_pos rfl]
        simp
      · have hlt : j < ls.length := by omega
        have hne : ¬ (j % MAXHISTORY = ls.length % MAXHISTORY) := by
          show ¬ (j % 10 = ls.length % 10)
          have : ls.length ≤ j + 9 := by
            have : ls.length + 1 ≤ j + 10 := hj2
            omega
          omega
        rw [if_neg hne, a3 j hlt (by omega)]
        rw [List.getD_eq_getElem?_getD, List.getD_eq_getElem?_getD,
          List.getElem?_append_left hlt]
    · intro i hi hi2
      rw [hlen] at hi
      rw [hset, a2]
      have hne : ¬ (i = ls.length % MAXHISTORY) := by
        show ¬ (i = ls.length % 10)
        have : i < 10 := hi2
        omega
      rw [if_neg hne]
      exact a4 i (by omega) hi2

/-- Every pair the history loop lists: its place in the list gives its
number and its index in the array, and the entry is not empty. -/
theorem historyLoop_listed (h : List (List Char)) :
    ∀ (left count start p : Nat) (x : Nat × List Char), start < MAXHISTORY →
      (historyLoop h left count start)[p]? = some x →
      x = (count + p, h.getD ((start + p) % MAXHISTORY) []) ∧ x.2 ≠ [] ∧ p < left := by
  intro left
  induction left with
  | zero =>
    intro count start p x _ hx
    simp [historyLoop] at hx
  | succ left ih =>
    intro count start p x hs hx
    unfold historyLoop at hx
    by_cases he : h.getD start [] = []
    · rw [if_pos he] at hx
      simp at hx
    · rw [if_neg he] at hx
      cases p with
      | zero =>
        simp only [List.getElem?_cons_zero, Option.some.injEq] at hx
        subst hx
        refine ⟨?_, he, by omega⟩
        rw [Nat.add_zero, Nat.add_zero, Nat.mod_eq_of_lt hs]
      | succ p =>
        rw [List.getElem?_cons_succ] at hx
        obtain ⟨a, b, c⟩ := ih (count + 1) ((start + 1) % MAXHISTORY) p x
          (Nat.mod_lt _ (by decide)) hx
        refine ⟨?_, b, by omega⟩
        rw [a]
        have e1 : count + 1 + p = count + (p + 1) := by omega
        have e2 : ((start + 1) % MAXHISTORY + p) % MAXHISTORY = (start + (p + 1)) % MAXHISTORY := by
          show ((start + 1) % 10 + p) % 10 = (start + (p + 1)) % 10
          omega
        rw [e1, e2]

/-- The history loop over an array that holds the entries `f 0, ..., f (m-1)`,
none empty, from index `base` on (modulo 10) and, when `m < 10`, an empty
entry after them: it lists exactly these, numbered from `count`. -/
theorem historyLoop_window (h : List (List Char)) (f : Nat → List Char) (base m : Nat)
    (hm : m ≤ MAXHISTORY)
    (hf : ∀ c, c < m → h.getD ((base + c) % MAXHISTORY) [] = f c ∧ f c ≠ [])
    (he : m < MAXHISTORY → h.getD ((base + m) % MAXHISTORY) [] = []) :
    ∀ (left count : Nat), count ≤ m → count + left = MAXHISTORY →
      historyLoop h left count ((base + count) % MAXHISTORY) =
        (List.range' count (m - count)).map (fun c => (c, f c)) := by
  intro left
  induction left with
  | zero =>
    intro count hc hl
    have : m - count = 0 := by omega
    rw [this]
    rfl
  | succ left ih =>
    intro count hc hl
    unfold historyLoop
    by_cases hcm : count < m
    · obtain ⟨a, b⟩ := hf count hcm
      rw [a, if_neg b]
      have e : m - count = (m - (count + 1)) + 1 := by omega
      rw [e, List.range'_succ, List.map_cons]
      congr 1
      have e2 : ((base + count) % MAXHISTORY + 1) % MAXHISTORY =
          (base + (count + 1)) % MAXHISTORY := by
        show ((base + count) % 10 + 1) % 10 = (base + (count + 1)) % 10
        omega
      rw [e2]
      exact ih (count + 1) (by omega) (by omega)
    · have hcm2 : count = m := by omega
      have hlt : m < MAXHISTORY := by omega
      rw [hcm2, he hlt, if_pos rfl]
      simp


/-- Where `history_start` points after the lines `lines` were recorded from
the empty history: at the oldest of the last ten. -/
theorem history_start_after_adds (s0 : Shell) (h0 : s0.history = List.replicate MAXHISTORY [])
    (hi0 : s0.history_idx = 0) (lines : List (List Char)) (hne : ∀ l ∈ lines, l ≠ []) :
    history_start (lines.foldl add_history s0) =
      (lines.length - min lines.length MAXHISTORY) % MAXHISTORY := by
  obtain ⟨a1, a2, a3, a4⟩ := history_after_adds s0 h0 hi0 lines
  unfold history_start
  rw [a2]
  by_cases hk : lines.length < MAXHISTORY
  · have hk2 : lines.length < 10 := hk
    rw [Nat.mod_eq_of_lt hk, a4 _ (le_refl _) hk, if_pos rfl]
    have : min lines.length MAXHISTORY = lines.length := by
      show min lines.length 10 = lines.length
      omega
    rw [this]
    simp
  · have hk2 : 10 ≤ lines.length := by
      have : ¬ lines.length < 10 := hk
      omega
    have e := a3 (lines.length - MAXHISTORY)
      (by show lines.length - 10 < lines.length; omega)
      (by show lines.length ≤ lines.length - 10 + 10; omega)
    have e2 : (lines.length - MAXHISTORY) % MAXHISTORY = lines.length % MAXHISTORY := by
      show (lines.length - 10) % 10 = lines.length % 10
      omega
    rw [e2] at e
    have hlt : lines.length - MAXHISTORY < lines.length := by
      show lines.length - 10 < lines.length
      omega
    have hnonempty : lines.getD (lines.length - MAXHISTORY) [] ≠ [] := by
      rw [List.getD_eq_getElem?_getD, List.getElem?_eq_getElem hlt]
      exact hne _ (List.getElem_mem _)
    rw [e, if_neg hnonempty]
    have : min lines.length MAXHISTORY = MAXHISTORY := by
      show min lines.length 10 = 10
      omega
    rw [this, e2]

/-- What the history loop lists after the lines `lines` were recorded from the
empty history: the last `min k 10` of them, oldest first, numbered from 0. -/
theorem historyLoop_after_adds (s0 : Shell) (h0 : s0.history = List.replicate MAXHISTORY [])
    (hi0 : s0.history_idx = 0) (lines : List (List Char)) (hne : ∀ l ∈ lines, l ≠ []) :
    historyLoop (lines.foldl add_history s0).history MAXHISTORY 0
        (history_start (lines.foldl add_history s0)) =
      (List.range' 0 (min lines.length MAXHISTORY)).map
        (fun c => (c, lines.getD (lines.length - min lines.length MAXHISTORY + c) [])) := by
  obtain ⟨a1, a2, a3, a4⟩ := history_after_adds s0 h0 hi0 lines
  rw [history_start_after_adds s0 h0 hi0 lines hne]
  have hmin : min lines.length MAXHISTORY ≤ MAXHISTORY := Nat.min_le_right _ _
  have hmin2 : min lines.length MAXHISTORY ≤ lines.length := Nat.min_le_left _ _
  have key := historyLoop_window (lines.foldl add_history s0).history
    (fun c => lines.getD (lines.length - min lines.length MAXHISTORY + c) [])
    (lines.length - min lines.length MAXHISTORY) (min lines.length MAXHISTORY) hmin
    (by
      intro c hc
      have hlt : lines.length - min lines.length MAXHISTORY + c < lines.length := by omega
      refine ⟨a3 _ hlt (by omega), ?_⟩
      show lines.getD _ [] ≠ []
      rw [List.getD_eq_getElem?_getD, List.getElem?_eq_getElem hlt]
      exact hne _ (List.getElem_mem _))
    (by
      intro hlt
      have hk : lines.length < MAXHISTORY := by
        rcases Nat.lt_or_ge lines.length MAXHISTORY with h | h
        · exact h
        · rw [Nat.min_eq_right h] at hlt
          exact absurd hlt (lt_irrefl _)
      rw [Nat.min_eq_left (le_of_lt hk), Nat.sub_self, Nat.zero_add, Nat.mod_eq_of_lt hk]
      exact a4 _ (le_refl _) hk)
    MAXHISTORY 0 (Nat.zero_le _) (Nat.zero_add _)
  rw [Nat.add_zero, Nat.sub_zero] at key
  exact key

/-- Claim C25. Start from an empty history (`history_idx = 0`, every entry
empty) and record the non-empty lines `lines`, `k` of them, with one
`add_history` each.  Then `list_history` prints exactly the last `min k 10`
of these lines, oldest first, numbered 1, 2, ..., `min k 10`, and nothing
else. -/
theorem list_history_recent (s0 : Shell) (h0 : s0.history = List.replicate MAXHISTORY [])
    (hi0 : s0.history_idx = 0) (lines : List (List Char)) (hne : ∀ l ∈ lines, l ≠ []) :
    (list_history (lines.foldl add_history s0)).out =
      s0.out ++ (List.enumFrom 1 (lines.drop (lines.length - min lines.length 10))).map
        (fun p => Msg.historyLine p.1 p.2) ∧
    (lines.drop (lines.length - min lines.length 10)).length = min lines.length 10 := by
  constructor
  · unfold list_history
    simp only []
    rw [historyLoop_after_adds s0 h0 hi0 lines hne, add_history_foldl_out, List.map_map]
    congr 1
    apply List.ext_getElem?
    intro n
    simp only [List.getElem?_map, List.getElem?_range', List.getElem?_enumFrom,
      List.getElem?_drop, Function.comp]
    by_cases hn : n < min lines.length MAXHISTORY
    · have hn2 : lines.length - min lines.length 10 + n < lines.length := by
        have : min lines.length MAXHISTORY ≤ lines.length := Nat.min_le_left _ _
        have : n < min lines.length 10 := hn
        omega
      rw [List.getElem?_range' 0 1 hn, List.getElem?_eq_getElem hn2]
      simp only [Option.map_some', List.getD_eq_getElem?_getD]
      rw [show (0 + 1 * n) = n by omega]
      show some (Msg.historyLine (n + 1)
        (lines[lines.length - min lines.length 10 + n]?.getD [])) = _
      rw [List.getElem?_eq_getElem hn2, Option.getD_some, Nat.add_comm n 1]
    · have hn2 : lines.length ≤ lines.length - min lines.length 10 + n := by
        have : ¬ n < min lines.length 10 := hn
        omega
      rw [List.getElem?_eq_none hn2, List.getElem?_eq_none (by rw [List.length_range']; omega)]
      rfl
  · rw [List.length_drop]
    have : min lines.length 10 ≤ lines.length := Nat.min_le_left _ _
    omega

theorem history_start_le (s : Shell) : history_start s ≤ s.history_idx := by
  unfold history_start
  split <;> omega

/-- The entry `nth_history(n)` returns is the one the history loop lists in
place `n`, counting from 1. -/
theorem nth_history_listed {s : Shell} (hi : s.history_idx < MAXHISTORY) {p : Nat}
    {x : Nat × List Char}
    (hx : (historyLoop s.history MAXHISTORY 0 (history_start s))[p]? = some x) :
    nth_history s ((p : Int) + 1) = some x.2 ∧ x.2 ≠ [] ∧ x.1 = p ∧ p < MAXHISTORY := by
  have hs : history_start s < MAXHISTORY := lt_of_le_of_lt (history_start_le s) hi
  obtain ⟨a, b, c⟩ := historyLoop_listed s.history MAXHISTORY 0 (history_start s) p x hs hx
  refine ⟨?_, b, by rw [a]; simp, c⟩
  unfold nth_history
  simp only []
  have e : (history_start s : Int) + ((p : Int) + 1) - 1 = ((history_start s + p : Nat) : Int) := by
    push_cast
    omega
  rw [e, ← Int.ofNat_tmod]
  rw [if_neg (by omega)]
  rw [a]
  rfl

/-- The function `builtin_cmd` on a first word that starts with `!`. -/
theorem builtin_cmd_replay (ev : Shell → List Char → Shell) (s : Shell) (t : List Char)
    (args : List (List Char)) :
    builtin_cmd ev s (('!' :: t) :: args) = (1, nth_cmd ev s (('!' :: t) :: args)) := by
  have e1 : ¬ ('!' :: t = "bg".toList ∨ '!' :: t = "fg".toList) := by
    intro h
    rcases h with h | h <;> exact absurd (List.cons.inj h).1 (by decide)
  have e2 : ¬ ('!' :: t = "jobs".toList) := fun h => absurd (List.cons.inj h).1 (by decide)
  have e3 : ¬ ('!' :: t = "adduser".toList) := fun h => absurd (List.cons.inj h).1 (by decide)
  have e4 : ¬ ('!' :: t = "history".toList) := fun h => absurd (List.cons.inj h).1 (by decide)
  unfold builtin_cmd
  simp only [List.headD_cons]
  rw [if_neg e1, if_neg e2, if_neg e3, if_neg e4]
  exact if_pos rfl

/-- A line `!n`: `eval` does not record it; it evaluates the entry the history
loop lists in place `n`. -/
theorem evalFuel_replay (fuel : Nat) (s : Shell) (cmdline : List Char) (forkpid : Int)
    {t : List Char} {args : List (List Char)} {bg : Int}
    (hp : parseline cmdline = some (('!' :: t) :: args, bg))
    (hi : s.history_idx < MAXHISTORY) {p : Nat} (ht : atoi t = (p : Int) + 1)
    {x : Nat × List Char}
    (hx : (historyLoop s.history MAXHISTORY 0 (history_start s))[p]? = some x) :
    evalFuel (fuel + 1) s cmdline forkpid = evalFuel fuel s x.2 forkpid := by
  obtain ⟨a, b, -, c⟩ := nth_history_listed hi hx
  have hbang : ¬ (('!' :: t).head? ≠ some '!') := by simp
  rw [evalFuel_succ fuel s cmdline forkpid hp, builtin_cmd_replay, if_neg hbang,
    if_neg one_ne_zero_int]
  unfold nth_cmd
  simp only [List.headD_cons, List.tail_cons]
  have hle : ¬ atoi t > (MAXHISTORY : Int) := by
    rw [ht]
    have : (p : Int) < 10 := by exact_mod_cast c
    show ¬ ((p : Int) + 1 > 10)
    omega
  rw [if_neg hle, ht, a]
  simp only []
  rw [if_neg b]


/-- Claim C24 fails as stated. After the lines `/bin/a &` and `/bin/b &` were
evaluated, `history` lists them under 1 and 2, and `!1` makes `eval` call
itself on `/bin/a &`, the oldest stored entry: the job it launches carries
that command line.  The most recent entry is `/bin/b &`, and evaluating that
one gives another state. -/
theorem history_replay_counterexample :
    (list_history twoLineShell).out = twoLineShell.out ++
      [Msg.historyLine 1 "/bin/a &\n".toList, Msg.historyLine 2 "/bin/b &\n".toList] ∧
    parseline "!1\n".toList = some (["!1".toList], 0) ∧ atoi "1".toList = 1 ∧
    nth_history twoLineShell 1 = some "/bin/a &\n".toList ∧
    evalFuel 11 twoLineShell "!1\n".toList 202 =
      evalFuel 10 twoLineShell "/bin/a &\n".toList 202 ∧
    (evalFuel 11 twoLineShell "!1\n".toList 202).jobs[2]? =
      some ⟨202, 3, BG, "/bin/a &\n".toList⟩ ∧
    evalFuel 11 twoLineShell "!1\n".toList 202 ≠
      evalFuel 10 twoLineShell "/bin/b &\n".toList 202 := by
  refine ⟨by decide, by decide, by decide, by decide, by decide, by decide, ?_⟩
  intro h
  have h2 := congrArg (fun s => s.jobs[2]?) h
  revert h2
  decide

/-- Claim C24, as amended. Let the history array of `s` be what recording the
non-empty lines `lines` (one `add_history` each, from the empty history)
leaves, let `k` be their number and `1 <= n <= min k 10`.  Then a line whose
first word is `!n` makes `eval` call itself on the entry that `list_history`
prints under number `n`, which is line `k - min k 10 + n` of `lines`: the
`n`-th oldest of the stored entries.  (The line `!n` itself is not
recorded.) -/
theorem history_replay (s0 : Shell) (h0 : s0.history = List.replicate MAXHISTORY [])
    (hi0 : s0.history_idx = 0) (lines : List (List Char)) (hne : ∀ l ∈ lines, l ≠ [])
    (s : Shell) (hs : s.history = (lines.foldl add_history s0).history)
    (hsi : s.history_idx = (lines.foldl add_history s0).history_idx)
    (n : Nat) (h1 : 1 ≤ n) (hn : n ≤ min lines.length 10)
    (fuel : Nat) (cmdline : List Char) (forkpid : Int) (t : List Char)
    (args : List (List Char)) (bg : Int)
    (hp : parseline cmdline = some (('!' :: t) :: args, bg))
    (ht : atoi t = (n : Int)) :
    (historyLoop s.history MAXHISTORY 0 (history_start s))[n - 1]? =
      some (n - 1, lines.getD (lines.length - min lines.length 10 + (n - 1)) []) ∧
    nth_history s n = some (lines.getD (lines.length - min lines.length 10 + (n - 1)) []) ∧
    evalFuel (fuel + 1) s cmdline forkpid =
      evalFuel fuel s (lines.getD (lines.length - min lines.length 10 + (n - 1)) []) forkpid := by
  obtain ⟨-, a2, -, -⟩ := history_after_adds s0 h0 hi0 lines
  have hidx : s.history_idx < MAXHISTORY := by
    rw [hsi, a2]
    exact Nat.mod_lt _ (by decide)
  have hstart : history_start s = history_start (lines.foldl add_history s0) := by
    unfold history_start
    rw [hs, hsi]
  have hlist : (historyLoop s.history MAXHISTORY 0 (history_start s))[n - 1]? =
      some (n - 1, lines.getD (lines.length - min lines.length 10 + (n - 1)) []) := by
    rw [hstart, hs, historyLoop_after_adds s0 h0 hi0 lines hne, List.getElem?_map,
      List.getElem?_range' 0 1 (show n - 1 < min lines.length MAXHISTORY by
        have : n ≤ min lines.length MAXHISTORY := hn
        omega)]
    simp
  have hn1 : ((n - 1 : Nat) : Int) + 1 = (n : Int) := by omega
  obtain ⟨b, -, -, -⟩ := nth_history_listed hidx hlist
  rw [hn1] at b
  exact ⟨hlist, b, evalFuel_replay fuel s cmdline forkpid hp hidx (ht.trans hn1.symm) hlist⟩

/-- The index `nth_history` computes, with C's remainder. -/
theorem tmod_index_range (a : Int) :
    (0 ≤ a → 0 ≤ Int.tmod a 10 ∧ Int.tmod a 10 < 10) ∧
    (a < 0 → ¬ (10 : Int) ∣ a → Int.tmod a 10 < 0) := by
  constructor
  · intro h
    exact ⟨Int.tmod_nonneg _ h, Int.tmod_lt_of_pos _ (by decide)⟩
  · intro h hd
    have h1 : Int.tmod a 10 ≤ 0 := by
      cases a with
      | ofNat m => exact absurd h (by simp)
      | negSucc m =>
        show -(((m + 1) % 10 : Nat) : Int) ≤ 0
        omega
    have h2 : Int.tmod a 10 ≠ 0 := by
      intro h0
      apply hd
      have := Int.tmod_add_tdiv a 10
      exact ⟨a.tdiv 10, by omega⟩
    omega

/-- Claim C28, the code at a failing input. At start-up, with the history
empty, the line `!0` passes the one test `nth_cmd` makes (`0 > 10` is false)
and `nth_history(0)` computes the index `(0 + 0 - 1) % 10`, which is `-1` with
C's remainder: `history[-1]` is read, outside the array.  In general the
index is negative whenever `start + n - 1` is negative and no multiple of 10,
and `nth_cmd` then reads outside the array on every first word `!n` with
such an `n`; for `n >= 1` the index does lie in `[0, 10)`. -/
theorem nth_history_index_unsafe :
    parseline "!0\n".toList = some (["!0".toList], 0) ∧ atoi "0".toList = 0 ∧
    ¬ ((0 : Int) > (MAXHISTORY : Int)) ∧
    history_start exampleShell = 0 ∧
    Int.tmod ((history_start exampleShell : Int) + 0 - 1) (MAXHISTORY : Int) = -1 ∧
    nth_history exampleShell 0 = none ∧
    (evalFuel 11 exampleShell "!0\n".toList 0).mode = Mode.undefinedBehaviour ∧
    (∀ (s : Shell) (n : Int), (history_start s : Int) + n - 1 < 0 →
      ¬ (10 : Int) ∣ (history_start s : Int) + n - 1 →
      Int.tmod ((history_start s : Int) + n - 1) (MAXHISTORY : Int) < 0 ∧
      nth_history s n = none ∧
      ∀ (ev : Shell → List Char → Shell) (arg0 : List Char), atoi arg0.tail = n →
        (nth_cmd ev s [arg0]).mode = Mode.undefinedBehaviour) ∧
    (∀ (s : Shell) (n : Int), 1 ≤ n →
      0 ≤ Int.tmod ((history_start s : Int) + n - 1) (MAXHISTORY : Int) ∧
      Int.tmod ((history_start s : Int) + n - 1) (MAXHISTORY : Int) < (MAXHISTORY : Int)) := by
  refine ⟨by decide, by decide, by decide, by decide, by decide, by decide, by decide, ?_, ?_⟩
  · intro s n h1 h2
    have h := (tmod_index_range ((history_start s : Int) + n - 1)).2 h1 h2
    have hn : nth_history s n = none := by
      unfold nth_history
      exact if_pos h
    refine ⟨h, hn, ?_⟩
    intro ev arg0 ha
    have hle : ¬ n > (MAXHISTORY : Int) := by
      have := history_start_le s
      omega
    unfold nth_cmd
    simp only [List.headD_cons]
    rw [ha, if_neg hle, hn]
  · intro s n h1
    exact (tmod_index_range ((history_start s : Int) + n - 1)).1 (by omega)

/-! ## Parsing a line -/

/-- The C `strchr` finds the first space right after a run of other
characters. -/
theorem strchr_space_append (t r : List Char) (ht : ' ' ∉ t) :
    strchr ' ' (t ++ ' ' :: r) = some (t, r) := by
  induction t with
  | nil => simp [strchr]
  | cons c t ih =>
    have hc : c ≠ ' ' := fun h => ht (by rw [h]; exact List.mem_cons_self _ _)
    have ht2 : ' ' ∉ t := fun h => ht (List.mem_cons_of_mem _ h)
    rw [List.cons_append, strchr, if_neg hc, ih ht2]
    rfl

/-- The loop that skips spaces never makes the buffer longer. -/
theorem skipSpaces_length_le (l : List Char) : (skipSpaces l).length ≤ l.length := by
  induction l with
  | nil => simp [skipSpaces]
  | cons c l ih =>
    unfold skipSpaces
    split
    · simp only [List.length_cons]; omega
    · exact le_refl _

/-- The token loop stops at once on an empty buffer. -/
theorem parseArgs_nil (fuel : Nat) : parseArgs fuel [] = [] := by
  cases fuel with
  | zero => rfl
  | succ f => simp [parseArgs, strchr]

/-- One round of the token loop on a buffer that starts with a character other
than the space and the quote and holds a space later on. -/
theorem parseArgs_token (fuel : Nat) (c : Char) (t r : List Char) (hq : c ≠ '\'')
    (hc : c ≠ ' ') (ht : ' ' ∉ t) :
    parseArgs (fuel + 1) (c :: t ++ ' ' :: r) = (c :: t) :: parseArgs fuel (skipSpaces r) := by
  have hs : strchr ' ' (c :: t ++ ' ' :: r) = some (c :: t, r) :=
    strchr_space_append (c :: t) r (by
      intro h
      rcases List.mem_cons.1 h with h | h
      · exact hc h.symm
      · exact ht h)
  rw [parseArgs]
  split
  · rename_i heq
    rw [hs] at heq
    exact absurd heq (by simp)
  · rename_i tok rest heq
    rw [hs] at heq
    obtain ⟨h1, h2⟩ := Prod.mk.inj (Option.some.inj heq)
    rw [← h1, ← h2]
  · intro r1 h
    exact hq (List.cons.inj h).1

/-- A line either has no space or splits at its first space. -/
theorem first_space_cases (l : List Char) :
    ' ' ∉ l ∨ ∃ t r : List Char, ' ' ∉ t ∧ l = t ++ ' ' :: r := by
  induction l with
  | nil => exact Or.inl (by simp)
  | cons c l ih =>
    by_cases hc : c = ' '
    · exact Or.inr ⟨[], l, by simp, by rw [hc]; rfl⟩
    · rcases ih with h | ⟨t, r, ht, hl⟩
      · left
        intro hm
        rcases List.mem_cons.1 hm with h2 | h2
        · exact hc h2.symm
        · exact h h2
      · right
        refine ⟨c :: t, r, ?_, by rw [hl]; rfl⟩
        intro hm
        rcases List.mem_cons.1 hm with h2 | h2
        · exact hc h2.symm
        · exact ht h2

/-- The token loop of `parseline`, run on a line without quotes followed by a
space, yields the maximal runs of non-space characters of the line. -/
theorem parseArgs_eq_runs (n : Nat) :
    ∀ (l : List Char), l.length ≤ n → '\'' ∉ l → ∀ fuel : Nat,
      (skipSpaces (l ++ [' '])).length < fuel →
      parseArgs fuel (skipSpaces (l ++ [' '])) = nonSpaceRuns l := by
  induction n with
  | zero =>
    intro l hl _ fuel _
    have : l = [] := List.length_eq_zero.1 (by omega)
    subst this
    show parseArgs fuel (skipSpaces [' ']) = _
    have e : skipSpaces [' '] = [] := by simp [skipSpaces]
    rw [e, parseArgs_nil]
    rfl
  | succ n ih =>
    intro l hl hq fuel hfuel
    rcases first_space_cases l with hns | ⟨t, r, ht, hlr⟩
    · -- no space in the line: it is one word, or empty
      cases l with
      | nil =>
        have e : skipSpaces ([] ++ [' ']) = [] := by simp [skipSpaces]
        rw [e, parseArgs_nil]
        rfl
      | cons c l =>
        have hc : c ≠ ' ' := fun h => hns (by rw [h]; exact List.mem_cons_self _ _)
        have hl2 : ' ' ∉ l := fun h => hns (List.mem_cons_of_mem _ h)
        have hcq : c ≠ '\'' := fun h => hq (by rw [h]; exact List.mem_cons_self _ _)
        have e : skipSpaces (c :: l ++ [' ']) = c :: l ++ [' '] := by
          rw [List.cons_append, skipSpaces, if_neg hc]
        rw [e] at hfuel ⊢
        cases fuel with
        | zero => exact absurd hfuel (by simp)
        | succ f =>
          rw [parseArgs_token f c l [] hcq hc hl2]
          have e2 : skipSpaces [] = [] := rfl
          rw [e2, parseArgs_nil]
          unfold nonSpaceRuns List.splitOn
          rw [List.splitOnP_eq_single]
          · simp
          · intro x hx
            have : x ≠ ' ' := fun h => hns (h ▸ hx)
            simpa using this
    · -- the line splits at its first space
      have hrq : '\'' ∉ r := fun h => hq (by rw [hlr]; simp [h])
      have hrlen : r.length ≤ n := by
        rw [hlr] at hl
        simp only [List.length_append, List.length_cons] at hl
        omega
      have hsplit : l.splitOn ' ' = t :: r.splitOn ' ' := by
        unfold List.splitOn
        rw [hlr]
        apply List.splitOnP_first
        · intro x hx
          have : x ≠ ' ' := fun h => ht (h ▸ hx)
          simpa using this
        · simp
      cases t with
      | nil =>
        have e : skipSpaces (l ++ [' ']) = skipSpaces (r ++ [' ']) := by
          rw [hlr]
          show skipSpaces (' ' :: (r ++ [' '])) = _
          rw [skipSpaces, if_pos rfl]
        rw [e] at hfuel ⊢
        rw [ih r hrlen hrq fuel hfuel]
        unfold nonSpaceRuns
        rw [hsplit]
        simp
      | cons c t =>
        have hc : c ≠ ' ' := fun h => ht (by rw [h]; exact List.mem_cons_self _ _)
        have ht2 : ' ' ∉ t := fun h => ht (List.mem_cons_of_mem _ h)
        have hcq : c ≠ '\'' := fun h => hq (by rw [hlr, h]; simp)
        have e : skipSpaces (l ++ [' ']) = c :: t ++ ' ' :: (r ++ [' ']) := by
          rw [hlr]
          show skipSpaces (c :: (t ++ ' ' :: r ++ [' '])) = _
          rw [skipSpaces, if_neg hc]
          simp
        rw [e] at hfuel ⊢
        cases fuel with
        | zero => exact absurd hfuel (by simp)
        | succ f =>
          rw [parseArgs_token f c t (r ++ [' ']) hcq hc ht2]
          have hf : (skipSpaces (r ++ [' '])).length < f := by
            have := skipSpaces_length_le (r ++ [' '])
            simp only [List.length_append, List.length_cons, List.length_nil] at hfuel this
            omega
          rw [ih r hrlen hrq f hf]
          unfold nonSpaceRuns
          rw [hsplit]
          simp

/-- What `parseline` does on a line that fits `array[MAXLINE]` and has no
quote: with `MAXARGS` runs or more it overruns `argv`, otherwise it returns
the runs, without the last one when that starts with `&`. -/
theorem parseline_eq (body : List Char) (hq : '\'' ∉ body)
    (hlen : body.length + 1 < MAXLINE) :
    parseline (body ++ ['\n']) =
      if MAXARGS ≤ (nonSpaceRuns body).length then none
      else
        match (nonSpaceRuns body).getLast? with
        | none => some ([], (1 : Int))
        | some last =>
          if last.head? = some '&' then some ((nonSpaceRuns body).dropLast, (1 : Int))
          else some (nonSpaceRuns body, (0 : Int)) := by
  have h1 : ¬ (body ++ ['\n'] = [] ∨ MAXLINE ≤ (body ++ ['\n']).length) := by
    rw [List.length_append]
    simp only [List.append_eq_nil, List.cons_ne_nil, and_false, false_or, List.length_cons,
      List.length_nil]
    omega
  unfold parseline
  rw [if_neg h1]
  simp only [List.dropLast_concat]
  rw [parseArgs_eq_runs body.length body (le_refl _) hq _ (Nat.lt_succ_self _)]

/-- The runs of a line of `n` words `a`. -/
theorem nonSpaceRuns_wordsLine (n : Nat) : nonSpaceRuns (wordsLine n) = List.replicate n ['a'] := by
  induction n with
  | zero => rfl
  | succ n ih =>
    have hsplit : (wordsLine (n + 1)).splitOn ' ' = ['a'] :: (wordsLine n).splitOn ' ' := by
      unfold List.splitOn
      show List.splitOnP (· == ' ') (['a'] ++ ' ' :: wordsLine n) = _
      apply List.splitOnP_first
      · intro x hx
        rw [List.mem_singleton.1 hx]
        decide
      · rfl
    unfold nonSpaceRuns at ih ⊢
    rw [hsplit, List.filter_cons_of_pos (by rfl), ih]
    rfl

/-- A line of `n` words `a`: its length, and no quote in it. -/
theorem wordsLine_facts (n : Nat) : (wordsLine n).length = 2 * n ∧ '\'' ∉ wordsLine n := by
  induction n with
  | zero => exact ⟨rfl, by simp [wordsLine]⟩
  | succ n ih =>
    have e : wordsLine (n + 1) = 'a' :: ' ' :: wordsLine n := rfl
    rw [e]
    refine ⟨by simp only [List.length_cons, ih.1]; omega, ?_⟩
    intro h
    rcases List.mem_cons.1 h with h1 | h1
    · exact absurd h1 (by decide)
    · rcases List.mem_cons.1 h1 with h2 | h2
      · exact absurd h2 (by decide)
      · exact ih.2 h2

/-- Claim C26, the code at a failing input, and the lines on which the claim
holds. The line of 128 words `a`, 257 characters with its newline, ends in a
newline and has no single quote, and `fgets` reads it whole; its runs of
non-space characters are the 128 words.  On it `parseline` stores 128
pointers and then the closing `NULL` in `argv[128]`, past the `argv[MAXARGS]`
of `eval`: the result is undefined, and so is the rest of `eval`.  In
general, for a line `body` followed by a newline that fits `array[MAXLINE]`,
with no single quote in `body`: with `MAXARGS` runs or more `parseline`
overruns `argv`; with fewer runs it does what the claim says.  If there is no
run (a blank line), it returns no word and the flag 1.  If the last run
starts with `&`, it returns the runs without that last one and the flag 1.
Otherwise it returns exactly the runs and the flag 0.  So the flag is nonzero
exactly when the line is blank or the last run starts with `&`. -/
theorem parseline_argv_overrun :
    (wordsLine 128 ++ ['\n']).length = 257 ∧ '\'' ∉ wordsLine 128 ∧
    nonSpaceRuns (wordsLine 128) = List.replicate 128 ['a'] ∧
    parseline (wordsLine 128 ++ ['\n']) = none ∧
    (evalFuel 11 exampleShell (wordsLine 128 ++ ['\n']) 200).mode = Mode.undefinedBehaviour ∧
    parseline (wordsLine 127 ++ ['\n']) = some (List.replicate 127 ['a'], 0) ∧
    (∀ body : List Char, '\'' ∉ body → body.length + 1 < MAXLINE →
      (MAXARGS ≤ (nonSpaceRuns body).length → parseline (body ++ ['\n']) = none) ∧
      ((nonSpaceRuns body).length < MAXARGS →
        (nonSpaceRuns body = [] → parseline (body ++ ['\n']) = some ([], 1)) ∧
        (∀ last, (nonSpaceRuns body).getLast? = some last → last.head? = some '&' →
          parseline (body ++ ['\n']) = some ((nonSpaceRuns body).dropLast, 1)) ∧
        (∀ last, (nonSpaceRuns body).getLast? = some last → last.head? ≠ some '&' →
          parseline (body ++ ['\n']) = some (nonSpaceRuns body, 0)) ∧
        ∃ (argv : List (List Char)) (bg : Int), parseline (body ++ ['\n']) = some (argv, bg) ∧
          (bg ≠ 0 ↔
            (nonSpaceRuns body = [] ∨
              ∃ last, (nonSpaceRuns body).getLast? = some last ∧
                last.head? = some '&')))) := by
  have hq : '\'' ∉ wordsLine 128 := (wordsLine_facts 128).2
  have hlen : (wordsLine 128 ++ ['\n']).length = 257 := by
    rw [List.length_append, (wordsLine_facts 128).1]
    rfl
  have hnone : parseline (wordsLine 128 ++ ['\n']) = none := by
    rw [parseline_eq _ hq (by rw [(wordsLine_facts 128).1]; decide), nonSpaceRuns_wordsLine,
      List.length_replicate]
    exact if_pos (by decide)
  refine ⟨hlen, hq, nonSpaceRuns_wordsLine 128, hnone, ?_, ?_, ?_⟩
  · rw [evalFuel, hnone]
  · have hlast : (List.replicate 127 ['a']).getLast? = some ['a'] := by
      rw [show (127 : Nat) = 126 + 1 from rfl, List.replicate_succ', List.getLast?_concat]
    rw [parseline_eq _ (wordsLine_facts 127).2 (by rw [(wordsLine_facts 127).1]; decide),
      nonSpaceRuns_wordsLine, List.length_replicate, if_neg (by decide), hlast]
    rfl
  · intro body hq hlen
    have key := parseline_eq body hq hlen
    constructor
    · intro h
      rw [key, if_pos h]
    · intro h
      rw [if_neg (by omega)] at key
      refine ⟨?_, ?_, ?_, ?_⟩
      · intro h0
        rw [key, h0]
        rfl
      · intro last hl ha
        rw [key, hl]
        exact if_pos ha
      · intro last hl ha
        rw [key, hl]
        exact if_neg ha
      · rw [key]
        cases hg : (nonSpaceRuns body).getLast? with
        | none =>
          have : nonSpaceRuns body = [] := List.getLast?_eq_none_iff.1 hg
          exact ⟨[], 1, rfl, by simp [this]⟩
        | some last =>
          have hne : nonSpaceRuns body ≠ [] := by
            intro h0
            rw [h0] at hg
            simp at hg
          by_cases ha : last.head? = some '&'
          · exact ⟨(nonSpaceRuns body).dropLast, 1, if_pos ha, by simp [ha]⟩
          · exact ⟨nonSpaceRuns body, 0, if_neg ha, by simp [ha, hne]⟩

/-! ## The frame of `addjob` -/

/-- Claim C27. When `addjob` returns 1, there is a slot `i` that had `pid = 0`
before the call while every slot below `i` was occupied; after the call slot
`i` holds the given pid, state and command line with the job id `nextjid`
had before the call; every other slot is unchanged and the table has the
same length; and `nextjid` is its old value plus 1, or 1 if that exceeds
16. -/
theorem addjob_fills_first_free (s : Shell) (pid state : Int) (cmdline : List Char)
    (h : (addjob s pid state cmdline).1 = 1) :
    ∃ i : Nat, i < s.jobs.length ∧
      (∃ j, s.jobs[i]? = some j ∧ j.pid = 0) ∧
      (∀ (k : Nat) (j : job_t), k < i → s.jobs[k]? = some j → j.pid ≠ 0) ∧
      (addjob s pid state cmdline).2.jobs[i]? =
        some { pid := pid, jid := s.nextjid, state := state, cmdline := cmdline } ∧
      (∀ k, k ≠ i → (addjob s pid state cmdline).2.jobs[k]? = s.jobs[k]?) ∧
      (addjob s pid state cmdline).2.jobs.length = s.jobs.length ∧
      (addjob s pid state cmdline).2.nextjid =
        (if s.nextjid + 1 > 16 then 1 else s.nextjid + 1) := by
  obtain ⟨-, i, hf, hi, hj, hn⟩ := addjob_success h
  obtain ⟨⟨j, hj0, hp⟩, hlt⟩ := (firstIdx_eq_some_iff _ _ _).1 hf
  refine ⟨i, hi, ⟨j, hj0, by simpa using hp⟩, ?_, ?_, ?_, ?_, hn⟩
  · intro k j2 hk hj2
    have := hlt k hk j2 hj2
    simpa using this
  · rw [hj, getElem?_set_slot _ _ _ _ hi, if_pos rfl]
  · intro k hk
    rw [hj, getElem?_set_slot _ _ _ _ hi, if_neg hk]
  · rw [hj]; simp

/-- Claim C27 at a shell whose slot 0 is occupied: `addjob` for pid 201 fills
slot 1 with job id 2. -/
theorem addjob_fills_first_free_witness :
    (addjob stoppedShell 201 BG "/bin/b &\n".toList).1 = 1 ∧
    (addjob stoppedShell 201 BG "/bin/b &\n".toList).2.jobs[1]? =
      some ⟨201, 2, BG, "/bin/b &\n".toList⟩ ∧
    ∃ i : Nat, i < stoppedShell.jobs.length ∧
      (∃ j, stoppedShell.jobs[i]? = some j ∧ j.pid = 0) ∧
      (∀ (k : Nat) (j : job_t), k < i → stoppedShell.jobs[k]? = some j → j.pid ≠ 0) ∧
      (addjob stoppedShell 201 BG "/bin/b &\n".toList).2.jobs[i]? =
        some { pid := 201, jid := stoppedShell.nextjid, state := BG,
               cmdline := "/bin/b &\n".toList } ∧
      (∀ k, k ≠ i →
        (addjob stoppedShell 201 BG "/bin/b &\n".toList).2.jobs[k]? = stoppedShell.jobs[k]?) ∧
      (addjob stoppedShell 201 BG "/bin/b &\n".toList).2.jobs.length =
        stoppedShell.jobs.length ∧
      (addjob stoppedShell 201 BG "/bin/b &\n".toList).2.nextjid =
        (if stoppedShell.nextjid + 1 > 16 then 1 else stoppedShell.nextjid + 1) :=
  ⟨by decide, by decide,
    addjob_fills_first_free stoppedShell 201 BG "/bin/b &\n".toList (by decide)⟩

/-! ## A failed `fork` -/

/-- What `add_proc` does when the record is already there. -/
theorem add_proc_of_hasProc {s : Shell} {pid : Int} (h : hasProc s pid = true)
    (name : List Char) (ppid : Int) (stat : String) :
    add_proc s name pid ppid stat = unix_error s "mkdir error" := by
  unfold add_proc
  rw [if_pos h]

/-- The body of `eval` after a failed `fork` (`pid < 1`) whose value has no
record yet: nothing is printed, the table is as before, and `add_proc` has
made a record for the value `fork` returned. -/
theorem launch_fork_failed {s : Shell} (hm : s.mode = Mode.run) (hc : Core s) (bg pid : Int)
    (argv0 cmdline : List Char) (hneg : pid < 1) (hfresh : hasProc s pid = false)
    (hshell : bg = 0 → hasProc s s.shell_pid = true) :
    (launch s argv0 cmdline bg pid).out = s.out ∧
    (launch s argv0 cmdline bg pid).jobs = s.jobs ∧
    (launch s argv0 cmdline bg pid).nextjid = s.nextjid ∧
    (launch s argv0 cmdline bg pid).kills = s.kills ∧
    (launch s argv0 cmdline bg pid).mode = Mode.run ∧
    hasProc (launch s argv0 cmdline bg pid) pid = true ∧
    (bg = 0 → hasProc (launch s argv0 cmdline bg pid)
      (launch s argv0 cmdline bg pid).shell_pid = true) := by
  obtain ⟨s1, s3, b1, b2, b3, -, -, -, m3, -, j3, n3, o3, k3, p3, q3, hl⟩ :=
    launch_prefix hm hc bg pid argv0 cmdline hfresh hshell
  rw [@addjob_of_lt s1 pid (if bg = 0 then FG else BG) cmdline hneg] at j3 n3 o3
  rw [hl]
  by_cases hbg : bg = 0
  · rw [if_pos hbg]
    have hg : getjobpid s3.jobs pid = none := by
      unfold getjobpid
      rw [if_pos hneg]
    rw [waitfg_of_none hg, seq_of_run _ m3]
    obtain ⟨a1, a2, a3, a4, a5, a6⟩ := change_proc_stat_of_hasProc (q3 hbg) "Rs+"
    obtain ⟨-, -, h | h⟩ := change_proc_stat_spec s3 s3.shell_pid "Rs+"
    · refine ⟨a6.trans (o3.trans b3), a1.trans (j3.trans b1), a5.trans (n3.trans b2),
        a2.trans k3, a3.trans m3, ?_, fun _ => ?_⟩
      · rw [h.2.2]; exact p3
      · rw [h.2.2, a4]; exact q3 hbg
    · rw [q3 hbg] at h
      exact absurd h.2 (by simp)
  · rw [if_neg hbg]
    exact ⟨o3.trans b3, j3.trans b1, n3.trans b2, k3, m3, p3, fun h => absurd h hbg⟩

/-- The body of `eval` when the value `fork` returned has a record already:
`mkdir` fails and `unix_error` ends the shell. -/
theorem launch_record_exists {s : Shell} (hm : s.mode = Mode.run) (bg pid : Int)
    (argv0 cmdline : List Char) (hrec : hasProc s pid = true)
    (hshell : bg = 0 → hasProc s s.shell_pid = true) :
    (launch s argv0 cmdline bg pid).mode = Mode.exited 1 := by
  have hfirst : ∃ s1 : Shell,
      s1 = (if bg = 0 then change_proc_stat s s.shell_pid "Ss" else s) ∧
      s1.mode = Mode.run ∧ hasProc s1 pid = true := by
    by_cases hbg : bg = 0
    · refine ⟨change_proc_stat s s.shell_pid "Ss", by rw [if_pos hbg], ?_⟩
      obtain ⟨-, -, a3, -, -, -⟩ := change_proc_stat_of_hasProc (hshell hbg) "Ss"
      obtain ⟨-, -, h | h⟩ := change_proc_stat_spec s s.shell_pid "Ss"
      · exact ⟨a3.trans hm, by rw [h.2.2]; exact hrec⟩
      · rw [hshell hbg] at h
        exact absurd h.2 (by simp)
    · exact ⟨s, by rw [if_neg hbg], hm, hrec⟩
  obtain ⟨s1, hs1, m1, p1⟩ := hfirst
  obtain ⟨fm, fp, -⟩ := addjob_frame s1 pid (if bg = 0 then FG else BG) cmdline
  have hrec2 : hasProc (addjob s1 pid (if bg = 0 then FG else BG) cmdline).2 pid = true := by
    rw [hasProc_congr fp]
    exact p1
  unfold launch
  simp only []
  rw [← hs1, seq_of_run _ m1, add_proc_of_hasProc hrec2]
  have hne : (unix_error (addjob s1 pid (if bg = 0 then FG else BG) cmdline).2
      "mkdir error").mode ≠ Mode.run := by
    unfold unix_error
    simp
  rw [seq_of_not_run _ hne]
  rfl

/-- Claim C21, the code at a failing input. At start-up `/bin/ls` is typed and
`fork` returns -1: `eval` prints nothing, leaves the job table alone and is
back at the prompt, but `add_proc` has made a record for pid -1; when the
same happens once more, `mkdir` fails and `unix_error` ends the shell.  In
general, in every reachable state at the prompt and for every line whose
first word is no built-in, a negative value from `fork` that has no record
yet is not reported, gets a record, and ends the shell the second time. -/
theorem fork_failure_unhandled :
    parseline "/bin/ls\n".toList = some (["/bin/ls".toList], 0) ∧
    isBuiltin "/bin/ls".toList = false ∧
    exampleShell.mode = Mode.run ∧ hasProc exampleShell (-1) = false ∧
    (evalFuel 11 exampleShell "/bin/ls\n".toList (-1)).out = exampleShell.out ∧
    (evalFuel 11 exampleShell "/bin/ls\n".toList (-1)).jobs = exampleShell.jobs ∧
    (evalFuel 11 exampleShell "/bin/ls\n".toList (-1)).mode = Mode.run ∧
    hasProc (evalFuel 11 exampleShell "/bin/ls\n".toList (-1)) (-1) = true ∧
    (evalFuel 11 (evalFuel 11 exampleShell "/bin/ls\n".toList (-1))
      "/bin/ls\n".toList (-1)).mode = Mode.exited 1 ∧
    (evalFuel 11 (evalFuel 11 exampleShell "/bin/ls\n".toList (-1))
      "/bin/ls\n".toList (-1)).out = [Msg.unixError "mkdir error"] ∧
    ∀ (verbose : Bool) (shell_pid ppid : Int) (username : List Char)
      (procs : List ProcRec) (passwd : List (List Char × List Char))
      (homes histfile : List (List Char)) (s : Shell) (fuel : Nat) (cmdline : List Char)
      (forkpid : Int) (arg0 : List Char) (args : List (List Char)) (bg : Int),
      Reachable (startShell verbose shell_pid ppid username procs passwd homes histfile) s →
      s.mode = Mode.run → parseline cmdline = some (arg0 :: args, bg) →
      isBuiltin arg0 = false → forkpid < 0 → hasProc s forkpid = false →
      (bg = 0 → hasProc s s.shell_pid = true) →
      (evalFuel (fuel + 1) s cmdline forkpid).out = s.out ∧
      (evalFuel (fuel + 1) s cmdline forkpid).jobs = s.jobs ∧
      (evalFuel (fuel + 1) s cmdline forkpid).nextjid = s.nextjid ∧
      (evalFuel (fuel + 1) s cmdline forkpid).mode = Mode.run ∧
      hasProc (evalFuel (fuel + 1) s cmdline forkpid) forkpid = true ∧
      (evalFuel (fuel + 1) (evalFuel (fuel + 1) s cmdline forkpid) cmdline forkpid).mode =
        Mode.exited 1 := by
  refine ⟨by decide, by decide, by decide, by decide, by decide, by decide, by decide,
    by decide, by decide, by decide, ?_⟩
  intro verbose shell_pid ppid username procs passwd homes histfile s fuel cmdline forkpid arg0
    args bg hr hm hparse hnb hneg hfresh hshell
  obtain ⟨hc, -⟩ := reachable_prompt (startShell_inv verbose shell_pid ppid username procs
    passwd homes histfile) hr hm
  have hev := evalFuel_external fuel s cmdline forkpid hparse hnb
  obtain ⟨a1, a2, a3, a4, a5, a6, a7⟩ :=
    launch_fork_failed (s := add_history s cmdline) hm (core_congr rfl rfl (fun _ hq => hq) hc)
      bg forkpid arg0 cmdline (by omega) hfresh hshell
  rw [← hev] at a1 a2 a3 a4 a5 a6 a7
  refine ⟨a1, a2, a3, a5, a6, ?_⟩
  rw [evalFuel_external fuel _ cmdline forkpid hparse hnb]
  exact launch_record_exists (s := add_history _ cmdline) a5 _ _ _ _ a6 a7

/-! ## The dispatcher with its signal mask: the globals are those of `eval` -/

theorem lift_shell (m : Masked) (f : Shell → Shell) : (m.lift f).shell = f m.shell := rfl

/-- Sequencing with the mask: the globals. -/
theorem seqM_shell (m : Masked) (k : Masked → Masked) (s : Shell) (k2 : Shell → Shell)
    (hs : m.shell = s) (h : (k m).shell = k2 s) :
    (m.seq k).shell = s.seq k2 := by
  subst hs
  unfold Masked.seq Shell.seq
  by_cases hm : m.shell.mode = Mode.run
  · rw [if_pos hm, if_pos hm]; exact h
  · rw [if_neg hm, if_neg hm]

/-- The function `waitfg` with the mask: the globals. -/
theorem waitfgM_shell (m : Masked) (pid : Int) : (waitfgM m pid).shell = waitfg m.shell pid := by
  unfold waitfgM Masked.seq
  simp only []
  split <;> rfl

/-- The function `do_bgfg` with the mask: the globals. -/
theorem do_bgfgM_shell (m : Masked) (argv : List (List Char)) :
    (do_bgfgM m argv).shell = do_bgfg m.shell argv noSignals := by
  cases argv with
  | nil => rfl
  | cons cmd tl =>
    cases tl with
    | nil => rfl
    | cons target rest =>
      unfold do_bgfgM do_bgfg
      dsimp only [noSignals, Shell.handling]
      by_cases hr : rest ≠ []
      · rw [if_pos hr, if_pos hr]; rfl
      · rw [if_neg hr, if_neg hr]
        cases hp : pidjid_str2job m.shell.jobs target with
        | none => rfl
        | some job =>
          cases job with
          | none => rfl
          | some i =>
            dsimp only
            by_cases hu : (m.shell.jobs.getD i clearedJob).state = UNDEF
            · rw [if_pos hu, if_pos hu]; rfl
            · rw [if_neg hu, if_neg hu]
              by_cases hfg : cmd = "fg".toList
              · rw [if_pos hfg, if_pos hfg]
                simp only [Masked.seq, Shell.seq, Masked.lift, Masked.tableWrite, waitfgM,
                  Masked.blockAll, Masked.setMask]
                split_ifs <;> rfl
              · rw [if_neg hfg, if_neg hfg]
                by_cases hbg : cmd = "bg".toList
                · rw [if_pos hbg, if_pos hbg]
                  exact seqM_shell _ _ _ _ rfl rfl
                · rw [if_neg hbg, if_neg hbg]

/-- The function `nth_cmd` with the mask: the globals. -/
theorem nth_cmdM_shell (ev : Masked → List Char → Masked) (ev2 : Shell → List Char → Shell)
    (hev : ∀ (m : Masked) (l : List Char), (ev m l).shell = ev2 m.shell l)
    (m : Masked) (argv : List (List Char)) :
    (nth_cmdM ev m argv).shell = nth_cmd ev2 m.shell argv := by
  unfold nth_cmdM nth_cmd
  dsimp only
  split
  · rfl
  · cases nth_history m.shell (atoi (argv.headD []).tail) with
    | none => rfl
    | some cmdline =>
      dsimp only
      split
      · rfl
      · exact hev m cmdline

/-- The function `builtin_cmd` with the mask: the return value and the
globals. -/
theorem builtin_cmdM_shell (ev : Masked → List Char → Masked) (ev2 : Shell → List Char → Shell)
    (hev : ∀ (m : Masked) (l : List Char), (ev m l).shell = ev2 m.shell l)
    (m : Masked) (argv : List (List Char)) :
    (builtin_cmdM ev m argv).1 = (builtin_cmd ev2 m.shell argv).1 ∧
    (builtin_cmdM ev m argv).2.shell = (builtin_cmd ev2 m.shell argv).2 := by
  unfold builtin_cmdM builtin_cmd
  dsimp only
  split
  · exact ⟨rfl, do_bgfgM_shell m argv⟩
  · split
    · exact ⟨rfl, rfl⟩
    · split
      · exact ⟨rfl, rfl⟩
      · split
        · exact ⟨rfl, rfl⟩
        · split
          · exact ⟨rfl, nth_cmdM_shell ev ev2 hev m argv⟩
          · split
            · exact ⟨rfl, rfl⟩
            · split
              · exact ⟨rfl, rfl⟩
              · exact ⟨rfl, rfl⟩

/-- The launch with the mask: the globals. -/
theorem launchM_shell (m : Masked) (argv0 cmdline : List Char) (bg pid : Int) :
    (launchM m argv0 cmdline bg pid).shell = launch m.shell argv0 cmdline bg pid := by
  unfold launchM launch
  by_cases hbg : bg = 0
  · simp only [Masked.seq, Shell.seq, Masked.lift, Masked.tableWrite, waitfgM,
      Masked.blockAll, Masked.setMask, hbg, if_true]
    split_ifs <;> rfl
  · simp only [Masked.seq, Shell.seq, Masked.lift, Masked.tableWrite, waitfgM,
      Masked.blockAll, Masked.setMask, hbg, if_false]
    split_ifs <;> rfl

/-- The function `eval` with the mask computes the globals `eval` computes. -/
theorem evalFuelM_shell (fuel : Nat) :
    ∀ (m : Masked) (cmdline : List Char) (forkpid : Int),
      (evalFuelM fuel m cmdline forkpid).shell = evalFuel fuel m.shell cmdline forkpid := by
  induction fuel with
  | zero => intro m cmdline forkpid; rfl
  | succ fuel ih =>
    intro m cmdline forkpid
    rw [evalFuelM, evalFuel]
    rcases hp : parseline cmdline with _ | ⟨_ | ⟨arg0, args⟩, bg⟩
    · rfl
    · rfl
    · dsimp only
      have hm1 : (if arg0.head? ≠ some '!' then m.lift fun s => add_history s cmdline
          else m).shell = (if arg0.head? ≠ some '!' then add_history m.shell cmdline
          else m.shell) := by
        split <;> rfl
      generalize (if arg0.head? ≠ some '!' then m.lift fun s => add_history s cmdline
          else m) = m1 at hm1 ⊢
      generalize (if arg0.head? ≠ some '!' then add_history m.shell cmdline
          else m.shell) = s1 at hm1 ⊢
      subst hm1
      obtain ⟨h1, h2⟩ := builtin_cmdM_shell (fun m' l => evalFuelM fuel m' l forkpid)
        (fun s' l => evalFuel fuel s' l forkpid) (fun m' l => ih m' l forkpid) m1 (arg0 :: args)
      rw [h1]
      by_cases h0 : (builtin_cmd (fun s' l => evalFuel fuel s' l forkpid) m1.shell
          (arg0 :: args)).1 = 0
      · rw [if_pos h0, if_pos h0, launchM_shell, h2]
      · rw [if_neg h0, if_neg h0]
        exact h2

/-- Every write to the job table that the launch makes is made with every
signal blocked, whatever the mask was before; the mask is put back when the
launch returns. -/
theorem launchM_writes (m : Masked) (argv0 cmdline : List Char) (bg pid : Int) :
    ∃ l : List Bool, (launchM m argv0 cmdline bg pid).writes = m.writes ++ l ∧
      (∀ b ∈ l, b = true) ∧ l.length ≤ 1 ∧
      (l = [true] ↔ (if bg = 0 then change_proc_stat m.shell m.shell.shell_pid "Ss"
          else m.shell).mode = Mode.run ∧
        (addjob (if bg = 0 then change_proc_stat m.shell m.shell.shell_pid "Ss" else m.shell)
          pid (if bg = 0 then FG else BG) cmdline).1 = 1) := by
  unfold launchM
  by_cases hbg : bg = 0
  · simp only [Masked.seq, Masked.lift, Masked.tableWrite, waitfgM,
      Masked.blockAll, Masked.setMask, hbg, if_true]
    split_ifs <;> first
      | exact ⟨[true], rfl, by simp, by simp, by simp [*]⟩
      | exact ⟨[], by simp, by simp, by simp, by simp [*]⟩
  · simp only [Masked.seq, Masked.lift, Masked.tableWrite, waitfgM,
      Masked.blockAll, Masked.setMask, hbg, if_false]
    split_ifs <;> first
      | exact ⟨[true], rfl, by simp, by simp, by simp [*]⟩
      | exact ⟨[], by simp, by simp, by simp, by simp [*]⟩

/-- The write `job->state = BG` or `job->state = FG` of `do_bgfg` is made under
the mask `do_bgfg` was called with. -/
theorem do_bgfgM_writes (m : Masked) (cmd target : List Char) (i : Nat)
    (hcmd : cmd = "fg".toList ∨ cmd = "bg".toList)
    (hres : pidjid_str2job m.shell.jobs target = some (some i))
    (hst : (m.shell.jobs.getD i clearedJob).state ≠ UNDEF)
    (hm : m.shell.mode = Mode.run)
    (hrec : hasProc m.shell (m.shell.jobs.getD i clearedJob).pid = true)
    (hshell : hasProc m.shell m.shell.shell_pid = true) :
    (do_bgfgM m [cmd, target]).writes = m.writes ++ [m.blocked] := by
  obtain ⟨a1, a2, a3, a4, a5, a6⟩ := change_proc_stat_of_hasProc hrec "R+"
  obtain ⟨b1, b2, b3, b4, b5, b6⟩ := change_proc_stat_of_hasProc hrec "R"
  have hrec2 : hasProc (change_proc_stat m.shell (m.shell.jobs.getD i clearedJob).pid "R+")
      (change_proc_stat m.shell (m.shell.jobs.getD i clearedJob).pid "R+").shell_pid = true := by
    obtain ⟨-, -, h | h⟩ := change_proc_stat_spec m.shell (m.shell.jobs.getD i clearedJob).pid "R+"
    · rw [h.2.2, a4]; exact hshell
    · rw [hrec] at h
      exact absurd h.2 (by simp)
  obtain ⟨c1, c2, c3, c4, c5, c6⟩ := change_proc_stat_of_hasProc hrec2 "Ss"
  unfold do_bgfgM
  dsimp only
  rw [if_neg (by simp), hres]
  dsimp only
  rw [if_neg hst]
  rcases hcmd with hc | hc
  · rw [if_pos hc]
    simp only [Masked.seq, Masked.lift, Masked.tableWrite, waitfgM, Masked.blockAll,
      Masked.setMask]
    rw [if_pos (a3.trans hm), if_pos (c3.trans (a3.trans hm))]
    split_ifs <;> rfl
  · have hnf : ¬ cmd = "fg".toList := by rw [hc]; decide
    rw [if_neg hnf, if_pos hc]
    simp only [Masked.seq, Masked.lift, Masked.tableWrite]
    rw [if_pos (b3.trans hm)]

/-- Claim C22, the code at a failing input. With job 1 (pid 200) stopped, the
lines `bg %1` and `fg %1` are evaluated from the prompt, where no signal is
blocked: the write `job->state = BG`, resp. `job->state = FG`, is made with
the mask not blocking.  A launch, by contrast, makes its write with every
signal blocked and puts the mask back.  In general: `eval` with the mask
computes the globals of `eval`; every table write of a launch is made with
every signal blocked; and the table write of `do_bgfg` on a resolved job is
made under whatever mask `do_bgfg` was called with. -/
theorem bgfg_writes_unblocked :
    stoppedShell.mode = Mode.run ∧
    parseline "bg %1\n".toList = some (["bg".toList, "%1".toList], 0) ∧
    (evalFuelM 11 (atPrompt stoppedShell) "bg %1\n".toList 0).writes = [false] ∧
    (evalFuelM 11 (atPrompt stoppedShell) "bg %1\n".toList 0).shell.jobs[0]? =
      some ⟨200, 1, BG, "/bin/sleep 9 &\n".toList⟩ ∧
    (evalFuelM 11 (atPrompt stoppedShell) "fg %1\n".toList 0).writes = [false] ∧
    (evalFuelM 11 (atPrompt stoppedShell) "fg %1\n".toList 0).shell.jobs[0]? =
      some ⟨200, 1, FG, "/bin/sleep 9 &\n".toList⟩ ∧
    (evalFuelM 11 (atPrompt exampleShell) "/bin/ls &\n".toList 200).writes = [true] ∧
    (evalFuelM 11 (atPrompt exampleShell) "/bin/ls &\n".toList 200).blocked = false ∧
    (∀ (fuel : Nat) (m : Masked) (cmdline : List Char) (forkpid : Int),
      (evalFuelM fuel m cmdline forkpid).shell = evalFuel fuel m.shell cmdline forkpid) ∧
    (∀ (m : Masked) (argv0 cmdline : List Char) (bg pid : Int),
      ∃ l : List Bool, (launchM m argv0 cmdline bg pid).writes = m.writes ++ l ∧
        ∀ b ∈ l, b = true) ∧
    (∀ (m : Masked) (cmd target : List Char) (i : Nat),
      (cmd = "fg".toList ∨ cmd = "bg".toList) →
      pidjid_str2job m.shell.jobs target = some (some i) →
      (m.shell.jobs.getD i clearedJob).state ≠ UNDEF → m.shell.mode = Mode.run →
      hasProc m.shell (m.shell.jobs.getD i clearedJob).pid = true →
      hasProc m.shell m.shell.shell_pid = true →
      (do_bgfgM m [cmd, target]).writes = m.writes ++ [m.blocked]) := by
  refine ⟨by decide, by decide, by decide, by decide, by decide, by decide, by decide,
    by decide, fun fuel m cmdline forkpid => evalFuelM_shell fuel m cmdline forkpid, ?_,
    fun m cmd target i h1 h2 h3 h4 h5 h6 => do_bgfgM_writes m cmd target i h1 h2 h3 h4 h5 h6⟩
  intro m argv0 cmdline bg pid
  obtain ⟨l, h1, h2, -⟩ := launchM_writes m argv0 cmdline bg pid
  exact ⟨l, h1, h2⟩

/-! ## The mirror records and the job table -/

theorem sameRecords_refl (s : Shell) : SameRecords s s :=
  ⟨rfl, fun _ => rfl, fun _ _ => Iff.rfl⟩

theorem sameRecords_trans {s t u : Shell} (h1 : SameRecords s t) (h2 : SameRecords t u) :
    SameRecords s u :=
  ⟨h2.1.trans h1.1, fun q => (h2.2.1 q).trans (h1.2.1 q),
    fun q hq => (h2.2.2 q hq).trans (h1.2.2 q hq)⟩

/-- States with the same records, table and shell pid. -/
theorem sameRecords_of_eq {s t : Shell} (hp : t.procs = s.procs) (hj : t.jobs = s.jobs)
    (hs : t.shell_pid = s.shell_pid) : SameRecords s t :=
  ⟨hs, fun q => hasProc_congr hp q, fun _ _ => by rw [hj]⟩

/-- Being in step carries over to a state with the same records and pids. -/
theorem synced_of_same {s t : Shell} (h : Synced s) (hst : SameRecords s t) : Synced t := by
  intro q
  rw [hst.2.1 q, hst.1, h q]
  by_cases hq : q = 0
  · simp [hq]
  · rw [hst.2.2 q hq]

/-- The step ended the process or kept records and pids. -/
theorem kept_seq {s t : Shell} (k : Shell → Shell)
    (h1 : t.mode.ended ∨ SameRecords s t)
    (h2 : t.mode = Mode.run → (k t).mode.ended ∨ SameRecords t (k t)) :
    (t.seq k).mode.ended ∨ SameRecords s (t.seq k) := by
  by_cases hm : t.mode = Mode.run
  · rw [seq_of_run _ hm]
    rcases h1 with h | h
    · exact absurd hm (ended_not_run h)
    · rcases h2 hm with h3 | h3
      · exact Or.inl h3
      · exact Or.inr (sameRecords_trans h h3)
  · rw [seq_of_not_run _ hm]
    exact h1

theorem change_proc_stat_shell_pid (s : Shell) (pid : Int) (stat : String) :
    (change_proc_stat s pid stat).shell_pid = s.shell_pid := by
  unfold change_proc_stat
  split <;> rfl

theorem remove_proc_shell_pid (s : Shell) (pid : Int) :
    (remove_proc s pid).shell_pid = s.shell_pid := by
  unfold remove_proc
  split <;> rfl

/-- The function `change_proc_stat` ends the process or keeps records and
pids. -/
theorem change_proc_stat_kept (s : Shell) (pid : Int) (stat : String) :
    (change_proc_stat s pid stat).mode.ended ∨ SameRecords s (change_proc_stat s pid stat) := by
  obtain ⟨hj, -, h | h⟩ := change_proc_stat_spec s pid stat
  · exact Or.inr ⟨change_proc_stat_shell_pid s pid stat, h.2.2, fun _ _ => by rw [hj]⟩
  · left
    rw [h.1]
    trivial

/-- The assignment `job->state = st` changes no pid. -/
theorem setState_pids (jobs : List job_t) (i : Nat) (st : Int) (q : Int) :
    (∃ j ∈ setState jobs i st, j.pid = q) ↔ ∃ j ∈ jobs, j.pid = q := by
  constructor
  · rintro ⟨j2, hj2, hq⟩
    obtain ⟨k, j, -, hk, hp, -⟩ := mem_setState hj2
    exact ⟨j, List.getElem?_mem hk, hp ▸ hq⟩
  · rintro ⟨j, hj, hq⟩
    obtain ⟨k, hk⟩ := List.mem_iff_getElem?.1 hj
    by_cases hki : k = i
    · refine ⟨{ j with state := st }, ?_, hq⟩
      apply List.getElem?_mem (n := i)
      rw [setState_getElem?, if_pos rfl, ← hki, hk]
      rfl
    · refine ⟨j, ?_, hq⟩
      apply List.getElem?_mem (n := k)
      rw [setState_getElem?, if_neg hki, hk]

theorem sameRecords_setState (s : Shell) (i : Nat) (st : Int) :
    SameRecords s { s with jobs := setState s.jobs i st } :=
  ⟨rfl, fun _ => rfl, fun q _ => setState_pids s.jobs i st q⟩

theorem sameRecords_waitfg (s : Shell) (pid : Int) : SameRecords s (waitfg s pid) := by
  rcases waitfg_cases s pid with h | ⟨i, j, -, -, -, h⟩
  · rw [h.1]; exact sameRecords_refl s
  · rw [h]; exact sameRecords_of_eq rfl rfl rfl

/-- The function `do_bgfg` ends the process or keeps records and pids. -/
theorem do_bgfg_kept (s : Shell) (argv : List (List Char)) :
    (do_bgfg s argv noSignals).mode.ended ∨ SameRecords s (do_bgfg s argv noSignals) := by
  rw [do_bgfg_quiet]
  cases argv with
  | nil => exact Or.inr (sameRecords_refl s)
  | cons cmd tl =>
    cases tl with
    | nil => exact Or.inr (sameRecords_of_eq rfl rfl rfl)
    | cons target rest =>
      unfold do_bgfgQuiet
      dsimp only
      split
      · exact Or.inr (sameRecords_of_eq rfl rfl rfl)
      · rcases pidjid_str2job s.jobs target with _ | _ | i
        · exact Or.inl trivial
        · exact Or.inr (sameRecords_of_eq rfl rfl rfl)
        · dsimp only
          split
          · exact Or.inr (sameRecords_of_eq rfl rfl rfl)
          · split
            · refine kept_seq _ (change_proc_stat_kept _ _ _) (fun _ => ?_)
              refine kept_seq _ (change_proc_stat_kept _ _ _) (fun _ => ?_)
              refine kept_seq _ (Or.inr ?_) (fun _ => change_proc_stat_kept _ _ _)
              refine sameRecords_trans ?_ (sameRecords_waitfg _ _)
              refine sameRecords_trans ?_ (sameRecords_setState _ i FG)
              split
              · exact sameRecords_of_eq rfl rfl rfl
              · exact sameRecords_refl _
            · split
              · refine kept_seq _ (change_proc_stat_kept _ _ _) (fun _ => Or.inr ?_)
                refine sameRecords_trans ?_ (sameRecords_setState _ i BG)
                split
                · exact sameRecords_of_eq rfl rfl rfl
                · exact sameRecords_refl _
              · exact Or.inr (sameRecords_refl s)

/-- The function `add_user` ends the process or keeps records and pids. -/
theorem add_user_kept (s : Shell) (argv : List (List Char)) :
    (add_user s argv).mode.ended ∨ SameRecords s (add_user s argv) := by
  unfold add_user
  split
  · exact Or.inr (sameRecords_of_eq rfl rfl rfl)
  · split
    · split
      · exact Or.inr (sameRecords_of_eq rfl rfl rfl)
      · dsimp only
        split
        · left; trivial
        · exact Or.inr (sameRecords_of_eq rfl rfl rfl)
    · exact Or.inr (sameRecords_of_eq rfl rfl rfl)
    · exact Or.inr (sameRecords_of_eq rfl rfl rfl)

/-- The function `do_quit`, called at the prompt, ends the process or waits
with records and pids kept. -/
theorem do_quit_kept {s : Shell} (hm : s.mode = Mode.run) :
    (do_quit s).mode.ended ∨ SameRecords s (do_quit s) := by
  unfold do_quit quitWait
  dsimp only
  split
  · exact Or.inr (sameRecords_of_eq rfl rfl rfl)
  · left
    exact quitFinish_ended (by exact hm)


/-- The pids in the table after a free slot was filled. -/
theorem set_free_pids {jobs : List job_t} {i : Nat} {j0 : job_t} (hj0 : jobs[i]? = some j0)
    (hfree : j0.pid = 0) (a : job_t) {q : Int} (hq : q ≠ 0) :
    (∃ j ∈ jobs.set i a, j.pid = q) ↔ ((∃ j ∈ jobs, j.pid = q) ∨ a.pid = q) := by
  have hi : i < jobs.length := by
    rcases Nat.lt_or_ge i jobs.length with h | h
    · exact h
    · rw [List.getElem?_eq_none h] at hj0
      exact absurd hj0 (by simp)
  constructor
  · rintro ⟨j, hj, hjq⟩
    obtain ⟨k, hk⟩ := List.mem_iff_getElem?.1 hj
    rw [getElem?_set_slot _ _ _ _ hi] at hk
    by_cases hki : k = i
    · rw [if_pos hki] at hk
      cases hk
      exact Or.inr hjq
    · rw [if_neg hki] at hk
      exact Or.inl ⟨j, List.getElem?_mem hk, hjq⟩
  · rintro (⟨j, hj, hjq⟩ | ha)
    · obtain ⟨k, hk⟩ := List.mem_iff_getElem?.1 hj
      have hki : k ≠ i := by
        intro h
        rw [h, hj0] at hk
        cases hk
        exact hq (hjq.symm.trans hfree)
      refine ⟨j, ?_, hjq⟩
      apply List.getElem?_mem (n := k)
      rw [getElem?_set_slot _ _ _ _ hi, if_neg hki, hk]
    · refine ⟨a, ?_, ha⟩
      apply List.getElem?_mem (n := i)
      rw [getElem?_set_slot _ _ _ _ hi, if_pos rfl]

/-- The pids in the table after the slot of `pid` was cleared. -/
theorem set_cleared_pids {jobs : List job_t} (hu : PidsUnique jobs) {i : Nat} {j0 : job_t}
    (hj0 : jobs[i]? = some j0) {q : Int} (hq : q ≠ 0) :
    (∃ j ∈ jobs.set i clearedJob, j.pid = q) ↔ ((∃ j ∈ jobs, j.pid = q) ∧ q ≠ j0.pid) := by
  have hi : i < jobs.length := by
    rcases Nat.lt_or_ge i jobs.length with h | h
    · exact h
    · rw [List.getElem?_eq_none h] at hj0
      exact absurd hj0 (by simp)
  constructor
  · rintro ⟨j, hj, hjq⟩
    obtain ⟨k, hk⟩ := List.mem_iff_getElem?.1 hj
    rw [getElem?_set_slot _ _ _ _ hi] at hk
    by_cases hki : k = i
    · rw [if_pos hki] at hk
      cases hk
      exact absurd hjq.symm hq
    · rw [if_neg hki] at hk
      refine ⟨⟨j, List.getElem?_mem hk, hjq⟩, ?_⟩
      intro he
      exact hki (hu k i j j0 hk hj0 (by rw [hjq]; exact hq) (hjq.trans he))
  · rintro ⟨⟨j, hj, hjq⟩, hne⟩
    obtain ⟨k, hk⟩ := List.mem_iff_getElem?.1 hj
    have hki : k ≠ i := by
      intro h
      rw [h, hj0] at hk
      cases hk
      exact hne hjq.symm
    refine ⟨j, ?_, hjq⟩
    apply List.getElem?_mem (n := k)
    rw [getElem?_set_slot _ _ _ _ hi, if_neg hki, hk]

/-- A launch with a fresh pid and a free slot ends the process or leaves the
records in step with the table. -/
theorem launch_synced {s : Shell} (hm : s.mode = Mode.run) (hs : Synced s)
    (argv0 cmdline : List Char) (bg pid : Int) (hpid : 1 ≤ pid)
    (hfresh : hasProc s pid = false) (hfree : ∃ j ∈ s.jobs, j.pid = 0) :
    (launch s argv0 cmdline bg pid).mode.ended ∨ Synced (launch s argv0 cmdline bg pid) := by
  -- the first step
  have hfirst : ∃ s1 : Shell,
      s1 = (if bg = 0 then change_proc_stat s s.shell_pid "Ss" else s) ∧
      (s1.mode.ended ∨ (s1.mode = Mode.run ∧ s1.jobs = s.jobs ∧ s1.shell_pid = s.shell_pid ∧
        ∀ q, hasProc s1 q = hasProc s q)) := by
    by_cases hbg : bg = 0
    · refine ⟨change_proc_stat s s.shell_pid "Ss", by rw [if_pos hbg], ?_⟩
      obtain ⟨hj, -, h | h⟩ := change_proc_stat_spec s s.shell_pid "Ss"
      · exact Or.inr ⟨h.1.trans hm, hj, change_proc_stat_shell_pid _ _ _, h.2.2⟩
      · left; rw [h.1]; trivial
    · exact ⟨s, by rw [if_neg hbg], Or.inr ⟨hm, rfl, rfl, fun _ => rfl⟩⟩
  obtain ⟨s1, hs1, h1⟩ := hfirst
  unfold launch
  simp only []
  rw [← hs1]
  rcases h1 with he | ⟨m1, j1, p1, r1⟩
  · rw [seq_of_not_run _ (ended_not_run he)]
    exact Or.inl he
  rw [seq_of_run _ m1]
  obtain ⟨j0, hj0m, hj0⟩ := hfree
  have hj0m1 : j0 ∈ s1.jobs := by rw [j1]; exact hj0m
  obtain ⟨i, j0', hfi, hj0', hp0⟩ := @firstIdx_of_mem (fun j => j.pid == 0) s1.jobs j0
    hj0m1 (by simpa using hj0)
  have hp0' : j0'.pid = 0 := by simpa using hp0
  obtain ⟨-, a2, -⟩ := @addjob_of_some s1 pid (if bg = 0 then FG else BG) cmdline i
    (by omega) hfi
  obtain ⟨fm, fp, fs⟩ := addjob_frame s1 pid (if bg = 0 then FG else BG) cmdline
  have hfresh2 : hasProc (addjob s1 pid (if bg = 0 then FG else BG) cmdline).2 pid = false := by
    rw [hasProc_congr fp, r1]
    exact hfresh
  obtain ⟨c1, -, c3, c4, -, -, c7⟩ := add_proc_of_not_hasProc hfresh2 argv0
    (addjob s1 pid (if bg = 0 then FG else BG) cmdline).2.shell_pid (if bg = 0 then "R+" else "R")
  generalize add_proc (addjob s1 pid (if bg = 0 then FG else BG) cmdline).2 argv0 pid
    (addjob s1 pid (if bg = 0 then FG else BG) cmdline).2.shell_pid
    (if bg = 0 then "R+" else "R") = s3 at c1 c3 c4 c7 ⊢
  have m3 : s3.mode = Mode.run := c3.trans (fm.trans m1)
  have hs3 : Synced s3 := by
    intro q
    rw [c7, c4, fs, p1, hasProc_congr fp, r1, c1, a2]
    by_cases hq : q = 0
    · subst hq
      have hqp : ((0 : Int) == pid) = false := by
        rw [beq_eq_false_iff_ne]
        omega
      rw [hqp, Bool.or_false, hs 0]
      simp
    · rw [set_free_pids hj0' hp0' _ hq, j1]
      simp only [Bool.or_eq_true, beq_iff_eq, hs q]
      constructor
      · rintro ((h | h) | h)
        · exact Or.inl h
        · exact Or.inr ⟨hq, Or.inl h.2⟩
        · exact Or.inr ⟨hq, Or.inr h.symm⟩
      · rintro (h | ⟨-, h | h⟩)
        · exact Or.inl (Or.inl h)
        · exact Or.inl (Or.inr ⟨hq, h⟩)
        · exact Or.inr h.symm
  rw [seq_of_run _ m3]
  by_cases hbg : bg = 0
  · rw [if_pos hbg]
    rcases kept_seq (s := s3) (fun s4 => change_proc_stat s4 s4.shell_pid "Rs+")
      (Or.inr (sameRecords_waitfg s3 pid)) (fun _ => change_proc_stat_kept _ _ _) with h | h
    · exact Or.inl h
    · exact Or.inr (synced_of_same hs3 h)
  · rw [if_neg hbg]
    exact Or.inr hs3

/-- In a table that is `TableOK`, `deletejob` succeeds on the pid of a job
that is in it. -/
theorem deletejob_of_mem {s : Shell} (hok : TableOK s) {j : job_t} (hj : j ∈ s.jobs)
    (hne : j.pid ≠ 0) : (deletejob s j.pid).1 = 1 := by
  have hpos : ¬ j.pid < 1 := by
    rcases hok.2 j hj with ⟨hz, -⟩ | ⟨hp, -⟩
    · exact absurd hz hne
    · omega
  cases hfi : firstIdx (fun j2 => j2.pid == j.pid) s.jobs with
  | none =>
    have := (firstIdx_eq_none_iff _ _).1 hfi j hj
    simp at this
  | some i => rw [deletejob_of_some hpos hfi]

/-- The `deletejob` and `remove_proc` of `sigchld_handler`, for a pid other
than the shell's own: the process ends, or the records are in step again. -/
theorem deletejob_remove_proc_synced {s : Shell} (hc : Core s) (hs : Synced s)
    (pid : Int) (hne : pid ≠ s.shell_pid) :
    (remove_proc (deletejob s pid).2 pid).mode.ended ∨
      Synced (remove_proc (deletejob s pid).2 pid) := by
  obtain ⟨-, fp, fs⟩ := deletejob_frame s pid
  obtain ⟨hj, -, h | h⟩ := remove_proc_spec (deletejob s pid).2 pid
  · right
    obtain ⟨-, h2, h3⟩ := h
    rw [hasProc_congr fp] at h2
    -- the record exists, so the pid is in the table and `deletejob` succeeds
    have hin : pid ≠ 0 ∧ ∃ j ∈ s.jobs, j.pid = pid := by
      rcases (hs pid).1 h2 with h | h
      · exact absurd h hne
      · exact h
    obtain ⟨hp0, j1, hj1, hj1p⟩ := hin
    have hsucc : (deletejob s pid).1 = 1 := by
      rw [← hj1p]
      exact deletejob_of_mem hc.1 hj1 (by rw [hj1p]; exact hp0)
    obtain ⟨-, i, hfi, -, hjobs, -⟩ := deletejob_success hsucc
    obtain ⟨⟨j0, hj0, hp0'⟩, -⟩ := (firstIdx_eq_some_iff _ _ _).1 hfi
    have hj0p : j0.pid = pid := by simpa using hp0'
    intro q
    rw [h3, hasProc_congr fp, remove_proc_shell_pid, fs, hj, hjobs]
    by_cases hq : q = 0
    · have hqp : q ≠ pid := by rw [hq]; exact fun h => hp0 h.symm
      simp only [Bool.and_eq_true, bne_iff_ne, ne_eq, hqp, not_false_eq_true, and_true, hs q]
      simp [hq]
    · rw [set_cleared_pids hc.2.1 hj0 hq, hj0p]
      simp only [Bool.and_eq_true, bne_iff_ne, ne_eq, hs q]
      constructor
      · rintro ⟨h | h, hqp⟩
        · exact Or.inl h
        · exact Or.inr ⟨hq, h.2, hqp⟩
      · rintro (h | ⟨-, h, hqp⟩)
        · exact ⟨Or.inl h, fun he => hne (he.symm.trans h)⟩
        · exact ⟨Or.inr ⟨hq, h⟩, hqp⟩
  · left
    rw [h.1]
    trivial

theorem seq_shell_pid (s : Shell) (k : Shell → Shell)
    (h : ∀ t, (k t).shell_pid = t.shell_pid) : (s.seq k).shell_pid = s.shell_pid := by
  unfold Shell.seq
  split
  · exact h s
  · rfl

theorem sigchld_step_shell_pid (s : Shell) (pid : Int) (status : Status) :
    (sigchld_step s pid status).shell_pid = s.shell_pid := by
  unfold sigchld_step
  dsimp only
  rw [seq_shell_pid]
  · cases status with
    | stopped => cases getjobpid s.jobs pid <;> rfl
    | signaled sig =>
      cases getjobpid s.jobs pid with
      | none => rfl
      | some i => exact (deletejob_frame _ _).2.2
    | exited => exact (deletejob_frame _ _).2.2
  · intro t
    split
    · exact change_proc_stat_shell_pid _ _ _
    · exact remove_proc_shell_pid _ _

/-- One reaped child other than the shell itself: the handler ends the
process, or the records are in step again. -/
theorem sigchld_step_synced {s : Shell} (hm : s.mode = Mode.run) (hc : Core s) (hs : Synced s)
    (pid : Int) (status : Status) (hne : pid ≠ s.shell_pid) :
    (sigchld_step s pid status).mode.ended ∨ Synced (sigchld_step s pid status) := by
  unfold sigchld_step
  cases status with
  | stopped =>
    simp only []
    cases hg : getjobpid s.jobs pid with
    | none =>
      simp only []
      rw [seq_of_not_run _ (by simp)]
      left; trivial
    | some i =>
      simp only []
      rw [seq_of_run _ (by exact hm)]
      simp only [if_true]
      rcases change_proc_stat_kept { s with jobs := setState s.jobs i ST } pid "T" with h | h
      · exact Or.inl h
      · exact Or.inr (synced_of_same hs (sameRecords_trans (sameRecords_setState s i ST) h))
  | signaled sig =>
    simp only []
    cases hg : getjobpid s.jobs pid with
    | none =>
      simp only []
      rw [seq_of_not_run _ (by simp)]
      left; trivial
    | some i =>
      simp only []
      have hm1 : (s.print (Msg.terminated (s.jobs.getD i clearedJob).pid sig)).mode = Mode.run := hm
      have hc1 : Core (s.print (Msg.terminated (s.jobs.getD i clearedJob).pid sig)) :=
        core_congr rfl rfl (fun _ hq => hq) hc
      have hs1 : Synced (s.print (Msg.terminated (s.jobs.getD i clearedJob).pid sig)) :=
        synced_of_same hs (sameRecords_of_eq rfl rfl rfl)
      rw [seq_of_run _ (by rw [(deletejob_frame _ _).1]; exact hm1)]
      simp only [reduceCtorEq, if_false]
      exact deletejob_remove_proc_synced hc1 hs1 pid hne
  | exited =>
    simp only []
    rw [seq_of_run _ (by rw [(deletejob_frame _ _).1]; exact hm)]
    simp only [reduceCtorEq, if_false]
    exact deletejob_remove_proc_synced hc hs pid hne

/-- The function `sigchld_handler`, when no reaped pid is the shell's own: the
process ends, or the records are in step again. -/
theorem sigchld_handler_synced (reaped : List (Int × Status)) :
    ∀ s : Shell, s.mode = Mode.run → Core s → Synced s → (∀ x ∈ reaped, x.1 ≠ s.shell_pid) →
      (sigchld_handler s reaped).mode.ended ∨ Synced (sigchld_handler s reaped) := by
  induction reaped with
  | nil => intro s _ _ hs _; exact Or.inr hs
  | cons x rest ih =>
    intro s hm hc hs hne
    obtain ⟨pid, status⟩ := x
    unfold sigchld_handler
    by_cases hp : pid > 0
    · rw [if_pos hp]
      have hne1 : pid ≠ s.shell_pid := hne (pid, status) (List.mem_cons_self _ _)
      rcases sigchld_step_spec hm hc pid status with he | ⟨h1, h2, -⟩
      · rw [seq_of_not_run _ (ended_not_run he)]
        exact Or.inl he
      · rw [seq_of_run _ h1]
        rcases sigchld_step_synced hm hc hs pid status hne1 with he | h3
        · exact absurd h1 (ended_not_run he)
        · exact ih _ h1 h2 h3 (fun x hx => by
            rw [sigchld_step_shell_pid]
            exact hne x (List.mem_cons_of_mem _ hx))
    · rw [if_neg hp]
      exact Or.inr hs

/-- Every handler, when `SIGCHLD` does not report the shell's own pid: the
process ends, or the records are in step again. -/
theorem handler_synced {s : Shell} (hm : s.mode = Mode.run) (hc : Core s) (hs : Synced s)
    (n : Notification)
    (hne : ∀ reaped, n = Notification.sigchld reaped → ∀ x ∈ reaped, x.1 ≠ s.shell_pid) :
    (handler s n).mode.ended ∨ Synced (handler s n) := by
  cases n with
  | sigchld reaped => exact sigchld_handler_synced reaped s hm hc hs (hne reaped rfl)
  | sigint =>
    right
    unfold handler sigint_handler
    simp only []
    split
    · exact synced_of_same hs (sameRecords_of_eq rfl rfl rfl)
    · exact hs
  | sigtstp =>
    right
    unfold handler sigtstp_handler
    simp only []
    split
    · exact synced_of_same hs (sameRecords_of_eq rfl rfl rfl)
    · exact hs
  | sigquit => left; trivial

/-- The function `nth_cmd` ends the process or leaves the records in step, if
the call of `eval` in it does. -/
theorem nth_cmd_synced {ev : Shell → List Char → Shell} {s : Shell} (hs : Synced s)
    (hev : ∀ l, (ev s l).mode.ended ∨ Synced (ev s l)) (argv : List (List Char)) :
    (nth_cmd ev s argv).mode.ended ∨ Synced (nth_cmd ev s argv) := by
  unfold nth_cmd
  simp only []
  split
  · exact Or.inr (synced_of_same hs (sameRecords_of_eq rfl rfl rfl))
  · split
    · left; trivial
    · split
      · exact Or.inr (synced_of_same hs (sameRecords_of_eq rfl rfl rfl))
      · exact hev _

/-- The function `builtin_cmd`, called at the prompt, ends the process or
leaves the records in step, if the replay does; when it returns 0 it has
changed nothing and the first word is no built-in. -/
theorem builtin_cmd_synced {ev : Shell → List Char → Shell} {s : Shell}
    (hm : s.mode = Mode.run) (hs : Synced s) (argv : List (List Char))
    (hev : (argv.headD []).head? = some '!' → ∀ l, (ev s l).mode.ended ∨ Synced (ev s l)) :
    ((builtin_cmd ev s argv).2.mode.ended ∨ Synced (builtin_cmd ev s argv).2) ∧
      ((builtin_cmd ev s argv).1 = 0 →
        (builtin_cmd ev s argv).2 = s ∧ isBuiltin (argv.headD []) = false) := by
  have kept : ∀ t : Shell, (t.mode.ended ∨ SameRecords s t) → (t.mode.ended ∨ Synced t) := by
    intro t h
    rcases h with h | h
    · exact Or.inl h
    · exact Or.inr (synced_of_same hs h)
  unfold builtin_cmd
  simp only []
  split
  · exact ⟨kept _ (do_bgfg_kept s argv), fun h => absurd h one_ne_zero_int⟩
  · split
    · refine ⟨?_, fun h => absurd h one_ne_zero_int⟩
      split
      · exact kept _ (Or.inr (sameRecords_of_eq rfl rfl rfl))
      · exact kept _ (Or.inr (sameRecords_of_eq rfl rfl rfl))
    · split
      · exact ⟨kept _ (add_user_kept s argv), fun h => absurd h one_ne_zero_int⟩
      · split
        · refine ⟨?_, fun h => absurd h one_ne_zero_int⟩
          split
          · exact kept _ (Or.inr (sameRecords_of_eq rfl rfl rfl))
          · exact kept _ (Or.inr (sameRecords_of_eq rfl rfl rfl))
        · split
          · rename_i hbang
            exact ⟨nth_cmd_synced hs (hev hbang) argv, fun h => absurd h one_ne_zero_int⟩
          · split
            · refine ⟨?_, fun h => absurd h one_ne_zero_int⟩
              split
              · exact kept _ (Or.inr (sameRecords_of_eq rfl rfl rfl))
              · exact kept _ (do_quit_kept hm)
            · split
              · exact ⟨kept _ (do_quit_kept hm), fun h => absurd h one_ne_zero_int⟩
              · rename_i h1 h2 h3 h4 h5 h6 h7
                refine ⟨Or.inr hs, fun _ => ⟨rfl, ?_⟩⟩
                simp only [isBuiltin, Bool.or_eq_false_iff, beq_eq_false_iff_ne, ne_eq]
                rw [not_or] at h1
                exact ⟨⟨⟨⟨⟨⟨⟨h1.1, h1.2⟩, h2⟩, h3⟩, h4⟩, by simpa using h5⟩, h6⟩, h7⟩

/-- The function `eval`, called at the prompt either with a fresh pid from
`fork` and a free slot, or on a built-in other than a replay: the process ends
or the records are in step again. -/
theorem evalFuel_synced (fuel : Nat) :
    ∀ (s : Shell) (cmdline : List Char) (forkpid : Int), s.mode = Mode.run → Synced s →
      ((1 ≤ forkpid ∧ hasProc s forkpid = false ∧ ∃ j ∈ s.jobs, j.pid = 0) ∨
        ∃ (arg0 : List Char) (args : List (List Char)) (bg : Int),
          parseline cmdline = some (arg0 :: args, bg) ∧
          isBuiltin arg0 = true ∧ arg0.head? ≠ some '!') →
      (evalFuel fuel s cmdline forkpid).mode.ended ∨ Synced (evalFuel fuel s cmdline forkpid) := by
  induction fuel with
  | zero =>
    intro s cmdline forkpid _ _ _
    left; trivial
  | succ fuel ih =>
    intro s cmdline forkpid hm hs hcond
    rcases hp : parseline cmdline with _ | ⟨_ | ⟨arg0, args⟩, bg0⟩
    · left
      rw [evalFuel, hp]
      trivial
    · right
      rw [evalFuel, hp]
      exact hs
    · rw [evalFuel_succ fuel s cmdline forkpid hp]
      have h1 : (if arg0.head? ≠ some '!' then add_history s cmdline else s).mode = Mode.run := by
        split <;> exact hm
      have h2 : SameRecords s (if arg0.head? ≠ some '!' then add_history s cmdline else s) := by
        split
        · exact sameRecords_of_eq rfl rfl rfl
        · exact sameRecords_refl s
      have h3 : (if arg0.head? ≠ some '!' then add_history s cmdline else s).jobs = s.jobs := by
        split <;> rfl
      have h4 : arg0.head? = some '!' →
          (if arg0.head? ≠ some '!' then add_history s cmdline else s) = s := by
        intro h
        rw [if_neg (by simpa using h)]
      generalize (if arg0.head? ≠ some '!' then add_history s cmdline else s) = s1
        at h1 h2 h3 h4 ⊢
      have hs1 : Synced s1 := synced_of_same hs h2
      obtain ⟨k1, k2⟩ := @builtin_cmd_synced (fun s' l => evalFuel fuel s' l forkpid) s1 h1 hs1
        (arg0 :: args) (by
          intro hbang l
          rw [List.headD_cons] at hbang
          rw [h4 hbang]
          rcases hcond with hc | ⟨a, as, b, ha, -, hnb⟩
          · exact ih s l forkpid hm hs (Or.inl hc)
          · rw [hp] at ha
            obtain ⟨ha1, -⟩ := List.cons.inj (Prod.mk.inj (Option.some.inj ha)).1
            exact absurd hbang (ha1 ▸ hnb))
      by_cases hr : (builtin_cmd (fun s' l => evalFuel fuel s' l forkpid) s1 (arg0 :: args)).1 = 0
      · rw [if_pos hr, (k2 hr).1]
        rcases hcond with ⟨c1, c2, c3⟩ | ⟨a, as, b, ha, hb, -⟩
        · exact launch_synced h1 hs1 _ _ _ _ c1 (by rw [h2.2.1]; exact c2) (by rw [h3]; exact c3)
        · rw [hp] at ha
          obtain ⟨ha1, -⟩ := List.cons.inj (Prod.mk.inj (Option.some.inj ha)).1
          have := (k2 hr).2
          rw [List.headD_cons, ha1, hb] at this
          exact absurd this (by simp)
      · rw [if_neg hr]
        exact k1

/-- One signal delivery, when `SIGCHLD` does not report the shell's own pid:
the process ends, or the records are in step again. -/
theorem deliver_synced {s : Shell} (hinv : ShellInv s) (hs : Synced s) (n : Notification)
    (hne : ∀ reaped, n = Notification.sigchld reaped → ∀ x ∈ reaped, x.1 ≠ s.shell_pid) :
    (deliver s n).mode.ended ∨ Synced (deliver s n) := by
  unfold deliver
  unfold ShellInv at hinv
  split
  · rename_i hm
    rw [hm] at hinv
    exact handler_synced hm hinv.1 hs n hne
  · rename_i i hm
    rw [hm] at hinv
    have hc : Core { s with mode := Mode.run } := core_congr rfl rfl (fun _ hq => hq) hinv.1
    have hs' : Synced { s with mode := Mode.run } :=
      synced_of_same hs (sameRecords_of_eq rfl rfl rfl)
    rcases handler_spec (s := { s with mode := Mode.run }) rfl hc n with he | ⟨h1, -, -⟩
    · rw [seq_of_not_run _ (ended_not_run he)]
      exact Or.inl he
    · rw [seq_of_run _ h1]
      rcases handler_synced (s := { s with mode := Mode.run }) rfl hc hs' n hne with he | h2
      · exact absurd h1 (ended_not_run he)
      · split
        · exact Or.inr (synced_of_same h2 (sameRecords_of_eq rfl rfl rfl))
        · rcases change_proc_stat_kept (handler { s with mode := Mode.run } n)
            (handler { s with mode := Mode.run } n).shell_pid "Rs+" with h | h
          · exact Or.inl h
          · exact Or.inr (synced_of_same h2 h)
  · rename_i hm
    rw [hm] at hinv
    have hc : Core { s with mode := Mode.run } := core_congr rfl rfl (fun _ hq => hq) hinv.1
    have hs' : Synced { s with mode := Mode.run } :=
      synced_of_same hs (sameRecords_of_eq rfl rfl rfl)
    rcases handler_spec (s := { s with mode := Mode.run }) rfl hc n with he | ⟨h1, -, -⟩
    · rw [seq_of_not_run _ (ended_not_run he)]
      exact Or.inl he
    · rw [seq_of_run _ h1]
      rcases handler_synced (s := { s with mode := Mode.run }) rfl hc hs' n hne with he | h2
      · exact absurd h1 (ended_not_run he)
      · unfold quitWait
        split
        · exact Or.inr (synced_of_same h2 (sameRecords_of_eq rfl rfl rfl))
        · exact Or.inl (quitFinish_ended h1)
  · exact Or.inr hs
  · exact Or.inr hs

/-- A run in which every child gets tracked is a run of the shell. -/
theorem tracked_reachable {s0 s : Shell} (h : Tracked s0 s) : Reachable s0 s := by
  induction h with
  | start => exact Reachable.start
  | command fuel cmdline forkpid _ hm _ _ _ ih => exact Reachable.command fuel cmdline forkpid ih hm
  | builtin fuel cmdline forkpid _ _ _ _ hm _ _ _ ih =>
    exact Reachable.command fuel cmdline forkpid ih hm
  | notify n _ _ ih => exact Reachable.notify n ih

/-- In a run in which every child gets tracked, the records stay in step with
the table for as long as the shell runs. -/
theorem tracked_synced {s0 s : Shell} (h0 : ShellInv s0) (hs0 : s0.mode.ended ∨ Synced s0)
    (h : Tracked s0 s) : s.mode.ended ∨ Synced s := by
  induction h with
  | start => exact hs0
  | command fuel cmdline forkpid _ hm hpid hfresh hfree ih =>
    rcases ih with he | hs
    · exact absurd hm (ended_not_run he)
    · exact evalFuel_synced fuel _ cmdline forkpid hm hs (Or.inl ⟨hpid, hfresh, hfree⟩)
  | builtin fuel cmdline forkpid arg0 args bg _ hm hp hb hbang ih =>
    rcases ih with he | hs
    · exact absurd hm (ended_not_run he)
    · exact evalFuel_synced fuel _ cmdline forkpid hm hs (Or.inr ⟨arg0, args, bg, hp, hb, hbang⟩)
  | notify n ht hne ih =>
    rcases ih with he | hs
    · left
      unfold deliver
      split
      · rename_i hm; rw [hm] at he; exact absurd he (by simp [Mode.ended])
      · rename_i hm; rw [hm] at he; exact absurd he (by simp [Mode.ended])
      · rename_i hm; rw [hm] at he; exact absurd he (by simp [Mode.ended])
      · exact he
      · exact he
    · exact deliver_synced (reachable_inv h0 (tracked_reachable ht)) hs n hne

/-- When `main` enters its loop with nothing under `./proc` before, the only
record is the shell's own. -/
theorem startShell_synced (verbose : Bool) (shell_pid ppid : Int) (username : List Char)
    (passwd : List (List Char × List Char)) (homes histfile : List (List Char)) :
    (startShell verbose shell_pid ppid username [] passwd homes histfile).mode.ended ∨
      Synced (startShell verbose shell_pid ppid username [] passwd homes histfile) := by
  unfold startShell
  generalize hs0 : bootShell verbose shell_pid username [] passwd homes histfile = s0
  have hj : s0.jobs = initjobs := by rw [← hs0]; rfl
  have hm : s0.mode = Mode.run := by rw [← hs0]; rfl
  have hsp : s0.shell_pid = shell_pid := by rw [← hs0]; rfl
  have hpr : ∀ q, hasProc s0 q = false := by intro q; rw [← hs0]; rfl
  have hz : ∀ j ∈ s0.jobs, j.pid = 0 := by
    rw [hj]
    intro j hjm
    have := List.eq_of_mem_replicate hjm
    subst this
    rfl
  obtain ⟨c1, -, c3, c4, -, -, c7⟩ := add_proc_of_not_hasProc (hpr shell_pid) "tsh".toList ppid "Rs+"
  have hsync : Synced (add_proc s0 "tsh".toList shell_pid ppid "Rs+") := by
    intro q
    rw [c7, hpr, c4, hsp, c1]
    simp only [Bool.false_or, beq_iff_eq]
    constructor
    · exact fun h => Or.inl h
    · rintro (h | ⟨hq, j, hjm, hjq⟩)
      · exact h
      · exact absurd ((hz j hjm).symm.trans hjq).symm hq
  rw [seq_of_run _ (c3.trans hm)]
  unfold init_history
  split
  · left; trivial
  · exact Or.inr (synced_of_same hsync (sameRecords_of_eq rfl rfl rfl))

/-- A child that terminated and is in the table: the handler step clears its
slot and then deletes its record, and no other record. -/
theorem sigchld_step_removes {s : Shell} (hm : s.mode = Mode.run) (hc : Core s) {pid : Int}
    {i : Nat} (hg : getjobpid s.jobs pid = some i) (status : Status)
    (hst : status ≠ Status.stopped) :
    (sigchld_step s pid status).mode = Mode.run ∧
    (∀ j ∈ (sigchld_step s pid status).jobs, j.pid ≠ pid) ∧
    hasProc (sigchld_step s pid status) pid = false ∧
    ∀ q, q ≠ pid → hasProc (sigchld_step s pid status) q = hasProc s q := by
  obtain ⟨hpos, j0, hj0, hj0p⟩ := getjobpid_some hg
  have hne0 : j0.pid ≠ 0 := by rw [hj0p]; omega
  have hrec : hasProc s pid = true := by
    rw [← hj0p]
    exact hc.2.2 j0 (List.getElem?_mem hj0) hne0
  -- the two calls the step makes in both cases
  have key : ∀ t : Shell, t.mode = Mode.run → t.jobs = s.jobs → t.nextjid = s.nextjid →
      t.procs = s.procs →
      (remove_proc (deletejob t pid).2 pid).mode = Mode.run ∧
      (∀ j ∈ (remove_proc (deletejob t pid).2 pid).jobs, j.pid ≠ pid) ∧
      hasProc (remove_proc (deletejob t pid).2 pid) pid = false ∧
      ∀ q, q ≠ pid → hasProc (remove_proc (deletejob t pid).2 pid) q = hasProc s q := by
    intro t tm tj tn tp
    obtain ⟨fm, fp, -⟩ := deletejob_frame t pid
    have hrec2 : hasProc (deletejob t pid).2 pid = true := by
      rw [hasProc_congr fp, hasProc_congr tp]
      exact hrec
    obtain ⟨r1, -, r3, -, -, -⟩ := remove_proc_of_hasProc hrec2
    obtain ⟨-, -, h | h⟩ := remove_proc_spec (deletejob t pid).2 pid
    · have hsucc : (deletejob t pid).1 = 1 := by
        rw [(deletejob_congr tj tn pid).1, ← hj0p]
        exact deletejob_of_mem hc.1 (List.getElem?_mem hj0) hne0
      obtain ⟨-, k, hfk, -, hjobs, -⟩ := deletejob_success hsucc
      rw [tj] at hfk hjobs
      obtain ⟨⟨j1, hj1, hp1⟩, -⟩ := (firstIdx_eq_some_iff _ _ _).1 hfk
      have hj1p : j1.pid = pid := by simpa using hp1
      refine ⟨r3.trans (fm.trans tm), ?_, ?_, ?_⟩
      · intro j hj hjp
        rw [r1, hjobs] at hj
        have := (set_cleared_pids hc.2.1 hj1 (q := pid) (by omega)).1 ⟨j, hj, hjp⟩
        exact this.2 hj1p.symm
      · rw [h.2.2]
        simp
      · intro q hq
        rw [h.2.2, hasProc_congr fp, hasProc_congr tp]
        simp [hq]
    · rw [hrec2] at h
      exact absurd h.2 (by simp)
  unfold sigchld_step
  cases status with
  | stopped => exact absurd rfl hst
  | signaled sig =>
    simp only [hg]
    rw [seq_of_run _ (by rw [(deletejob_frame _ _).1]; exact hm)]
    simp only [reduceCtorEq, if_false]
    exact key _ hm rfl rfl rfl
  | exited =>
    simp only []
    rw [seq_of_run _ (by rw [(deletejob_frame _ _).1]; exact hm)]
    simp only [reduceCtorEq, if_false]
    exact key s hm rfl rfl rfl

/-- A child that stopped and is in the table: the handler step keeps every
record. -/
theorem sigchld_step_stopped_records {s : Shell} (hm : s.mode = Mode.run) (hc : Core s)
    {pid : Int} {i : Nat} (hg : getjobpid s.jobs pid = some i) :
    (sigchld_step s pid Status.stopped).mode = Mode.run ∧
    ∀ q, hasProc (sigchld_step s pid Status.stopped) q = hasProc s q := by
  obtain ⟨hpos, j0, hj0, hj0p⟩ := getjobpid_some hg
  have hne0 : j0.pid ≠ 0 := by rw [hj0p]; omega
  have hrec : hasProc s pid = true := by
    rw [← hj0p]
    exact hc.2.2 j0 (List.getElem?_mem hj0) hne0
  unfold sigchld_step
  simp only [hg]
  rw [seq_of_run _ (by exact hm)]
  simp only [if_true]
  have hrec2 : hasProc { s with jobs := setState s.jobs i ST } pid = true := hrec
  obtain ⟨-, -, a3, -, -, -⟩ := change_proc_stat_of_hasProc hrec2 "T"
  obtain ⟨-, -, h | h⟩ := change_proc_stat_spec { s with jobs := setState s.jobs i ST } pid "T"
  · exact ⟨a3.trans hm, fun q => h.2.2 q⟩
  · rw [hrec2] at h
    exact absurd h.2 (by simp)

/-- The order of the two calls the handler makes for a terminated child that
is in the table: `deletejob` first, `remove_proc` on what it leaves. -/
theorem sigchld_step_order {s : Shell} (hm : s.mode = Mode.run) {pid : Int} {i : Nat}
    (hg : getjobpid s.jobs pid = some i) :
    sigchld_step s pid Status.exited = remove_proc (deletejob s pid).2 pid ∧
    ∀ sig, sigchld_step s pid (Status.signaled sig) =
      remove_proc (deletejob (s.print (Msg.terminated pid sig)) pid).2 pid := by
  obtain ⟨-, j0, hj0, hj0p⟩ := getjobpid_some hg
  constructor
  · unfold sigchld_step
    simp only []
    rw [seq_of_run _ (by rw [(deletejob_frame _ _).1]; exact hm)]
    simp only [reduceCtorEq, if_false]
  · intro sig
    unfold sigchld_step
    simp only [hg]
    rw [seq_of_run _ (by rw [(deletejob_frame _ _).1]; exact hm)]
    simp only [reduceCtorEq, if_false]
    rw [getD_of_getElem? hj0, hj0p]

/-- Claim C23 fails as stated. First, at the prompt with a full table, the
child launched last (pid 300) has a record although it is in no slot and is
not the shell (pid 100).  Second, with job 1 (pid 200) stopped, `quit` ends
the shell with the job still in the table and its record gone, as the shell's
own: `do_quit` deleted them, not the handler. -/
theorem mirror_records_synced_counterexample :
    Reachable exampleShell untrackedShell ∧ untrackedShell.mode = Mode.run ∧
    hasProc untrackedShell 300 = true ∧ untrackedShell.shell_pid = 100 ∧
    (∀ j ∈ untrackedShell.jobs, j.pid ≠ 300) ∧
    Reachable exampleShell stoppedShell ∧ stoppedShell.mode = Mode.run ∧
    (∃ j ∈ stoppedShell.jobs, j.pid = 200 ∧ j.state = ST) ∧ hasProc stoppedShell 200 = true ∧
    (evalFuel 11 stoppedShell "quit\n".toList 0).mode = Mode.exited 0 ∧
    (evalFuel 11 stoppedShell "quit\n".toList 0).jobs = stoppedShell.jobs ∧
    hasProc (evalFuel 11 stoppedShell "quit\n".toList 0) 200 = false ∧
    hasProc (evalFuel 11 stoppedShell "quit\n".toList 0) 100 = false :=
  ⟨reachable_steps _ _ Reachable.start (by decide), by decide, by decide, by decide, by decide,
    Reachable.notify _ (Reachable.command 11 _ 200 Reachable.start (by decide)),
    by decide, by decide, by decide, by decide, by decide, by decide, by decide⟩

/-- Claim C23, as amended. (1) In every state the shell reaches, from any
start, in which it has not ended, every job in the table has its record.
(2) If nothing was under `./proc` at the start, every command line was read
with `fork` returning a pid of at least 1 without a record and (unless its
first word is a built-in other than `!n`) with a free slot in the table, and
`SIGCHLD` never reported the shell's own pid, then in every such state a
record exists for a pid exactly when it is the shell's own pid or the pid of
a job in the table.  (3) When the handler finds that a child in the table
has terminated (by exit or by a signal), that step of the handler goes on,
leaves no slot with the pid, has deleted the record of the pid and no other
record, and it is `remove_proc` applied to what `deletejob` left: the slot is
cleared first.  When it finds that the child stopped, every record is
kept. -/
theorem mirror_records_synced (verbose : Bool) (shell_pid ppid : Int) (username : List Char)
    (passwd : List (List Char × List Char)) (homes histfile : List (List Char)) :
    (∀ (procs : List ProcRec) (s : Shell),
      Reachable (startShell verbose shell_pid ppid username procs passwd homes histfile) s →
      ¬ s.mode.ended → ∀ j ∈ s.jobs, j.pid ≠ 0 → hasProc s j.pid = true) ∧
    (∀ s : Shell,
      Tracked (startShell verbose shell_pid ppid username [] passwd homes histfile) s →
      ¬ s.mode.ended →
      ∀ q : Int, hasProc s q = true ↔ (q = s.shell_pid ∨ (q ≠ 0 ∧ ∃ j ∈ s.jobs, j.pid = q))) ∧
    (∀ (procs : List ProcRec) (u : Shell) (pid : Int) (i : Nat),
      Reachable (startShell verbose shell_pid ppid username procs passwd homes histfile) u →
      ¬ u.mode.ended → getjobpid u.jobs pid = some i →
      (∀ status : Status, status ≠ Status.stopped →
        (sigchld_step { u with mode := Mode.run } pid status).mode = Mode.run ∧
        (∀ j ∈ (sigchld_step { u with mode := Mode.run } pid status).jobs, j.pid ≠ pid) ∧
        hasProc (sigchld_step { u with mode := Mode.run } pid status) pid = false ∧
        ∀ q, q ≠ pid →
          hasProc (sigchld_step { u with mode := Mode.run } pid status) q = hasProc u q) ∧
      ((sigchld_step { u with mode := Mode.run } pid Status.stopped).mode = Mode.run ∧
        ∀ q, hasProc (sigchld_step { u with mode := Mode.run } pid Status.stopped) q =
          hasProc u q) ∧
      sigchld_step { u with mode := Mode.run } pid Status.exited =
        remove_proc (deletejob { u with mode := Mode.run } pid).2 pid ∧
      ∀ sig, sigchld_step { u with mode := Mode.run } pid (Status.signaled sig) =
        remove_proc (deletejob
          (Shell.print { u with mode := Mode.run } (Msg.terminated pid sig)) pid).2 pid) := by
  refine ⟨?_, ?_, ?_⟩
  · intro procs s hr hl j hj hne
    obtain ⟨hc, -⟩ := reachable_live (startShell_inv verbose shell_pid ppid username procs
      passwd homes histfile) hr hl
    exact hc.2.2 j hj hne
  · intro s ht hl
    rcases tracked_synced (startShell_inv verbose shell_pid ppid username [] passwd homes
      histfile) (startShell_synced verbose shell_pid ppid username passwd homes histfile) ht
      with h | h
    · exact absurd h hl
    · exact h
  · intro procs u pid i hr hl hg
    obtain ⟨hc, -⟩ := reachable_live (startShell_inv verbose shell_pid ppid username procs
      passwd homes histfile) hr hl
    have hc' : Core { u with mode := Mode.run } := core_congr rfl rfl (fun _ hq => hq) hc
    exact ⟨fun status hst => sigchld_step_removes (s := { u with mode := Mode.run }) rfl hc'
      hg status hst, sigchld_step_stopped_records (s := { u with mode := Mode.run }) rfl hc' hg,
      sigchld_step_order (s := { u with mode := Mode.run }) rfl hg⟩

/-- Claim C23 (amended) at the shell with job 1 (pid 200) stopped and job 2
(pid 201) in the background: the records are those of 100, 200 and 201. -/
theorem mirror_records_synced_witness :
    Tracked exampleShell (twoJobInputs.foldl step exampleShell) ∧
    ¬ (twoJobInputs.foldl step exampleShell).mode.ended ∧
    (twoJobInputs.foldl step exampleShell).shell_pid = 100 ∧
    (twoJobInputs.foldl step exampleShell).jobs.map job_t.pid = 200 :: 201 :: List.replicate 14 0 ∧
    ∀ q : Int, hasProc (twoJobInputs.foldl step exampleShell) q = true ↔
      (q = (twoJobInputs.foldl step exampleShell).shell_pid ∨
        (q ≠ 0 ∧ ∃ j ∈ (twoJobInputs.foldl step exampleShell).jobs, j.pid = q)) :=
  have ht : Tracked exampleShell (twoJobInputs.foldl step exampleShell) :=
    Tracked.notify (Notification.sigchld [(200, Status.stopped)])
      (Tracked.command 11 "/bin/b &\n".toList 201
        (Tracked.command 11 "/bin/a &\n".toList 200 Tracked.start (by decide) (by decide)
          (by decide) (by decide))
        (by decide) (by decide) (by decide) (by decide))
      (fun reaped h => by cases h; decide)
  ⟨ht, by decide, by decide, by decide,
    (mirror_records_synced false 100 1 "root".toList [] [] []).2.1 _ ht (by decide)⟩

/-! ## The history theorems at concrete inputs -/

/-- Claim C25 at eleven recorded lines: the first has dropped out. -/
theorem list_history_recent_witness :
    exampleShell.history = List.replicate MAXHISTORY [] ∧ exampleShell.history_idx = 0 ∧
    (∀ l ∈ elevenLines, l ≠ []) ∧
    (list_history (elevenLines.foldl add_history exampleShell)).out =
      [Msg.historyLine 1 "b\n".toList, Msg.historyLine 2 "c\n".toList,
        Msg.historyLine 3 "d\n".toList, Msg.historyLine 4 "e\n".toList,
        Msg.historyLine 5 "f\n".toList, Msg.historyLine 6 "g\n".toList,
        Msg.historyLine 7 "h\n".toList, Msg.historyLine 8 "i\n".toList,
        Msg.historyLine 9 "j\n".toList, Msg.historyLine 10 "k\n".toList] :=
  ⟨by decide, by decide, by decide,
    (list_history_recent exampleShell (by decide) (by decide) elevenLines (by decide)).1⟩

/-- Claim C24 (amended) after two lines: `!2` replays the second. -/
theorem history_replay_witness :
    twoLineShell.history =
      (["/bin/a &\n".toList, "/bin/b &\n".toList].foldl add_history exampleShell).history ∧
    twoLineShell.history_idx =
      (["/bin/a &\n".toList, "/bin/b &\n".toList].foldl add_history exampleShell).history_idx ∧
    parseline "!2\n".toList = some (["!2".toList], 0) ∧ atoi "2".toList = 2 ∧
    evalFuel 11 twoLineShell "!2\n".toList 202 =
      evalFuel 10 twoLineShell "/bin/b &\n".toList 202 :=
  ⟨by decide, by decide, by decide, by decide,
    (history_replay exampleShell (by decide) (by decide)
      ["/bin/a &\n".toList, "/bin/b &\n".toList] (by decide) twoLineShell (by decide)
      (by decide) 2 (by decide) (by decide) 10 "!2\n".toList 202 "2".toList [] 0
      (by decide) (by decide)).2.2⟩

/-! ## Job ids, `fg`, `bg` and their targets: the code at failing inputs -/

/-! ### Decimal numerals and `atoi` -/

/-- The character of a digit. -/
theorem digitChar_facts : ∀ d : Nat, d < 10 →
    (Char.ofNat (48 + d)).isDigit = true ∧ ((Char.ofNat (48 + d)).toNat : Int) - 48 = d ∧
    isspace (Char.ofNat (48 + d)) = false ∧ Char.ofNat (48 + d) ≠ '-' ∧
    Char.ofNat (48 + d) ≠ '+' := by
  decide

/-- The digits loop of `atoi` on a list of digit characters. -/
theorem atoiDigits_map (l : List Nat) (hl : ∀ d ∈ l, d < 10) :
    ∀ a : Int, atoiDigits a (l.map fun d => Char.ofNat (48 + d)) =
      l.foldl (fun (a : Int) (d : Nat) => a * 10 + (d : Int)) a := by
  induction l with
  | nil => intro a; rfl
  | cons d l ih =>
    intro a
    obtain ⟨h1, h2, -⟩ := digitChar_facts d (hl d (List.mem_cons_self _ _))
    rw [List.map_cons, atoiDigits, if_pos h1, h2, List.foldl_cons]
    exact ih (fun x hx => hl x (List.mem_cons_of_mem _ hx)) _

theorem foldl_digits (n : Nat) :
    (Nat.digits 10 n).reverse.foldl (fun (a : Int) (d : Nat) => a * 10 + (d : Int)) 0 = (n : Int) := by
  rw [List.foldl_reverse]
  have h : ∀ L : List Nat, List.foldr (fun (d : Nat) (a : Int) => a * 10 + (d : Int)) 0 L =
      ((Nat.ofDigits 10 L : Nat) : Int) := by
    intro L
    induction L with
    | nil => rfl
    | cons d L ih =>
      rw [List.foldr_cons, ih, Nat.ofDigits_cons]
      push_cast
      ring
  rw [h, Nat.ofDigits_digits]

/-- The digits loop of `atoi` reads a decimal numeral as its number. -/
theorem atoiDigits_decimal (n : Nat) : atoiDigits 0 (decimal n) = (n : Int) := by
  unfold decimal
  split
  · rename_i h
    rw [h]
    rfl
  · rw [atoiDigits_map _ (fun d hd => Nat.digits_lt_base (by decide) (List.mem_reverse.1 hd)),
      foldl_digits]

/-- A decimal numeral starts with a digit. -/
theorem decimal_head (n : Nat) : ∃ (d : Nat) (r : List Char), d < 10 ∧
    decimal n = Char.ofNat (48 + d) :: r := by
  unfold decimal
  split
  · exact ⟨0, [], by decide, rfl⟩
  · rename_i h
    have hne : (Nat.digits 10 n).reverse ≠ [] := by
      intro h0
      rw [List.reverse_eq_nil_iff] at h0
      exact h (Nat.digits_eq_nil_iff_eq_zero.1 h0)
    cases hl : (Nat.digits 10 n).reverse with
    | nil => exact absurd hl hne
    | cons d r =>
      have hd : d < 10 := Nat.digits_lt_base (by decide)
        (List.mem_reverse.1 (by rw [hl]; exact List.mem_cons_self _ _))
      exact ⟨d, r.map fun d => Char.ofNat (48 + d), hd, rfl⟩

/-- The C `atoi` reads the decimal numeral of a number that fits an `int` as
that number. -/
theorem atoi_decimal (n : Nat) (hn : n < 2147483648) : atoi (decimal n) = (n : Int) := by
  obtain ⟨d, r, hd, he⟩ := decimal_head n
  obtain ⟨-, -, h3, h4, h5⟩ := digitChar_facts d hd
  have hval := atoiDigits_decimal n
  unfold atoi
  rw [he] at hval ⊢
  rw [List.dropWhile_cons_of_neg (by rw [h3]; simp)]
  split
  · rename_i heq
    exact absurd (List.cons.inj heq).1 h4
  · rename_i heq
    exact absurd (List.cons.inj heq).1 h5
  · rw [hval]
    unfold clampLong toCInt
    rw [if_neg (by omega), if_neg (by omega)]
    omega

/-- The decimal numeral of a number that fits an `int` has at most 10 digits. -/
theorem decimal_length (n : Nat) (hn : n < 2147483648) : (decimal n).length ≤ 10 := by
  unfold decimal
  split
  · decide
  · rename_i h
    rw [List.length_map, List.length_reverse]
    have h1 := Nat.base_pow_length_digits_le 10 n (by decide) h
    by_contra hlen
    have h2 : 10 ^ 11 ≤ 10 ^ (Nat.digits 10 n).length :=
      Nat.pow_le_pow_right (by decide) (by omega)
    norm_num at h2
    omega

/-- A decimal numeral does not start with `%`. -/
theorem decimal_not_percent (n : Nat) : ∀ r, decimal n ≠ '%' :: r := by
  intro r h
  obtain ⟨d, r2, hd, he⟩ := decimal_head n
  rw [he] at h
  have : ∀ d : Nat, d < 10 → Char.ofNat (48 + d) ≠ '%' := by decide
  exact this d hd (List.cons.inj h).1

/-! ### Job ids of live jobs -/

/-- Claim C1, the code at a failing input. Job ids are not unique among live
jobs.  On the table alone: add pids 1 to 15, remove pid 2, add pid 16, add
pid 17; the pids added are pairwise distinct and positive, and at the end
slot 0 (pid 1) and slot 15 (pid 17) are both occupied with job id 1.  In the
shell, in ordinary use: fifteen background launches (pids 201 to 215, job
ids 1 to 15), then pid 202 exits and is reaped, which leaves `nextjid` at
`maxjid + 1 = 16`; the launch of pid 216 gets job id 16 and `addjob` resets
`nextjid` to 1 (it found `nextjid > MAXJOBS`); the launch of pid 217 gets job
id 1 while pid 201 still holds job id 1.  The shell is at the prompt with
two live jobs of id 1, and `%1` names only the first, pid 201: job 217 cannot
be addressed by its id. -/
theorem jids_reused_while_live :
    (addPids (addsFrom 1 15 ++
      [TableOp.remove 2, TableOp.add 16 BG [], TableOp.add 17 BG []])).Nodup ∧
    (∀ p ∈ addPids
      (addsFrom 1 15 ++ [TableOp.remove 2, TableOp.add 16 BG [], TableOp.add 17 BG []]), 0 < p) ∧
    (runOps (initTable false)
      (addsFrom 1 15 ++ [TableOp.remove 2, TableOp.add 16 BG [], TableOp.add 17 BG []])).jobs[0]? =
      some ⟨1, 1, BG, []⟩ ∧
    (runOps (initTable false)
      (addsFrom 1 15 ++ [TableOp.remove 2, TableOp.add 16 BG [], TableOp.add 17 BG []])).jobs[15]? =
      some ⟨17, 1, BG, []⟩ ∧
    ¬ JidsUnique (runOps (initTable false)
      (addsFrom 1 15 ++ [TableOp.remove 2, TableOp.add 16 BG [], TableOp.add 17 BG []])).jobs ∧
    Reachable exampleShell (reuseInputs.foldl step exampleShell) ∧
    ((reuseInputs.take 16).foldl step exampleShell).nextjid = 16 ∧
    ((reuseInputs.take 17).foldl step exampleShell).nextjid = 1 ∧
    (reuseInputs.foldl step exampleShell).mode = Mode.run ∧
    (reuseInputs.foldl step exampleShell).jobs.map (fun j => (j.pid, j.jid)) =
      [(201, 1), (216, 16), (203, 3), (204, 4), (205, 5), (206, 6), (207, 7), (208, 8),
        (209, 9), (210, 10), (211, 11), (212, 12), (213, 13), (214, 14), (215, 15), (217, 1)] ∧
    ¬ JidsUnique (reuseInputs.foldl step exampleShell).jobs ∧
    pidjid_str2job (reuseInputs.foldl step exampleShell).jobs "%1".toList = some (some 0) := by
  refine ⟨by decide, by decide, by decide, by decide, ?_,
    reachable_steps _ _ Reachable.start (by decide), by decide, by decide, by decide, by decide,
    ?_, by decide⟩
  · intro h
    have := h 0 15 { pid := 1, jid := 1, state := BG, cmdline := [] }
      { pid := 17, jid := 1, state := BG, cmdline := [] } (by decide) (by decide) (by decide)
      (by decide) (by decide)
    exact absurd this (by decide)
  · intro h
    have := h 0 15 { pid := 201, jid := 1, state := BG, cmdline := "/bin/job &\n".toList }
      { pid := 217, jid := 1, state := BG, cmdline := "/bin/job &\n".toList } (by decide)
      (by decide) (by decide) (by decide) (by decide)
    exact absurd this (by decide)

/-! ### `fg` and `bg` with a signal arriving before the state is written -/

/-- Claim C10, the code at a failing input. Job 1 (pid 200) is stopped and
`fg %1` resolves to its slot 0.  `do_bgfg` blocks no signal.  In the run in
which the resumed job exits at once, `SIGCHLD` is handled after the
`kill(-200, SIGCONT)` and before `job->state = FG`: the handler clears slot 0,
the assignment then marks the cleared slot `FG`, `waitfg(job->pid)` is
`waitfg(0)` and returns, and the shell is at the prompt with a slot in state
`FG` that holds no job.  In the run in which the stopped job is killed before
the first `change_proc_stat`, that call is made for pid 0 and ends the shell.
In the run without a signal the claim holds: in a reachable state at the
prompt in which the shell's own `./proc` record exists, let the target
resolve to slot `i` holding job `j`, stopped or in the background.  Then
`do_bgfg` makes exactly one `kill(-j.pid, SIGCONT)` if `j` was stopped and no
`kill` if it was in the background; slot `i` holds `j` with state `FG` and
the same pid, job id and command line; every other slot and `nextjid` are as
before; and the shell is suspended in `waitfg` on slot `i`, which a signal
leaves exactly when its handler returns with slot `i` no longer in state
`FG` or the process ends. -/
theorem fg_interrupted :
    Reachable exampleShell stoppedShell ∧ stoppedShell.mode = Mode.run ∧
    stoppedShell.jobs[0]? = some ⟨200, 1, ST, "/bin/sleep 9 &\n".toList⟩ ∧
    pidjid_str2job stoppedShell.jobs "%1".toList = some (some 0) ∧
    (do_bgfg stoppedShell ["fg".toList, "%1".toList]
      (arrivingAt 4 (Notification.sigchld [(200, Status.exited)]))).kills =
      [(-200, Signal.SIGCONT)] ∧
    (do_bgfg stoppedShell ["fg".toList, "%1".toList]
      (arrivingAt 4 (Notification.sigchld [(200, Status.exited)]))).jobs[0]? =
      some ⟨0, 0, FG, []⟩ ∧
    (do_bgfg stoppedShell ["fg".toList, "%1".toList]
      (arrivingAt 4 (Notification.sigchld [(200, Status.exited)]))).mode = Mode.run ∧
    (do_bgfg stoppedShell ["fg".toList, "%1".toList]
      (arrivingAt 1 (Notification.sigchld [(200, Status.signaled 9)]))).mode = Mode.exited 1 ∧
    (do_bgfg stoppedShell ["fg".toList, "%1".toList] noSignals).jobs[0]? =
      some ⟨200, 1, FG, "/bin/sleep 9 &\n".toList⟩ ∧
    (do_bgfg stoppedShell ["fg".toList, "%1".toList] noSignals).mode = Mode.inWaitfg 0 ∧
    (∀ (verbose : Bool) (shell_pid ppid : Int) (username : List Char) (procs : List ProcRec)
      (passwd : List (List Char × List Char)) (homes histfile : List (List Char)) (s : Shell)
      (target : List Char) (i : Nat) (j : job_t),
      Reachable (startShell verbose shell_pid ppid username procs passwd homes histfile) s →
      s.mode = Mode.run → hasProc s s.shell_pid = true →
      pidjid_str2job s.jobs target = some (some i) → s.jobs[i]? = some j →
      (j.state = ST ∨ j.state = BG) →
      (do_bgfg s ["fg".toList, target] noSignals).kills =
        s.kills ++ (if j.state = ST then [(-j.pid, Signal.SIGCONT)] else []) ∧
      (do_bgfg s ["fg".toList, target] noSignals).jobs.length = s.jobs.length ∧
      (do_bgfg s ["fg".toList, target] noSignals).jobs[i]? =
        some { pid := j.pid, jid := j.jid, state := FG, cmdline := j.cmdline } ∧
      (∀ k, k ≠ i → (do_bgfg s ["fg".toList, target] noSignals).jobs[k]? = s.jobs[k]?) ∧
      (do_bgfg s ["fg".toList, target] noSignals).nextjid = s.nextjid ∧
      (do_bgfg s ["fg".toList, target] noSignals).mode = Mode.inWaitfg i ∧
      (∀ (u : Shell) (n : Notification), u.mode = Mode.inWaitfg i →
        ((deliver u n).mode = Mode.inWaitfg i ↔
          ((handler { u with mode := Mode.run } n).mode = Mode.run ∧
            ((handler { u with mode := Mode.run } n).jobs.getD i clearedJob).state = FG)))) :=
  ⟨Reachable.notify _ (Reachable.command 11 _ 200 Reachable.start (by decide)),
    by decide, by decide, by decide, by decide, by decide, by decide, by decide, by decide,
    by decide,
    fun verbose shell_pid ppid username procs passwd homes histfile s target i j hr hm hshell
      hres hj hst =>
      fg_quiet verbose shell_pid ppid username procs passwd homes histfile s hr hm hshell
        target i j hres hj hst⟩

/-- Claim C11, the code at a failing input. Job 1 (pid 200) is stopped and
`bg %1` resolves to its slot 0.  `do_bgfg` blocks no signal.  In the run in
which the resumed job exits at once, `SIGCHLD` is handled after the
`kill(-200, SIGCONT)` and before `job->state = BG`: the handler clears slot 0
and the assignment then marks the cleared slot `BG`, a slot the claim says is
left unchanged and that holds no job.  In the run in which the stopped job is
killed before the test of `job->state`, the test reads the cleared slot and
`SIGCONT` goes to process group 0, the shell's own; killed before
`change_proc_stat`, that call is made for pid 0 and ends the shell.  In the
run without a signal, which is the run `evalFuel` makes, the claim holds: in
a reachable state at the prompt, let the line be `bg <target>` and the target
resolve to slot `i` holding job `j` (state not `UNDEF`).  Then `eval` makes
exactly one `kill(-j.pid, SIGCONT)` if `j` was not already in state `BG` and
no `kill` if it was; slot `i` holds `j` with state `BG` and the same pid, job
id and command line; every other slot and `nextjid` are as before; and `eval`
has returned to the prompt (`Mode.run`): it did not wait. -/
theorem bg_interrupted :
    Reachable exampleShell stoppedShell ∧ stoppedShell.mode = Mode.run ∧
    stoppedShell.jobs[0]? = some ⟨200, 1, ST, "/bin/sleep 9 &\n".toList⟩ ∧
    pidjid_str2job stoppedShell.jobs "%1".toList = some (some 0) ∧
    (do_bgfg stoppedShell ["bg".toList, "%1".toList]
      (arrivingAt 3 (Notification.sigchld [(200, Status.exited)]))).kills =
      [(-200, Signal.SIGCONT)] ∧
    (do_bgfg stoppedShell ["bg".toList, "%1".toList]
      (arrivingAt 3 (Notification.sigchld [(200, Status.exited)]))).jobs[0]? =
      some ⟨0, 0, BG, []⟩ ∧
    (do_bgfg stoppedShell ["bg".toList, "%1".toList]
      (arrivingAt 2 (Notification.sigchld [(200, Status.signaled 9)]))).kills =
      [(0, Signal.SIGCONT)] ∧
    (do_bgfg stoppedShell ["bg".toList, "%1".toList]
      (arrivingAt 1 (Notification.sigchld [(200, Status.signaled 9)]))).mode = Mode.exited 1 ∧
    parseline "bg %1\n".toList = some (["bg".toList, "%1".toList], 0) ∧
    (evalFuel 11 stoppedShell "bg %1\n".toList 0).kills = [(-200, Signal.SIGCONT)] ∧
    (evalFuel 11 stoppedShell "bg %1\n".toList 0).jobs[0]? =
      some ⟨200, 1, BG, "/bin/sleep 9 &\n".toList⟩ ∧
    (evalFuel 11 stoppedShell "bg %1\n".toList 0).mode = Mode.run ∧
    (∀ (verbose : Bool) (shell_pid ppid : Int) (username : List Char) (procs : List ProcRec)
      (passwd : List (List Char × List Char)) (homes histfile : List (List Char)) (s : Shell)
      (fuel : Nat) (cmdline : List Char) (forkpid : Int) (target : List Char) (bg : Int)
      (i : Nat) (j : job_t),
      Reachable (startShell verbose shell_pid ppid username procs passwd homes histfile) s →
      s.mode = Mode.run → parseline cmdline = some (["bg".toList, target], bg) →
      pidjid_str2job s.jobs target = some (some i) → s.jobs[i]? = some j →
      j.state ≠ UNDEF →
      evalFuel (fuel + 1) s cmdline forkpid =
        do_bgfg (add_history s cmdline) ["bg".toList, target] noSignals ∧
      (evalFuel (fuel + 1) s cmdline forkpid).kills =
        s.kills ++ (if j.state = BG then [] else [(-j.pid, Signal.SIGCONT)]) ∧
      (evalFuel (fuel + 1) s cmdline forkpid).jobs.length = s.jobs.length ∧
      (evalFuel (fuel + 1) s cmdline forkpid).jobs[i]? =
        some { pid := j.pid, jid := j.jid, state := BG, cmdline := j.cmdline } ∧
      (∀ k, k ≠ i → (evalFuel (fuel + 1) s cmdline forkpid).jobs[k]? = s.jobs[k]?) ∧
      (evalFuel (fuel + 1) s cmdline forkpid).nextjid = s.nextjid ∧
      (evalFuel (fuel + 1) s cmdline forkpid).mode = Mode.run) :=
  ⟨Reachable.notify _ (Reachable.command 11 _ 200 Reachable.start (by decide)),
    by decide, by decide, by decide, by decide, by decide, by decide, by decide, by decide,
    by decide, by decide, by decide,
    fun verbose shell_pid ppid username procs passwd homes histfile s fuel cmdline forkpid
      target bg i j hr hm hparse hres hj hst =>
      ⟨evalFuel_bgfg fuel s cmdline forkpid hparse (Or.inl rfl),
        bg_quiet verbose shell_pid ppid username procs passwd homes histfile s hr hm fuel
          cmdline forkpid target bg i j hparse hres hj hst⟩⟩

/-! ### The target of `fg` and `bg` -/

/-- Claim C12, the code at a failing input. Job 1 (pid 200) is stopped and is
the only job.  No job has the id 4294967297, but `atoi` stores its result in
an `int` and reads `4294967297` as 1: `fg %4294967297` resolves to job 1,
prints nothing, sends it `SIGCONT` and puts it in the foreground, where the
claim has "no such job or process" and no signal; likewise the pid
`4294967496` is read as 200.  A target `%` followed by 20 characters or more,
such as `%00000000000000000001`, is copied past the end of `jid_str[20]`: the
behaviour is undefined.  On the other targets the claim holds.  A target `%n`
with `n` a decimal numeral below `2^31` is looked up by job id `n` with
`getjobjid`, a target `n` by process id `n` with `getjobpid`; and when the
lookup gives no slot, or a slot whose state is `UNDEF`, and no signal arrives
meanwhile, the command prints "no such job or process" and does nothing
else: no `kill`, the job table and `nextjid` as before, and the shell goes on
(the mode is as before). -/
theorem bgfg_target_misread :
    stoppedShell.jobs.map (fun j => (j.pid, j.jid)) = (200, 1) :: List.replicate 15 (0, 0) ∧
    getjobjid stoppedShell.jobs 4294967297 = none ∧
    getjobpid stoppedShell.jobs 4294967496 = none ∧
    atoi "4294967297".toList = 1 ∧ atoi "4294967496".toList = 200 ∧
    pidjid_str2job stoppedShell.jobs "%4294967297".toList = some (some 0) ∧
    pidjid_str2job stoppedShell.jobs "4294967496".toList = some (some 0) ∧
    parseline "fg %4294967297\n".toList = some (["fg".toList, "%4294967297".toList], 0) ∧
    (evalFuel 11 stoppedShell "fg %4294967297\n".toList 0).out = stoppedShell.out ∧
    (evalFuel 11 stoppedShell "fg %4294967297\n".toList 0).kills = [(-200, Signal.SIGCONT)] ∧
    (evalFuel 11 stoppedShell "fg %4294967297\n".toList 0).jobs[0]? =
      some ⟨200, 1, FG, "/bin/sleep 9 &\n".toList⟩ ∧
    pidjid_str2job stoppedShell.jobs "%00000000000000000001".toList = none ∧
    (evalFuel 11 stoppedShell "fg %00000000000000000001\n".toList 0).mode =
      Mode.undefinedBehaviour ∧
    (∀ (jobs : List job_t) (r : List Char), 20 ≤ r.length →
      pidjid_str2job jobs ('%' :: r) = none) ∧
    (∀ (jobs : List job_t) (n : Nat), n < 2147483648 →
      atoi (decimal n) = (n : Int) ∧
      pidjid_str2job jobs ('%' :: decimal n) = some (getjobjid jobs n) ∧
      pidjid_str2job jobs (decimal n) = some (getjobpid jobs n)) ∧
    (∀ (s : Shell) (cmd target : List Char),
      (pidjid_str2job s.jobs target = some none ∨
        ∃ (i : Nat) (j : job_t), pidjid_str2job s.jobs target = some (some i) ∧
          s.jobs[i]? = some j ∧ j.state = UNDEF) →
      do_bgfg s [cmd, target] noSignals = s.print Msg.noSuchJob ∧
      (do_bgfg s [cmd, target] noSignals).out = s.out ++ [Msg.noSuchJob] ∧
      (do_bgfg s [cmd, target] noSignals).kills = s.kills ∧
      (do_bgfg s [cmd, target] noSignals).jobs = s.jobs ∧
      (do_bgfg s [cmd, target] noSignals).nextjid = s.nextjid ∧
      (do_bgfg s [cmd, target] noSignals).mode = s.mode) := by
  refine ⟨by decide, by decide, by decide, by decide, by decide, by decide, by decide,
    by decide, by decide, by decide, by decide, by decide, by decide, ?_, ?_, ?_⟩
  · intro jobs r hr
    unfold pidjid_str2job
    exact if_pos hr
  · intro jobs n hn
    have hat := atoi_decimal n hn
    refine ⟨hat, ?_, ?_⟩
    · have hlen : ¬ 20 ≤ (decimal n).length := by
        have := decimal_length n hn
        omega
      show (if 20 ≤ (decimal n).length then none
        else some (getjobjid jobs (atoi (decimal n)))) = _
      rw [if_neg hlen, hat]
    · unfold pidjid_str2job
      split
      · rename_i r heq
        exact absurd heq (decimal_not_percent n r)
      · rw [hat]
  · intro s cmd target h
    rw [do_bgfg_unresolved s cmd target h]
    exact ⟨rfl, rfl, rfl, rfl, rfl, rfl⟩
end Tsh
